import Mathlib

/-!
# DarkRadiant: scene merge engine, map merge lifecycle, brush fingerprints and
matrices

A shallow embedding of

* `libs/scene/merge/MergeOperation.h` (the declarations of `MergeOperation`),
* `radiantcore/map/Map.cpp` (`finishMergeOperation`, `cleanupMergeOperation`,
  `abortMergeOperation`, `setEditMode`, `startMergeOperation`, `saveAs`),
* `radiantcore/brush/BrushNode.cpp` (`BrushNode::getFingerprint`),
* `libs/math/Matrix4.cpp` (`getInverse`, `getFullInverse`, `transpose`,
  `getTransposed`, `clipTriangle`), where `float` is IEEE 754 single precision
  with rounding to nearest, ties to even,

together with models of the collaborators whose implementation files are not
part of the sources (`GraphComparer`, `ComparisonResult`, the `MergeAction`
variants, the bodies of the `MergeOperation` members and `math::Hash`).  Every
such model is marked `Modelled from the spec:` and follows the wording of the
specification.
-/

namespace scene

/-! ## Scene data model -/

/-- Modelled from the spec: a primitive (brush or patch) is an opaque geometry
blob that carries a content fingerprint (the scene node classes are not part of
the sources).  Two primitives with the same fingerprint may still be different
blobs. -/
structure Primitive where
  fingerprint : String
  geometry : Nat
deriving DecidableEq, Repr

/-- Modelled from the spec: the attribute map ("spawnargs") of an entity, kept as
an association list that is read by first match, so that every list denotes a
map from keys to values. -/
abbrev SpawnArgs := List (String × String)

/-- Modelled from the spec: value of a key in an attribute map, or absent. -/
def getKeyValue (key : String) : SpawnArgs → Option String
  | [] => none
  | (k, v) :: rest => if k = key then some v else getKeyValue key rest

/-- Modelled from the spec: delete a named attribute; nothing happens when the
key is already absent. -/
def removeKeyValue (key : String) : SpawnArgs → SpawnArgs
  | [] => []
  | (k, v) :: rest =>
    if k = key then removeKeyValue key rest else (k, v) :: removeKeyValue key rest

/-- Modelled from the spec: set a named attribute to a value (the key keeps its
place when it is already present and is appended otherwise). -/
def setKeyValue (key value : String) : SpawnArgs → SpawnArgs
  | [] => [(key, value)]
  | (k, v) :: rest =>
    if k = key then (key, value) :: removeKeyValue key rest
    else (k, v) :: setKeyValue key value rest

/-- Modelled from the spec: the keys of an attribute map, each once, in the order
of their first occurrence. -/
def keysOf : SpawnArgs → List String
  | [] => []
  | (k, _) :: rest => k :: (keysOf rest).filter (fun k2 => decide (k2 ≠ k))

/-- Modelled from the spec: an entity owns an attribute map and a list of child
primitives. -/
structure Entity where
  spawnargs : SpawnArgs
  primitives : List Primitive
deriving DecidableEq, Repr

/-- Modelled from the spec: the identifying key of an entity is its "name"
attribute; an entity may lack it. -/
def Entity.name (e : Entity) : Option String :=
  getKeyValue "name" e.spawnargs

/-- Modelled from the spec: a scene tree is a root node owning its entities in
child-list order. -/
abbrev Tree := List Entity

/-- Modelled from the spec: a reference to a node of a tree.  "Identity within a
tree is positional (parent + child list)": the node is identified by its
position in the child list of the root, and the reference gives access to the
entity at that position. -/
structure NodeRef where
  position : Nat
  node : Entity
deriving DecidableEq, Repr

/-- Modelled from the spec: the references to the entities of a child list whose
first entity is at position `first`, in traversal order. -/
def nodeRefsFrom (first : Nat) : Tree → List NodeRef
  | [] => []
  | e :: rest => ⟨first, e⟩ :: nodeRefsFrom (first + 1) rest

/-- Modelled from the spec: the references to the entities of a tree, in
traversal order. -/
def nodeRefs (t : Tree) : List NodeRef :=
  nodeRefsFrom 0 t

/-- Modelled from the spec: the fingerprints of the primitives of an entity, as
stored. -/
def Entity.fingerprints (e : Entity) : List String :=
  e.primitives.map Primitive.fingerprint

namespace merge

/-! ## Comparison result -/

/-- Modelled from the spec: classification of a key-value difference. -/
inductive KeyValueDifferenceType where
  | KeyValueAdded
  | KeyValueRemoved
  | KeyValueChanged
deriving DecidableEq, Repr

/-- Modelled from the spec: (key, sourceValue-or-absent, baseValue-or-absent)
with its classification. -/
structure KeyValueDifference where
  key : String
  sourceValue : Option String
  baseValue : Option String
  type : KeyValueDifferenceType
deriving DecidableEq, Repr

/-- Modelled from the spec: classification of a primitive difference;
primitives are never "changed". -/
inductive PrimitiveDifferenceType where
  | PrimitiveAdded
  | PrimitiveRemoved
deriving DecidableEq, Repr

/-- Modelled from the spec: a primitive difference identifies the primitive by
its fingerprint and carries the node it refers to. -/
structure PrimitiveDifference where
  fingerprint : String
  node : Primitive
  type : PrimitiveDifferenceType
deriving DecidableEq, Repr

/-- Modelled from the spec: classification of an entity difference. -/
inductive EntityDifferenceType where
  | Added
  | Removed
  | Modified
deriving DecidableEq, Repr

/-- Modelled from the spec: one record per differing entity: the identifying
key, references to the nodes the record is about (the source node for Added and
Modified, the base node for Removed and Modified), and the two lists of
sub-differences. -/
structure EntityDifference where
  type : EntityDifferenceType
  entityName : Option String
  sourceNode : Option NodeRef
  baseNode : Option NodeRef
  differingKeyValues : List KeyValueDifference
  differingChildren : List PrimitiveDifference
deriving DecidableEq, Repr

/-- Modelled from the spec: the comparison result owns the ordered list of
entity differences; it also remembers the two roots it was computed from, which
`MergeOperation` receives through it. -/
structure ComparisonResult where
  sourceRoot : Tree
  baseRoot : Tree
  differences : List EntityDifference
deriving DecidableEq, Repr

/-! ## Graph comparer -/

namespace GraphComparer

/-- Modelled from the spec: difference record for a key of the source entity:
the key is Added when the base lacks it and Changed when the base holds another
value (string equality of the values decides). -/
def sourceKeyDifference (source base : SpawnArgs) (key : String) :
    Option KeyValueDifference :=
  match getKeyValue key source, getKeyValue key base with
  | some v, none => some ⟨key, some v, none, .KeyValueAdded⟩
  | some v, some w => if v = w then none else some ⟨key, some v, some w, .KeyValueChanged⟩
  | none, _ => none

/-- Modelled from the spec: difference record for a key of the base entity: the
key is Removed when the source lacks it. -/
def baseKeyDifference (source base : SpawnArgs) (key : String) :
    Option KeyValueDifference :=
  match getKeyValue key source with
  | none => some ⟨key, none, getKeyValue key base, .KeyValueRemoved⟩
  | some _ => none

/-- Modelled from the spec: key-value diff of a matched pair, the symmetric set
difference over the two attribute maps. -/
def compareKeyValues (source base : Entity) : List KeyValueDifference :=
  (keysOf source.spawnargs).filterMap (sourceKeyDifference source.spawnargs base.spawnargs)
    ++ (keysOf base.spawnargs).filterMap (baseKeyDifference source.spawnargs base.spawnargs)

/-- Modelled from the spec: the primitives of one side that find no partner in
the bag (multiset) of fingerprints of the other side; every partner is used
once. -/
def unmatchedPrimitives : List Primitive → List String → List Primitive
  | [], _ => []
  | p :: rest, bag =>
    if p.fingerprint ∈ bag then unmatchedPrimitives rest (bag.erase p.fingerprint)
    else p :: unmatchedPrimitives rest bag

/-- Modelled from the spec: primitive diff of a matched pair, a multiset
symmetric difference of the fingerprints of both sides. -/
def comparePrimitives (source base : Entity) : List PrimitiveDifference :=
  (unmatchedPrimitives source.primitives base.fingerprints).map
      (fun p => ⟨p.fingerprint, p, .PrimitiveAdded⟩)
    ++ (unmatchedPrimitives base.primitives source.fingerprints).map
      (fun p => ⟨p.fingerprint, p, .PrimitiveRemoved⟩)

/-- Modelled from the spec: a source entity and a base entity are the same
entity, untouched: the source entity has a name (entities lacking it are never
matched) and the pair has no key-value and no primitive difference, so that in
particular both carry the same name. -/
def matchesUntouched (source base : Entity) : Bool :=
  source.name.isSome && decide (compareKeyValues source base = [])
    && decide (comparePrimitives source base = [])

/-- Modelled from the spec: a base entity is found by the name-indexed lookup of
a source entity: the source entity has a name (entities lacking it are never
matched) and the base entity carries the same name. -/
def matchesByName (source base : Entity) : Bool :=
  source.name.isSome && decide (base.name = source.name)

/-- Modelled from the spec: the outcome of matching: every source node in
traversal order with the base node it is matched with, if any, and the base
nodes that no source node is matched with, in traversal order. -/
structure Matching where
  pairs : List (NodeRef × Option NodeRef)
  unmatchedBase : List NodeRef
deriving DecidableEq, Repr

/-- Modelled from the spec: one matching step over the source nodes in traversal
order: a source node that has no partner yet takes the first base node of the
pool that the lookup `p` accepts for it, and that base node leaves the pool
(one record per entity: no base node is matched twice). -/
def matchWith (p : Entity → Entity → Bool) :
    List (NodeRef × Option NodeRef) → List NodeRef → Matching
  | [], pool => ⟨[], pool⟩
  | (s, some b) :: rest, pool =>
    let r := matchWith p rest pool
    ⟨(s, some b) :: r.pairs, r.unmatchedBase⟩
  | (s, none) :: rest, pool =>
    match pool.find? (fun b => p s.node b.node) with
    | some b =>
      let r := matchWith p rest (pool.eraseP (fun b => p s.node b.node))
      ⟨(s, some b) :: r.pairs, r.unmatchedBase⟩
    | none =>
      let r := matchWith p rest pool
      ⟨(s, none) :: r.pairs, r.unmatchedBase⟩

/-- Modelled from the spec: matching of the entities of two trees by name, the
content disambiguating entities with non-unique names: first every source node
takes an untouched base node of its name, if there is one left; then every
source node that is still without partner takes the first base node of its
name that is left. -/
def matchEntities (sourceRoot baseRoot : Tree) : Matching :=
  let untouched :=
    matchWith matchesUntouched ((nodeRefs sourceRoot).map (fun s => (s, none)))
      (nodeRefs baseRoot)
  matchWith matchesByName untouched.pairs untouched.unmatchedBase

/-- Modelled from the spec: the record for one source node: Added when it has no
partner in the base, Modified when the matched base node differs in at least
one key or primitive, and no record at all when the matched pair is
untouched. -/
def comparePair : NodeRef × Option NodeRef → List EntityDifference
  | (s, none) => [⟨.Added, s.node.name, some s, none, [], []⟩]
  | (s, some b) =>
    if compareKeyValues s.node b.node = [] ∧ comparePrimitives s.node b.node = [] then []
    else [⟨.Modified, s.node.name, some s, some b, compareKeyValues s.node b.node,
      comparePrimitives s.node b.node⟩]

/-- Modelled from the spec: the record for a base node that no source node is
matched with. -/
def removedEntity (b : NodeRef) : EntityDifference :=
  ⟨.Removed, b.node.name, none, some b, [], []⟩

/-- Modelled from the spec: `Compare(sourceRoot, baseRoot)`: the records of the
source entities in traversal order, then the base-only removals. -/
def Compare (sourceRoot baseRoot : Tree) : ComparisonResult :=
  { sourceRoot := sourceRoot
    baseRoot := baseRoot
    differences :=
      (matchEntities sourceRoot baseRoot).pairs.flatMap comparePair
        ++ (matchEntities sourceRoot baseRoot).unmatchedBase.map removedEntity }

end GraphComparer
/-! ## Merge actions -/

/-- Modelled from the spec: the error taxonomy of the merge engine. -/
inductive MergeError where
  | ConstructionError
  | StructuralConflict
  | NotFound
deriving DecidableEq, Repr

/-- Modelled from the spec: the type tag of a merge action. -/
inductive ActionType where
  | NoAction
  | AddEntity
  | RemoveEntity
  | AddKeyValue
  | RemoveKeyValue
  | ChangeKeyValue
  | AddChildNode
  | RemoveChildNode
deriving DecidableEq, Repr

/-- Modelled from the spec: the merge action variants.  An action owns a
reference to the affected node in the base tree, which is the position of the
node in the child list of the base root (`target`); AddEntity carries the
source entity that it clones. -/
inductive MergeAction where
  | AddEntity (node : Entity)
  | RemoveEntity (target : Nat)
  | AddKeyValue (target : Nat) (key value : String)
  | RemoveKeyValue (target : Nat) (key : String)
  | ChangeKeyValue (target : Nat) (key value : String)
  | AddChildNode (target : Nat) (node : Primitive)
  | RemoveChildNode (target : Nat) (fingerprint : String)
deriving DecidableEq, Repr

/-- Modelled from the spec: the type tag of each variant. -/
def MergeAction.getType : MergeAction → ActionType
  | .AddEntity _ => .AddEntity
  | .RemoveEntity _ => .RemoveEntity
  | .AddKeyValue _ _ _ => .AddKeyValue
  | .RemoveKeyValue _ _ => .RemoveKeyValue
  | .ChangeKeyValue _ _ _ => .ChangeKeyValue
  | .AddChildNode _ _ => .AddChildNode
  | .RemoveChildNode _ _ => .RemoveChildNode

/-- Modelled from the spec: the base tree while actions are applied to it: the
child list of the base root by position.  A node that has been removed leaves
its place empty and an added node is put behind the last place, so that the
references that the pending actions hold stay valid. -/
abbrev LiveTree := List (Option Entity)

/-- Modelled from the spec: the live tree of a base tree on which no action has
been applied yet. -/
def toLive (t : Tree) : LiveTree :=
  t.map some

/-- Modelled from the spec: the base tree that a live tree stands for: its
entities in child-list order. -/
def liveEntities (t : LiveTree) : Tree :=
  t.filterMap id

/-- Modelled from the spec: apply a change to the target node of the base tree;
NotFound when the target entity no longer exists. -/
def modifyNode (target : Nat) (f : Entity → Except MergeError Entity) (base : LiveTree) :
    Except MergeError LiveTree :=
  match base[target]? with
  | some (some e) =>
    match f e with
    | .ok e2 => .ok (base.set target (some e2))
    | .error err => .error err
  | _ => .error .NotFound

/-- Modelled from the spec: is there an entity in the base tree that carries the
name of the given node (a node without a name has no namesake). -/
def hasNamesake (node : Entity) (base : LiveTree) : Bool :=
  base.any (fun place =>
    match place with
    | some e => node.name.isSome && decide (e.name = node.name)
    | none => false)

/-- Modelled from the spec: RemoveChildNode on the entity: removes one primitive
matched by fingerprint; NotFound when no primitive with that fingerprint
remains. -/
def removeChildNode (fingerprint : String) (e : Entity) : Except MergeError Entity :=
  if e.primitives.any (fun p => decide (p.fingerprint = fingerprint)) then
    .ok { e with primitives := e.primitives.eraseP (fun p => decide (p.fingerprint = fingerprint)) }
  else .error .NotFound

/-- Modelled from the spec: `apply()` of each action variant on the base tree;
the result is the changed base tree or the error the action throws. -/
def MergeAction.apply : MergeAction → LiveTree → Except MergeError LiveTree
  | .AddEntity node, base =>
    if hasNamesake node base then .error .StructuralConflict
    else .ok (base ++ [some node])
  | .RemoveEntity target, base =>
    match base[target]? with
    | some (some _) => .ok (base.set target none)
    | _ => .error .NotFound
  | .AddKeyValue target key value, base =>
    modifyNode target (fun e => .ok { e with spawnargs := setKeyValue key value e.spawnargs }) base
  | .ChangeKeyValue target key value, base =>
    modifyNode target (fun e => .ok { e with spawnargs := setKeyValue key value e.spawnargs }) base
  | .RemoveKeyValue target key, base =>
    modifyNode target (fun e => .ok { e with spawnargs := removeKeyValue key e.spawnargs }) base
  | .AddChildNode target node, base =>
    modifyNode target (fun e => .ok { e with primitives := e.primitives ++ [node] }) base
  | .RemoveChildNode target fingerprint, base =>
    modifyNode target (removeChildNode fingerprint) base

/-! ## Merge operation -/

/-- The class `MergeOperation` of `MergeOperation.h`: the two root references and
the list of actions.  The roots are the trees the operation was built from. -/
structure MergeOperation where
  sourceRoot : Tree
  baseRoot : Tree
  actions : List MergeAction
deriving DecidableEq, Repr

/-- Modelled from the spec: what one `applyActions()` pass leaves behind: the
base tree after the pass, the actions that have been applied (in the order of
their application), and the failing action's index with its error when an
action threw. -/
structure ApplyOutcome where
  baseRoot : Tree
  applied : List MergeAction
  failure : Option (Nat × MergeError)
deriving DecidableEq, Repr

namespace MergeOperation

/-- The constructor `MergeOperation(sourceRoot, baseRoot)`: no actions yet. -/
def create (sourceRoot baseRoot : Tree) : MergeOperation :=
  { sourceRoot := sourceRoot, baseRoot := baseRoot, actions := [] }

/-- Modelled from the spec: `addAction` appends to the ordered list of actions
(insertion order = creation order = application order). -/
def addAction (op : MergeOperation) (action : MergeAction) : MergeOperation :=
  { op with actions := op.actions ++ [action] }

/-- Modelled from the spec: `foreachAction` hands every action to the visitor, in
list order; the visitor threads a state of its own. -/
def foreachAction {σ : Type} (op : MergeOperation) (visitor : σ → MergeAction → σ)
    (init : σ) : σ :=
  op.actions.foldl visitor init

/-- Modelled from the spec: the pass over the remaining actions, the next one
having the given index: actions run strictly in order, an action that throws
aborts the remaining ones, and what was applied before stays applied. -/
def applyActionsFrom : List MergeAction → Nat → LiveTree → ApplyOutcome
  | [], _, base => { baseRoot := liveEntities base, applied := [], failure := none }
  | a :: rest, i, base =>
    match a.apply base with
    | .error err => { baseRoot := liveEntities base, applied := [], failure := some (i, err) }
    | .ok base2 =>
      let r := applyActionsFrom rest (i + 1) base2
      { baseRoot := r.baseRoot, applied := a :: r.applied, failure := r.failure }

/-- Modelled from the spec: `applyActions()` on the base tree as it is when the
call is made. -/
def applyActions (op : MergeOperation) (base : Tree) : ApplyOutcome :=
  applyActionsFrom op.actions 0 (toLive base)

/-- Modelled from the spec: `createActionsForKeyValueDiff`: one action per
key-value difference, of the matching type, carrying the captured source
value. -/
def createActionsForKeyValueDiff (op : MergeOperation) (difference : KeyValueDifference)
    (targetEntity : Nat) : MergeOperation :=
  match difference.type with
  | .KeyValueAdded =>
    op.addAction (.AddKeyValue targetEntity difference.key (difference.sourceValue.getD ""))
  | .KeyValueRemoved =>
    op.addAction (.RemoveKeyValue targetEntity difference.key)
  | .KeyValueChanged =>
    op.addAction (.ChangeKeyValue targetEntity difference.key (difference.sourceValue.getD ""))

/-- Modelled from the spec: `createActionsForPrimitiveDiff`: one action per
primitive difference. -/
def createActionsForPrimitiveDiff (op : MergeOperation) (difference : PrimitiveDifference)
    (targetEntity : Nat) : MergeOperation :=
  match difference.type with
  | .PrimitiveAdded => op.addAction (.AddChildNode targetEntity difference.node)
  | .PrimitiveRemoved => op.addAction (.RemoveChildNode targetEntity difference.fingerprint)

/-- Modelled from the spec: `createActionsForEntity`: one AddEntity or
RemoveEntity action for a whole-entity record; for a Modified record one action
per key-value difference and one per primitive difference, in the order of the
record, each with a reference to the base node of the record. -/
def createActionsForEntity (op : MergeOperation) (difference : EntityDifference) :
    MergeOperation :=
  match difference.type with
  | .Added =>
    match difference.sourceNode with
    | some source => op.addAction (.AddEntity source.node)
    | none => op
  | .Removed =>
    match difference.baseNode with
    | some base => op.addAction (.RemoveEntity base.position)
    | none => op
  | .Modified =>
    match difference.baseNode with
    | some base =>
      difference.differingChildren.foldl
        (fun o d => createActionsForPrimitiveDiff o d base.position)
        (difference.differingKeyValues.foldl
          (fun o d => createActionsForKeyValueDiff o d base.position) op)
    | none => op

/-- Modelled from the spec: `CreateFromComparisonResult`: the operation over the
roots of the result whose actions are those of every entity difference, in the
order of the result. -/
def CreateFromComparisonResult (comparisonResult : ComparisonResult) : MergeOperation :=
  comparisonResult.differences.foldl createActionsForEntity
    (create comparisonResult.sourceRoot comparisonResult.baseRoot)

end MergeOperation

end merge

end scene

/-! ## Map: the merge lifecycle of `Map.cpp` -/

namespace map

open scene scene.merge

/-- The enumeration `Map::EditMode`. -/
inductive EditMode where
  | Normal
  | Merge
deriving DecidableEq, Repr

/-- The selection system modes that `Map::setEditMode` selects. -/
inductive SelectionMode where
  | ePrimitive
  | eMergeAction
deriving DecidableEq, Repr

/-- A `MergeActionNode`: the scene node (known by its identity) that wraps one
merge action for the preview. -/
structure MergeActionNode where
  id : Nat
  action : MergeAction
deriving DecidableEq, Repr

/-- The map events that `Map.cpp` emits. -/
inductive MapEvent where
  | MapLoading
  | MapLoaded
  | MapUnloading
  | MapUnloaded
  | MapSaving
  | MapSaved
deriving DecidableEq, Repr

/-- The calls on collaborators that the merge lifecycle and the save routines
make, as they are seen from outside. -/
inductive Effect where
  | warning
  | error
  | undoableCommandStart (command : String)
  | undoableCommandFinish (command : String)
  | applyActions (operation : MergeOperation)
  | removeNodeFromParent (node : Nat)
  | setSelectionMode (mode : SelectionMode)
  | sceneChangeNotify
  | fileSelectionDialog
  | fileOverwriteConfirmation
  | loadMapResource (path : String)
  | compareGraphs
  | addChildNode (parent child : Nat)
  | sendError (what : String)
  | clearMapResource
  | mapEvent (event : MapEvent)
  | resourceSave
  | resourceRename (name : String)
  | mapNameChanged
  | modifiedChanged
  | mruInsert (path : String)
deriving DecidableEq, Repr

/-- The state of `Map` that the merge lifecycle and the save routines read and
write: the entities under the map root (absent when no root is loaded), the
parent link of every scene node that has one (child, parent), the members
`_editMode`, `_mergeOperation` and `_mergeActionNodes`, the mode of the selection
system, the calls made so far, the identity of the root node, the identity of
the resource object `_resource` points to (absent for a null pointer), and the
members `_mapName`, `_saveInProgress` and `_modified`. -/
structure Map where
  root : Option Tree
  parentLinks : List (Nat × Nat)
  editMode : EditMode
  mergeOperation : Option MergeOperation
  mergeActionNodes : List MergeActionNode
  selectionMode : SelectionMode
  log : List Effect
  rootNode : Nat := 0
  resource : Option Nat := some 0
  mapName : String := "unnamed.map"
  saveInProgress : Bool := false
  modified : Bool := false
deriving DecidableEq, Repr

/-- The parent of a scene node, if it has one. -/
def getParent (node : Nat) : List (Nat × Nat) → Option Nat
  | [] => none
  | (c, p) :: rest => if c = node then some p else getParent node rest

/-- Modelled from the spec: `scene::removeNodeFromParent` detaches the node from
its parent, if it has one (its definition is not part of the sources). -/
def removeNodeFromParent (node : Nat) (links : List (Nat × Nat)) : List (Nat × Nat) :=
  links.filter (fun l => decide (l.1 ≠ node))

namespace Map

/-- The member `Map::getEditMode`. -/
def getEditMode (m : Map) : EditMode :=
  m.editMode

/-- The member `Map::setEditMode`. -/
def setEditMode (m : Map) (mode : EditMode) : Map :=
  let sel := if mode = EditMode.Merge then SelectionMode.eMergeAction else SelectionMode.ePrimitive
  { m with
    editMode := mode
    selectionMode := sel
    log := m.log ++ [Effect.setSelectionMode sel, Effect.sceneChangeNotify] }

/-- One round of the loop of `Map::cleanupMergeOperation`. -/
def removeMergeActionNode (m : Map) (node : MergeActionNode) : Map :=
  { m with
    parentLinks := removeNodeFromParent node.id m.parentLinks
    log := m.log ++ [Effect.removeNodeFromParent node.id] }

/-- The member `Map::cleanupMergeOperation`. -/
def cleanupMergeOperation (m : Map) : Map :=
  let m1 := m.mergeActionNodes.foldl removeMergeActionNode m
  { m1 with mergeActionNodes := [], mergeOperation := none }

/-- The member `Map::abortMergeOperation`. -/
def abortMergeOperation (m : Map) : Map :=
  m.cleanupMergeOperation

/-- The member `Map::finishMergeOperation`.  The result is the state the call
leaves behind and the exception that leaves the call, if any.  The operation
works on the root the map holds (on the root it was built from when the map
holds none).  `UndoableCommand` starts the command when it is constructed and
finishes it when the scope is left, also when it is left by an exception. -/
def finishMergeOperation (m : Map) : Map × Option (Nat × MergeError) :=
  if m.getEditMode ≠ EditMode.Merge then
    ({ m with log := m.log ++ [Effect.warning] }, none)
  else
    match m.mergeOperation with
    | none => ({ m with log := m.log ++ [Effect.error] }, none)
    | some op =>
      let outcome := op.applyActions (m.root.getD op.baseRoot)
      let m1 : Map :=
        { m with
          root := m.root.map (fun _ => outcome.baseRoot)
          log := m.log ++ [Effect.undoableCommandStart "mergeMap", Effect.applyActions op] }
      match outcome.failure with
      | some failure =>
        ({ m1 with log := m1.log ++ [Effect.undoableCommandFinish "mergeMap"] }, some failure)
      | none =>
        let m2 := (m1.cleanupMergeOperation).setEditMode EditMode.Normal
        ({ m2 with log := m2.log ++ [Effect.undoableCommandFinish "mergeMap"] }, none)

end Map

/-- The exceptions of the command system that `Map::startMergeOperation` throws;
`ExecutionFailure` carries the file that does not exist. -/
inductive CommandError where
  | ExecutionNotPossible
  | ExecutionFailure (file : String)
deriving DecidableEq, Repr

/-- What creating a map resource from a path and calling `load()` on it gives:
the loaded root, the value false, or an `OperationException`. -/
inductive LoadResult where
  | loaded (root : Tree)
  | notLoaded
  | operationException (what : String)
deriving DecidableEq, Repr

/-- The collaborators that `Map::startMergeOperation` consults: the path the
file dialog returns (empty when the dialog is cancelled), `os::fileOrDirExists`,
and the map resource manager. -/
structure MergeEnvironment where
  fileSelection : String
  fileOrDirExists : String → Bool
  load : String → LoadResult

/-- The collaborators that `Map::save` and `Map::saveAs` consult: the path the
file dialog returns, the identity of the resource object that
`createFromPath` creates, whether the resource to save is read-only, whether its
file has been modified since the last save, the answer to the overwrite
confirmation, and the `OperationException` that saving the resource throws, if
it throws. -/
structure SaveEnvironment where
  fileSelection : String
  createdResource : Nat
  isReadOnly : Bool
  fileHasBeenModifiedSinceLastSave : Bool
  overwriteConfirmed : Bool
  resourceSaveThrows : Option String
deriving DecidableEq, Repr

namespace Map

/-- The identities of the scene nodes that the state mentions. -/
def nodeIds (m : Map) : List Nat :=
  m.rootNode :: (m.parentLinks.map Prod.fst ++ m.parentLinks.map Prod.snd
    ++ m.mergeActionNodes.map MergeActionNode.id)

/-- The identity of a newly created scene node: one that the state does not
mention. -/
def freshNode (m : Map) : Nat :=
  m.nodeIds.foldl max 0 + 1

/-- The visitor of `Map::startMergeOperation`: wraps the action into a new
`MergeActionNode`, appends the node to `_mergeActionNodes` and adds it as a child
of the root. -/
def addMergeActionNode (m : Map) (action : MergeAction) : Map :=
  { m with
    mergeActionNodes := m.mergeActionNodes ++ [⟨m.freshNode, action⟩]
    parentLinks := (m.freshNode, m.rootNode) :: m.parentLinks
    log := m.log ++ [Effect.addChildNode m.rootNode m.freshNode] }

/-- The source candidate of `Map::startMergeOperation`: the first argument, or
the non-empty path chosen in the file dialog. -/
def sourceCandidate (env : MergeEnvironment) (args : List String) : Option String :=
  match args with
  | a :: _ => some a
  | [] => if env.fileSelection = "" then none else some env.fileSelection

/-- The part of `Map::startMergeOperation` after the arguments are checked: the
pending merge is aborted, the source map is loaded and, when it loads, compared
with the root; the operation and its preview nodes are created and the edit
mode is switched to Merge.  `abortMergeOperation` leaves the root as it is, so
`getRoot()` in the comparison is the root found at the start. -/
def startMergeWith (m0 : Map) (env : MergeEnvironment) (base : Tree) (source : String) :
    Map × Option CommandError :=
  let m1 := m0.abortMergeOperation
  let m2 : Map := { m1 with log := m1.log ++ [Effect.loadMapResource source] }
  match env.load source with
  | LoadResult.loaded otherRoot =>
    let result := GraphComparer.Compare otherRoot base
    let op := MergeOperation.CreateFromComparisonResult result
    let m3 : Map :=
      { m2 with mergeOperation := some op, log := m2.log ++ [Effect.compareGraphs] }
    let m4 := op.foreachAction addMergeActionNode m3
    let m5 := m4.setEditMode EditMode.Merge
    ({ m5 with log := m5.log ++ [Effect.clearMapResource] }, none)
  | LoadResult.notLoaded => (m2, none)
  | LoadResult.operationException what =>
    ({ m2 with log := m2.log ++ [Effect.sendError what] }, none)

/-- The member `Map::startMergeOperation`.  The result is the state the call
leaves behind and the exception that leaves the call, if any. -/
def startMergeOperation (m : Map) (env : MergeEnvironment) (args : List String) :
    Map × Option CommandError :=
  match m.root with
  | none => (m, some CommandError.ExecutionNotPossible)
  | some base =>
    let m0 : Map :=
      match args with
      | _ :: _ => m
      | [] => { m with log := m.log ++ [Effect.fileSelectionDialog] }
    match sourceCandidate env args with
    | none => (m0, none)
    | some source =>
      if env.fileOrDirExists source = false then
        (m0, some (CommandError.ExecutionFailure source))
      else
        match args with
        | _ :: baseCandidate :: _ =>
          if env.fileOrDirExists baseCandidate = false then
            (m0, some (CommandError.ExecutionFailure baseCandidate))
          else startMergeWith m0 env base source
        | _ => startMergeWith m0 env base source

/-- The member `Map::setModified` (the restart of the save timer is left out). -/
def setModified (m : Map) (modifiedFlag : Bool) : Map :=
  if m.modified ≠ modifiedFlag then
    { m with modified := modifiedFlag, log := m.log ++ [Effect.modifiedChanged] }
  else m

/-- The member `Map::setMapName`. -/
def setMapName (m : Map) (newName : String) : Map :=
  let m1 : Map := { m with mapName := newName }
  let m2 : Map :=
    match m1.resource with
    | some _ => { m1 with log := m1.log ++ [Effect.resourceRename newName] }
    | none => m1
  if m.mapName ≠ newName then { m2 with log := m2.log ++ [Effect.mapNameChanged] } else m2

/-- The member `Map::rename`. -/
def rename (m : Map) (filename : String) : Map :=
  if m.mapName ≠ filename then
    let m1 := m.setMapName filename
    { m1 with log := m1.log ++ [Effect.sceneChangeNotify] }
  else
    let m1 : Map := { m with log := m.log ++ [Effect.resourceSave] }
    m1.setModified false

/-- The member `Map::save`: the state it leaves behind and the value it
returns. -/
def save (m : Map) (env : SaveEnvironment) : Map × Bool :=
  if m.saveInProgress then (m, false)
  else if env.isReadOnly then ({ m with log := m.log ++ [Effect.error] }, false)
  else if env.fileHasBeenModifiedSinceLastSave && !env.overwriteConfirmed then
    ({ m with log := m.log ++ [Effect.fileOverwriteConfirmation] }, false)
  else
    let m0 : Map :=
      if env.fileHasBeenModifiedSinceLastSave then
        { m with log := m.log ++ [Effect.fileOverwriteConfirmation] }
      else m
    let m1 : Map :=
      { m0 with
        saveInProgress := true
        log := m0.log ++ [Effect.mapEvent MapEvent.MapSaving, Effect.resourceSave] }
    let saved : Map × Bool :=
      match env.resourceSaveThrows with
      | none => (m1.setModified false, true)
      | some what => ({ m1 with log := m1.log ++ [Effect.sendError what] }, false)
    ({ saved.1 with
        saveInProgress := false
        log := saved.1.log ++ [Effect.mapEvent MapEvent.MapSaved, Effect.sceneChangeNotify] },
      saved.2)

/-- The member `Map::saveAs`: the state it leaves behind and the value it
returns; no result when `_resource` is a null pointer at the point where the
old resource is asked for its root node. -/
def saveAs (m : Map) (env : SaveEnvironment) : Option (Map × Bool) :=
  if m.saveInProgress then some (m, false)
  else
    let m0 : Map := { m with log := m.log ++ [Effect.fileSelectionDialog] }
    if env.fileSelection = "" then some (m0, false)
    else
      match m0.resource with
      | none => none
      | some oldResource =>
        let m1 : Map := { m0 with resource := some env.createdResource }
        let saved := m1.save env
        if saved.2 = false then
          some ({ saved.1 with resource := some oldResource }, false)
        else
          let m2 := saved.1.rename env.fileSelection
          some ({ m2 with log := m2.log ++ [Effect.mruInsert env.fileSelection] }, true)

end Map

end map

/-! ## Numbers, vectors and matrices (`Matrix4.cpp`) -/

namespace math

/-! ### Single precision numbers (`float`) -/

/-- A value of the C++ type `float`, taken as IEEE 754 binary32: a finite value
is `(-1)^negative * mantissa * 2^exponent` (the values of the format have
`mantissa < 2^24` and `-149 ≤ exponent ≤ 104`), and there are the two
infinities and NaN.  Zero has a sign. -/
inductive Float32 where
  | finite (negative : Bool) (mantissa : Nat) (exponent : Int)
  | infinity (negative : Bool)
  | nan
deriving DecidableEq

namespace Float32

/-- The number of binary digits of a natural number (0 for 0); `fuel` bounds the
number of digits looked at. -/
def bitLength : Nat → Nat → Nat
  | 0, _ => 0
  | fuel + 1, n => if n = 0 then 0 else bitLength fuel (n / 2) + 1

/-- The multiple of `2^quantum` next to `num / den * 2^scale`, as a mantissa:
round to nearest, ties to the even mantissa. -/
def nearestMantissa (num den : Nat) (scale quantum : Int) : Nat :=
  let shift := scale - quantum
  let a := if 0 ≤ shift then num * 2 ^ shift.toNat else num
  let b := if 0 ≤ shift then den else den * 2 ^ (-shift).toNat
  let k := a / b
  let r := a % b
  if 2 * r < b then k else if b < 2 * r then k + 1 else if k % 2 = 0 then k else k + 1

/-- The exponent of the leading binary digit of `num / den * 2^scale`, for
`num` and `den` positive: the `e` with `2^e ≤ num / den * 2^scale < 2^(e+1)`. -/
def leadingExponent (num den : Nat) (scale : Int) : Int :=
  let l0 : Int := (bitLength (num + 1) num : Int) - (bitLength (den + 1) den : Int)
  let reaches : Bool :=
    if 0 ≤ l0 then den * 2 ^ l0.toNat ≤ num else den ≤ num * 2 ^ (-l0).toNat
  (if reaches then l0 else l0 - 1) + scale

/-- The exponent of the last place of the binary32 values in the binade of
`num / den * 2^scale`: 23 below the leading exponent, and -149 for the
subnormal values. -/
def quantum (num den : Nat) (scale : Int) : Int :=
  max (leadingExponent num den scale) (-126) - 23

/-- Rounding to binary32 (round to nearest, ties to even) of the number
`(-1)^negative * num / den * 2^scale`, where `den` is positive: the result of
an arithmetic operation whose exact value is this number.  A number that
rounds to `2^128` or beyond in magnitude gives an infinity. -/
def round (negative : Bool) (num den : Nat) (scale : Int) : Float32 :=
  if num = 0 then finite negative 0 (-149)
  else
    let q := quantum num den scale
    let n := nearestMantissa num den scale q
    if n = 2 ^ 24 then
      (if 104 < q + 1 then infinity negative else finite negative (2 ^ 23) (q + 1))
    else if 104 < q then infinity negative
    else finite negative n q

/-- The conversion of an integer literal to `float`. -/
def ofNat (n : Nat) : Float32 :=
  round false n 1 0

/-- Unary minus: the sign is flipped, also of a zero and of an infinity. -/
def neg : Float32 → Float32
  | finite s m e => finite (!s) m e
  | infinity s => infinity (!s)
  | nan => nan

/-- The finite value as an integer multiple of `2^quantum`, for a `quantum` not
above the exponent. -/
def scaledInt (negative : Bool) (mantissa : Nat) (exponent quantum : Int) : Int :=
  (if negative then -1 else 1) * (mantissa * 2 ^ (exponent - quantum).toNat : Nat)

/-- Addition in `float`. -/
def add : Float32 → Float32 → Float32
  | nan, _ => nan
  | _, nan => nan
  | infinity s, infinity t => if s = t then infinity s else nan
  | infinity s, finite _ _ _ => infinity s
  | finite _ _ _, infinity t => infinity t
  | finite s m e, finite t n f =>
    let q := min e f
    let sum := scaledInt s m e q + scaledInt t n f q
    if sum = 0 then finite (s && t) 0 (-149)
    else round (decide (sum < 0)) sum.natAbs 1 q

/-- Subtraction in `float`. -/
def sub (a b : Float32) : Float32 :=
  add a (neg b)

/-- Multiplication in `float`. -/
def mul : Float32 → Float32 → Float32
  | nan, _ => nan
  | _, nan => nan
  | infinity s, infinity t => infinity (xor s t)
  | infinity s, finite t n _ => if n = 0 then nan else infinity (xor s t)
  | finite s m _, infinity t => if m = 0 then nan else infinity (xor s t)
  | finite s m e, finite t n f => round (xor s t) (m * n) 1 (e + f)

/-- Division in `float`. -/
def div : Float32 → Float32 → Float32
  | nan, _ => nan
  | _, nan => nan
  | infinity _, infinity _ => nan
  | infinity s, finite t _ _ => infinity (xor s t)
  | finite s _ _, infinity t => finite (xor s t) 0 (-149)
  | finite s m e, finite t n f =>
    if n = 0 then (if m = 0 then nan else infinity (xor s t))
    else round (xor s t) m n (e - f)

/-- The comparison `a < b` of two `float` values: false when one of them is
NaN; the two zeros are equal. -/
def lt : Float32 → Float32 → Bool
  | nan, _ => false
  | _, nan => false
  | infinity s, infinity t => s && !t
  | infinity s, finite _ _ _ => s
  | finite _ _ _, infinity t => !t
  | finite s m e, finite t n f =>
    decide (scaledInt s m e (min e f) < scaledInt t n f (min e f))

instance : Add Float32 := ⟨add⟩
instance : Sub Float32 := ⟨sub⟩
instance : Mul Float32 := ⟨mul⟩
instance : Div Float32 := ⟨div⟩
instance : Neg Float32 := ⟨neg⟩
instance : LT Float32 := ⟨fun a b => lt a b = true⟩
instance (a b : Float32) : Decidable (a < b) := inferInstanceAs (Decidable (lt a b = true))
instance (n : Nat) : OfNat Float32 n := ⟨ofNat n⟩

end Float32

/-! ### Vectors and matrices

The element types of `Vector3`, `Vector4` and `Matrix4` are declared in headers
that are not part of the sources; the structures take the element type as the
parameter `F`.  `Matrix4.cpp` passes the entries as `float` (the explicit
constructor) and computes in `float` (`float det`, `1.0f / det`,
`float scale`): the functions of `Matrix4.cpp` are translated once, over any
`F` with the arithmetic operations, and the program is the instance
`F := Float32`, where every operation rounds.  The instance `F := ℚ` is the same
code in exact arithmetic. -/

/-- A `Vector3` with components of type `F`. -/
structure Vector3 (F : Type) where
  x : F
  y : F
  z : F
deriving DecidableEq

/-- A `Plane3`: normal and distance. -/
structure Plane3 where
  normal : Vector3 ℚ
  dist : ℚ
deriving DecidableEq

/-- A `Matrix4` with the sixteen named entries of `Matrix4.cpp`; in the array
`_m` they are, in order, xx xy xz xw yx yy yz yw zx zy zz zw tx ty tz tw. -/
structure Matrix4 (F : Type) where
  xx : F
  xy : F
  xz : F
  xw : F
  yx : F
  yy : F
  yz : F
  yw : F
  zx : F
  zy : F
  zz : F
  zw : F
  tx : F
  ty : F
  tz : F
  tw : F
deriving DecidableEq

namespace Matrix4

/-- The named constructor `Matrix4::byColumns` (declared in the header, which is
not part of the sources): the sixteen arguments are the entries column by
column, as `getTranslation` in `Matrix4.cpp` uses it. -/
def byColumns {F : Type} (xx xy xz xw yx yy yz yw zx zy zz zw tx ty tz tw : F) : Matrix4 F :=
  ⟨xx, xy, xz, xw, yx, yy, yz, yw, zx, zy, zz, zw, tx, ty, tz, tw⟩

/-- The member `Matrix4::getInverse` ("Return affine inverse"); `m0` to `m15` are
the entries `_m[0]` to `_m[15]`, which are xx, xy, xz, xw, yx, ..., tw; `det0` is
the first value of the variable `float det`, and `det` its value after
`det = 1.0f / det`. -/
def getInverse {F : Type} [Add F] [Sub F] [Mul F] [Div F] [Neg F] [OfNat F 0] [OfNat F 1]
    (M : Matrix4 F) : Matrix4 F :=
  let m0 := M.xx
  let m1 := M.xy
  let m2 := M.xz
  let m4 := M.yx
  let m5 := M.yy
  let m6 := M.yz
  let m8 := M.zx
  let m9 := M.zy
  let m10 := M.zz
  let m12 := M.tx
  let m13 := M.ty
  let m14 := M.tz
  let det0 := m0 * (m5 * m10 - m9 * m6) - m1 * (m4 * m10 - m8 * m6) + m2 * (m4 * m9 - m8 * m5)
  let det := 1 / det0
  let r0 := (m5 * m10 - m6 * m9) * det
  let r1 := -(m1 * m10 - m2 * m9) * det
  let r2 := (m1 * m6 - m2 * m5) * det
  let r4 := -(m4 * m10 - m6 * m8) * det
  let r5 := (m0 * m10 - m2 * m8) * det
  let r6 := -(m0 * m6 - m2 * m4) * det
  let r8 := (m4 * m9 - m5 * m8) * det
  let r9 := -(m0 * m9 - m1 * m8) * det
  let r10 := (m0 * m5 - m1 * m4) * det
  let r12 := -(m12 * r0 + m13 * r4 + m14 * r8)
  let r13 := -(m12 * r1 + m13 * r5 + m14 * r9)
  let r14 := -(m12 * r2 + m13 * r6 + m14 * r10)
  ⟨r0, r1, r2, 0, r4, r5, r6, 0, r8, r9, r10, 0, r12, r13, r14, 1⟩

/-- The value `determinant` that `Matrix4::getFullInverse` computes from its 2x2
and 3x3 minors. -/
def fullDeterminant {F : Type} [Add F] [Sub F] [Mul F] (M : Matrix4 F) : F :=
  let minor01 := M.zz * M.tw - M.zw * M.tz
  let minor02 := M.zy * M.tw - M.zw * M.ty
  let minor03 := M.zx * M.tw - M.zw * M.tx
  let minor04 := M.zy * M.tz - M.zz * M.ty
  let minor05 := M.zx * M.tz - M.zz * M.tx
  let minor06 := M.zx * M.ty - M.zy * M.tx
  let minor3x3_11 := M.yy * minor01 - M.yz * minor02 + M.yw * minor04
  let minor3x3_21 := M.yx * minor01 - M.yz * minor03 + M.yw * minor05
  let minor3x3_31 := M.yx * minor02 - M.yy * minor03 + M.yw * minor06
  let minor3x3_41 := M.yx * minor04 - M.yy * minor05 + M.yz * minor06
  M.xx * minor3x3_11 - M.xy * minor3x3_21 + M.xz * minor3x3_31 - M.xw * minor3x3_41

/-- The member `Matrix4::getFullInverse` ("The inverse is generated through the
adjugate matrix"): every minor, `determinant` and `invDet` is a `float`
variable of the code, and `invDet = 1.0f / determinant`. -/
def getFullInverse {F : Type} [Add F] [Sub F] [Mul F] [Div F] [Neg F] [OfNat F 1]
    (M : Matrix4 F) : Matrix4 F :=
  let minor01 := M.zz * M.tw - M.zw * M.tz
  let minor02 := M.zy * M.tw - M.zw * M.ty
  let minor03 := M.zx * M.tw - M.zw * M.tx
  let minor04 := M.zy * M.tz - M.zz * M.ty
  let minor05 := M.zx * M.tz - M.zz * M.tx
  let minor06 := M.zx * M.ty - M.zy * M.tx
  let minor07 := M.yz * M.tw - M.yw * M.tz
  let minor08 := M.yy * M.tw - M.yw * M.ty
  let minor09 := M.yy * M.tz - M.yz * M.ty
  let minor10 := M.yx * M.tw - M.yw * M.tx
  let minor11 := M.yx * M.tz - M.yz * M.tx
  let minor12 := M.yx * M.ty - M.yy * M.tx
  let minor13 := M.yz * M.zw - M.yw * M.zz
  let minor14 := M.yy * M.zw - M.yw * M.zy
  let minor15 := M.yy * M.zz - M.yz * M.zy
  let minor16 := M.yx * M.zw - M.yw * M.zx
  let minor17 := M.yx * M.zz - M.yz * M.zx
  let minor18 := M.yx * M.zy - M.yy * M.zx
  let minor3x3_11 := M.yy * minor01 - M.yz * minor02 + M.yw * minor04
  let minor3x3_21 := M.yx * minor01 - M.yz * minor03 + M.yw * minor05
  let minor3x3_31 := M.yx * minor02 - M.yy * minor03 + M.yw * minor06
  let minor3x3_41 := M.yx * minor04 - M.yy * minor05 + M.yz * minor06
  let minor3x3_12 := M.xy * minor01 - M.xz * minor02 + M.xw * minor04
  let minor3x3_22 := M.xx * minor01 - M.xz * minor03 + M.xw * minor05
  let minor3x3_32 := M.xx * minor02 - M.xy * minor03 + M.xw * minor06
  let minor3x3_42 := M.xx * minor04 - M.xy * minor05 + M.xz * minor06
  let minor3x3_13 := M.xy * minor07 - M.xz * minor08 + M.xw * minor09
  let minor3x3_23 := M.xx * minor07 - M.xz * minor10 + M.xw * minor11
  let minor3x3_33 := M.xx * minor08 - M.xy * minor10 + M.xw * minor12
  let minor3x3_43 := M.xx * minor09 - M.xy * minor11 + M.xz * minor12
  let minor3x3_14 := M.xy * minor13 - M.xz * minor14 + M.xw * minor15
  let minor3x3_24 := M.xx * minor13 - M.xz * minor16 + M.xw * minor17
  let minor3x3_34 := M.xx * minor14 - M.xy * minor16 + M.xw * minor18
  let minor3x3_44 := M.xx * minor15 - M.xy * minor17 + M.xz * minor18
  let determinant :=
    M.xx * minor3x3_11 - M.xy * minor3x3_21 + M.xz * minor3x3_31 - M.xw * minor3x3_41
  let invDet := 1 / determinant
  byColumns
    (minor3x3_11 * invDet) (-minor3x3_12 * invDet) (minor3x3_13 * invDet) (-minor3x3_14 * invDet)
    (-minor3x3_21 * invDet) (minor3x3_22 * invDet) (-minor3x3_23 * invDet) (minor3x3_24 * invDet)
    (minor3x3_31 * invDet) (-minor3x3_32 * invDet) (minor3x3_33 * invDet) (-minor3x3_34 * invDet)
    (-minor3x3_41 * invDet) (minor3x3_42 * invDet) (-minor3x3_43 * invDet) (minor3x3_44 * invDet)

/-- The matrix that a `Matrix4` stands for: its columns are the x, y, z and t
groups of entries, so the entry in row r and column c is `_m[4 * c + r]`. -/
def toMatrix {F : Type} (M : Matrix4 F) : Matrix (Fin 4) (Fin 4) F :=
  Matrix.of ![![M.xx, M.yx, M.zx, M.tx], ![M.xy, M.yy, M.zy, M.ty],
    ![M.xz, M.yz, M.zz, M.tz], ![M.xw, M.yw, M.zw, M.tw]]

/-- The 3x3 rotation block of a `Matrix4`. -/
def rotationBlock {F : Type} (M : Matrix4 F) : Matrix (Fin 3) (Fin 3) F :=
  Matrix.of ![![M.xx, M.yx, M.zx], ![M.xy, M.yy, M.zy], ![M.xz, M.yz, M.zz]]

/-- The identity matrix, `Matrix4::getIdentity`. -/
def getIdentity {F : Type} [OfNat F 0] [OfNat F 1] : Matrix4 F :=
  ⟨1, 0, 0, 0, 0, 1, 0, 0, 0, 0, 1, 0, 0, 0, 0, 1⟩

/-- The matrix product of two `Matrix4`, written out entry by entry (`A` on the
left). -/
def product {F : Type} [Add F] [Mul F] (A B : Matrix4 F) : Matrix4 F :=
  ⟨A.xx * B.xx + A.yx * B.xy + A.zx * B.xz + A.tx * B.xw,
   A.xy * B.xx + A.yy * B.xy + A.zy * B.xz + A.ty * B.xw,
   A.xz * B.xx + A.yz * B.xy + A.zz * B.xz + A.tz * B.xw,
   A.xw * B.xx + A.yw * B.xy + A.zw * B.xz + A.tw * B.xw,
   A.xx * B.yx + A.yx * B.yy + A.zx * B.yz + A.tx * B.yw,
   A.xy * B.yx + A.yy * B.yy + A.zy * B.yz + A.ty * B.yw,
   A.xz * B.yx + A.yz * B.yy + A.zz * B.yz + A.tz * B.yw,
   A.xw * B.yx + A.yw * B.yy + A.zw * B.yz + A.tw * B.yw,
   A.xx * B.zx + A.yx * B.zy + A.zx * B.zz + A.tx * B.zw,
   A.xy * B.zx + A.yy * B.zy + A.zy * B.zz + A.ty * B.zw,
   A.xz * B.zx + A.yz * B.zy + A.zz * B.zz + A.tz * B.zw,
   A.xw * B.zx + A.yw * B.zy + A.zw * B.zz + A.tw * B.zw,
   A.xx * B.tx + A.yx * B.ty + A.zx * B.tz + A.tx * B.tw,
   A.xy * B.tx + A.yy * B.ty + A.zy * B.tz + A.ty * B.tw,
   A.xz * B.tx + A.yz * B.ty + A.zz * B.tz + A.tz * B.tw,
   A.xw * B.tx + A.yw * B.ty + A.zw * B.tz + A.tw * B.tw⟩

end Matrix4

/-! ### Transposition (`Matrix4.cpp`) -/

namespace Matrix4

/-- The member `Matrix4::transpose` ("Transpose the matrix in-place"): six
`std::swap` calls on the array `_m`, whose elements are, in order, xx xy xz xw
yx yy yz yw zx zy zz zw tx ty tz tw. -/
def transpose {F : Type} (M : Matrix4 F) : Matrix4 F :=
  -- std::swap(_m[1], _m[4]); xy <=> yx
  let m1 : Matrix4 F := { M with xy := M.yx, yx := M.xy }
  -- std::swap(_m[2], _m[8]); xz <=> zx
  let m2 : Matrix4 F := { m1 with xz := m1.zx, zx := m1.xz }
  -- std::swap(_m[3], _m[12]); xw <=> tx
  let m3 : Matrix4 F := { m2 with xw := m2.tx, tx := m2.xw }
  -- std::swap(_m[6], _m[9]); yz <=> zy
  let m4 : Matrix4 F := { m3 with yz := m3.zy, zy := m3.yz }
  -- std::swap(_m[7], _m[13]); yw <=> ty
  let m5 : Matrix4 F := { m4 with yw := m4.ty, ty := m4.yw }
  -- std::swap(_m[11], _m[14]); zw <=> tz
  { m5 with zw := m5.tz, tz := m5.zw }

/-- The member `Matrix4::getTransposed` ("Return transposed copy"): the explicit
constructor, which takes xx xy xz xw yx yy yz yw zx zy zz zw tx ty tz tw in this
order, called with `xx(), yx(), zx(), tx(), xy(), yy(), zy(), ty(), xz(), yz(),
zz(), tz(), xw(), yw(), zw(), tw()`. -/
def getTransposed {F : Type} (M : Matrix4 F) : Matrix4 F :=
  Matrix4.mk
    M.xx M.yx M.zx M.tx
    M.xy M.yy M.zy M.ty
    M.xz M.yz M.zz M.tz
    M.xw M.yw M.zw M.tw

end Matrix4

/-! ### Clipping in homogeneous coordinates (`Matrix4.cpp`) -/

/-- A `Vector4` with components of type `F`. -/
structure Vector4 (F : Type) where
  x : F
  y : F
  z : F
  w : F
deriving DecidableEq

namespace Vector4

/-- The element access `self[index]`. -/
def get {F : Type} (self : Vector4 F) (index : Fin 4) : F :=
  match index with
  | 0 => self.x
  | 1 => self.y
  | 2 => self.z
  | 3 => self.w

/-- The difference of two vectors, component by component. -/
def sub {F : Type} [Sub F] (a b : Vector4 F) : Vector4 F :=
  ⟨a.x - b.x, a.y - b.y, a.z - b.z, a.w - b.w⟩

end Vector4

/-- The template parameter `ClipPlane` of `Vector4ClipPolygon`: a class with the
two static functions `compare` and `scale`. -/
structure ClipPlane (F : Type) where
  compare : Vector4 F → Fin 4 → Bool
  scale : Vector4 F → Vector4 F → Fin 4 → F

/-- The class `Vector4ClipLT`; `scale` returns `float`. -/
def Vector4ClipLT {F : Type} [Sub F] [Div F] [LT F] [DecidableRel (fun a b : F => a < b)] :
    ClipPlane F where
  compare := fun self index => decide (self.get index < self.get 3)
  scale := fun self other index =>
    (self.get index - self.get 3) / (other.get 3 - other.get index)

/-- The class `Vector4ClipGT`; `scale` returns `float`. -/
def Vector4ClipGT {F : Type} [Add F] [Sub F] [Div F] [Neg F] [LT F]
    [DecidableRel (fun a b : F => a < b)] : ClipPlane F where
  compare := fun self index => decide (self.get index > -self.get 3)
  scale := fun self other index =>
    (self.get index + self.get 3) / (-other.get 3 - other.get index)

namespace Vector4ClipPolygon

/-- The vertex that the loop body of `apply` writes for an edge on which the
two sides differ: `*out = *next - *i`, `float scale = ClipPlane::scale(*i, *out,
index)`, and then each component `k` of `*out` becomes
`(*i)[k] + scale * (*out)[k]`. -/
def crossing {F : Type} [Add F] [Sub F] [Mul F] (C : ClipPlane F) (index : Fin 4)
    (i next : Vector4 F) : Vector4 F :=
  let out := next.sub i
  let scale := C.scale i out index
  ⟨i.get 0 + scale * out.get 0, i.get 1 + scale * out.get 1,
   i.get 2 + scale * out.get 2, i.get 3 + scale * out.get 3⟩

/-- The two statements `*out = v; ++out;` on an output array of `capacity`
elements of which `written` are in use: no result when the element written is
beyond the array. -/
def store {F : Type} (capacity : Nat) (written : List (Vector4 F)) (v : Vector4 F) :
    Option (List (Vector4 F)) :=
  if written.length < capacity then some (written ++ [v]) else none

/-- The `while` loop of `apply` over the vertices from `next` to `last`: `i` is
the vertex before `next`, `b0` its side, `written` the vertices stored through
`out` so far. -/
def applyLoop {F : Type} [Add F] [Sub F] [Mul F] (C : ClipPlane F) (capacity : Nat)
    (index : Fin 4) :
    List (Vector4 F) → Vector4 F → Bool → List (Vector4 F) → Option (List (Vector4 F))
  | [], _, _, written => some written
  | next :: rest, i, b0, written =>
    let b1 := C.compare next index
    match (if xor b0 b1 then store capacity written (crossing C index i next)
        else some written) with
    | none => none
    | some written1 =>
      match (if b1 then store capacity written1 next else some written1) with
      | none => none
      | some written2 => applyLoop C capacity index rest next b1 written2

/-- The function `Vector4ClipPolygon<ClipPlane>::apply(first, last, out, index)`
for the vertices `polygon` between `first` and `last` and an output array of
`capacity` elements: the vertices written through `out` (the return value
`out - tmp` is their number), or no result when a write goes beyond the output
array.  For an empty range the code reads `b0` from the element before `first`
and never uses it. -/
def apply {F : Type} [Add F] [Sub F] [Mul F] (C : ClipPlane F) (capacity : Nat)
    (polygon : List (Vector4 F)) (index : Fin 4) : Option (List (Vector4 F)) :=
  match polygon.getLast? with
  | none => some []
  | some last => applyLoop C capacity index polygon last (C.compare last index) []

end Vector4ClipPolygon

/-- The function `homogenous_clip_triangle(Vector4 clipped[9])`: six passes
between the array `clipped` and the local array `buffer`, both of 9 elements,
starting from the first `count = 3` elements of `clipped`.  The result is the
content of `clipped` up to the returned count, or no result when a pass writes
beyond its output array. -/
def homogenous_clip_triangle {F : Type} [Add F] [Sub F] [Mul F] [Div F] [Neg F] [LT F]
    [DecidableRel (fun a b : F => a < b)] (clipped : List (Vector4 F)) :
    Option (List (Vector4 F)) :=
  (Vector4ClipPolygon.apply Vector4ClipLT 9 (clipped.take 3) 0).bind fun buffer1 =>
  (Vector4ClipPolygon.apply Vector4ClipGT 9 buffer1 0).bind fun clipped2 =>
  (Vector4ClipPolygon.apply Vector4ClipLT 9 clipped2 1).bind fun buffer3 =>
  (Vector4ClipPolygon.apply Vector4ClipGT 9 buffer3 1).bind fun clipped4 =>
  (Vector4ClipPolygon.apply Vector4ClipLT 9 clipped4 2).bind fun buffer5 =>
  Vector4ClipPolygon.apply Vector4ClipGT 9 buffer5 2

/-- The member `Matrix4::clipTriangle`: the three points with `w = 1`, each
transformed, then `homogenous_clip_triangle`; the result is the content of
`clipped` up to the returned count.  `Matrix4::transform(const Vector4&)` is
declared in the header, which is not part of the sources, and is a
parameter. -/
def Matrix4.clipTriangle {F : Type} [Add F] [Sub F] [Mul F] [Div F] [Neg F] [LT F]
    [DecidableRel (fun a b : F => a < b)] [OfNat F 1]
    (transform : Matrix4 F → Vector4 F → Vector4 F) (M : Matrix4 F)
    (p0 p1 p2 : Vector3 F) : Option (List (Vector4 F)) :=
  homogenous_clip_triangle
    [ transform M ⟨p0.x, p0.y, p0.z, 1⟩,
      transform M ⟨p1.x, p1.y, p1.z, 1⟩,
      transform M ⟨p2.x, p2.y, p2.z, 1⟩ ]

/-- Modelled from the spec: `math::Hash` (its header is not part of the
sources), taken as a parameter: a running hash that takes sizes, strings and
numbers rounded to a number of significant digits, and is rendered as a
string at the end. -/
structure Hash where
  State : Type
  Rounded : Type
  init : State
  addSizet : State → Nat → State
  addString : State → String → State
  round : ℚ → Nat → Rounded
  addRounded : State → Rounded → State
  render : State → String

/-- One item fed into the hash: a size, a string, or a rounded number. -/
inductive HashInput (R : Type) where
  | sizet (n : Nat)
  | string (s : String)
  | rounded (r : R)

namespace Hash

/-- Modelled from the spec: `addDouble` feeds the number, rounded to the given
number of significant digits, into the hash. -/
def addDouble (H : Hash) (s : H.State) (value : ℚ) (significantDigits : Nat) : H.State :=
  H.addRounded s (H.round value significantDigits)

/-- Modelled from the spec: `addVector3` feeds the three components, each
rounded the same way. -/
def addVector3 (H : Hash) (s : H.State) (v : Vector3 ℚ) (significantDigits : Nat) : H.State :=
  H.addDouble (H.addDouble (H.addDouble s v.x significantDigits) v.y significantDigits)
    v.z significantDigits

/-- The hash after one more item. -/
def add (H : Hash) (s : H.State) : HashInput H.Rounded → H.State
  | .sizet n => H.addSizet s n
  | .string t => H.addString s t
  | .rounded r => H.addRounded s r

/-- The hash after a sequence of items, fed in order. -/
def feed (H : Hash) (s : H.State) (items : List (HashInput H.Rounded)) : H.State :=
  items.foldl H.add s

/-- The rendered hash of a sequence of items fed into a new hash. -/
def digest (H : Hash) (items : List (HashInput H.Rounded)) : String :=
  H.render (H.feed H.init items)

end Hash

end math

/-! ## Brush fingerprints (`BrushNode.cpp`) -/

namespace brush

open math

/-- A brush face as far as the fingerprint reads it: plane, material name and
texture projection matrix. -/
structure Face where
  plane3 : Plane3
  shader : String
  projectionMatrix : Matrix4 ℚ
deriving DecidableEq

/-- A brush node as far as the fingerprint reads it: the numeric value of the
detail flag of the brush and its faces in stored order. -/
structure BrushNode where
  detailFlag : Nat
  faces : List Face
deriving DecidableEq

namespace BrushNode

/-- The number of faces, `m_brush.getNumFaces()`. -/
def getNumFaces (b : BrushNode) : Nat :=
  b.faces.length

/-- The body of the loop over the faces in `BrushNode::getFingerprint`. -/
def addFace (H : Hash) (SignificantDigits : Nat) (hash : H.State) (face : Face) : H.State :=
  let h1 := H.addVector3 hash face.plane3.normal SignificantDigits
  let h2 := H.addDouble h1 face.plane3.dist SignificantDigits
  let h3 := H.addString h2 face.shader
  let texdef := face.projectionMatrix
  let h4 := H.addDouble h3 texdef.xx SignificantDigits
  let h5 := H.addDouble h4 texdef.yx SignificantDigits
  let h6 := H.addDouble h5 texdef.zx SignificantDigits
  let h7 := H.addDouble h6 texdef.xy SignificantDigits
  let h8 := H.addDouble h7 texdef.yy SignificantDigits
  H.addDouble h8 texdef.zy SignificantDigits

/-- The member `BrushNode::getFingerprint`; the hash and the constant
`scene::SignificantFingerprintDoubleDigits` are parameters. -/
def getFingerprint (H : Hash) (SignificantDigits : Nat) (b : BrushNode) : String :=
  if b.getNumFaces = 0 then ""
  else
    let h0 := H.addSizet H.init ((b.detailFlag + 1) % 2 ^ 64)
    let h1 := H.addSizet h0 b.getNumFaces
    H.render (b.faces.foldl (addFace H SignificantDigits) h1)

end BrushNode

/-- A hash that keeps everything it is fed in readable form: sizes in decimal,
strings as they are, and numbers rounded to the nearest integer (the digit count
is not used). -/
def transcriptHash : Hash where
  State := String
  Rounded := ℤ
  init := ""
  addSizet := fun s n => s ++ toString n ++ ";"
  addString := fun s t => s ++ t ++ ";"
  round := fun q _ => Int.floor (q + 1 / 2)
  addRounded := fun s r => s ++ toString r ++ ";"
  render := fun s => s

end brush

/-! ## Auxiliary definitions for the statements and proofs -/

namespace brush

open math

/-- Two faces agree in their rounded data: the rounded plane normal, the rounded
plane distance, the material name and the rounded texture projection matrix. -/
def sameRoundedFace (H : Hash) (digits : Nat) (f g : Face) : Prop :=
  (H.round f.plane3.normal.x digits = H.round g.plane3.normal.x digits
    ∧ H.round f.plane3.normal.y digits = H.round g.plane3.normal.y digits
    ∧ H.round f.plane3.normal.z digits = H.round g.plane3.normal.z digits)
  ∧ H.round f.plane3.dist digits = H.round g.plane3.dist digits
  ∧ f.shader = g.shader
  ∧ (H.round f.projectionMatrix.xx digits = H.round g.projectionMatrix.xx digits
    ∧ H.round f.projectionMatrix.xy digits = H.round g.projectionMatrix.xy digits
    ∧ H.round f.projectionMatrix.xz digits = H.round g.projectionMatrix.xz digits
    ∧ H.round f.projectionMatrix.xw digits = H.round g.projectionMatrix.xw digits
    ∧ H.round f.projectionMatrix.yx digits = H.round g.projectionMatrix.yx digits
    ∧ H.round f.projectionMatrix.yy digits = H.round g.projectionMatrix.yy digits
    ∧ H.round f.projectionMatrix.yz digits = H.round g.projectionMatrix.yz digits
    ∧ H.round f.projectionMatrix.yw digits = H.round g.projectionMatrix.yw digits
    ∧ H.round f.projectionMatrix.zx digits = H.round g.projectionMatrix.zx digits
    ∧ H.round f.projectionMatrix.zy digits = H.round g.projectionMatrix.zy digits
    ∧ H.round f.projectionMatrix.zz digits = H.round g.projectionMatrix.zz digits
    ∧ H.round f.projectionMatrix.zw digits = H.round g.projectionMatrix.zw digits
    ∧ H.round f.projectionMatrix.tx digits = H.round g.projectionMatrix.tx digits
    ∧ H.round f.projectionMatrix.ty digits = H.round g.projectionMatrix.ty digits
    ∧ H.round f.projectionMatrix.tz digits = H.round g.projectionMatrix.tz digits
    ∧ H.round f.projectionMatrix.tw digits = H.round g.projectionMatrix.tw digits)

/-- The items that the loop body of `getFingerprint` feeds into the hash for one
face. -/
def faceInput (H : Hash) (digits : Nat) (f : Face) : List (HashInput H.Rounded) :=
  [ .rounded (H.round f.plane3.normal.x digits),
    .rounded (H.round f.plane3.normal.y digits),
    .rounded (H.round f.plane3.normal.z digits),
    .rounded (H.round f.plane3.dist digits),
    .string f.shader,
    .rounded (H.round f.projectionMatrix.xx digits),
    .rounded (H.round f.projectionMatrix.yx digits),
    .rounded (H.round f.projectionMatrix.zx digits),
    .rounded (H.round f.projectionMatrix.xy digits),
    .rounded (H.round f.projectionMatrix.yy digits),
    .rounded (H.round f.projectionMatrix.zy digits) ]

/-- The items that `getFingerprint` feeds into the hash for a brush with at
least one face; the first is the detail flag plus one as a `std::size_t`. -/
def fingerprintInput (H : Hash) (digits : Nat) (b : BrushNode) : List (HashInput H.Rounded) :=
  [.sizet ((b.detailFlag + 1) % 2 ^ 64), .sizet b.getNumFaces]
    ++ b.faces.flatMap (faceInput H digits)

/-- The sequence as the specification words it: the detail flag plus one, the
number of faces, and then for each face in stored order the plane normal and
the plane distance (rounded), the material name, and the texture matrix
components xx, yx, zx, xy, yy, zy (rounded the same way). -/
def specifiedInput (H : Hash) (digits : Nat) (b : BrushNode) : List (HashInput H.Rounded) :=
  HashInput.sizet (b.detailFlag + 1) :: HashInput.sizet b.faces.length ::
    (b.faces.map (fun f =>
      [ HashInput.rounded (H.round f.plane3.normal.x digits),
        HashInput.rounded (H.round f.plane3.normal.y digits),
        HashInput.rounded (H.round f.plane3.normal.z digits),
        HashInput.rounded (H.round f.plane3.dist digits),
        HashInput.string f.shader,
        HashInput.rounded (H.round f.projectionMatrix.xx digits),
        HashInput.rounded (H.round f.projectionMatrix.yx digits),
        HashInput.rounded (H.round f.projectionMatrix.zx digits),
        HashInput.rounded (H.round f.projectionMatrix.xy digits),
        HashInput.rounded (H.round f.projectionMatrix.yy digits),
        HashInput.rounded (H.round f.projectionMatrix.zy digits) ])).flatten

/-- The identity matrix, `Matrix4::getIdentity`. -/
def identityMatrix : Matrix4 ℚ :=
  ⟨1, 0, 0, 0, 0, 1, 0, 0, 0, 0, 1, 0, 0, 0, 0, 1⟩

/-- The six faces of an axis-aligned cube of half size 64 with one material. -/
def cubeFaces : List Face :=
  [ ⟨⟨⟨1, 0, 0⟩, 64⟩, "textures/common/caulk", identityMatrix⟩,
    ⟨⟨⟨-1, 0, 0⟩, 64⟩, "textures/common/caulk", identityMatrix⟩,
    ⟨⟨⟨0, 1, 0⟩, 64⟩, "textures/common/caulk", identityMatrix⟩,
    ⟨⟨⟨0, -1, 0⟩, 64⟩, "textures/common/caulk", identityMatrix⟩,
    ⟨⟨⟨0, 0, 1⟩, 64⟩, "textures/common/caulk", identityMatrix⟩,
    ⟨⟨⟨0, 0, -1⟩, 64⟩, "textures/common/caulk", identityMatrix⟩ ]

end brush

namespace scene

/-- Two entities have the same content: the same value for every key and the
same multiset of primitive fingerprints. -/
def SameContent (e b : Entity) : Prop :=
  (∀ k, getKeyValue k e.spawnargs = getKeyValue k b.spawnargs)
    ∧ e.fingerprints.Perm b.fingerprints

namespace merge

/-- The action that `createActionsForKeyValueDiff` adds for a difference. -/
def keyValueAction (target : Nat) (d : KeyValueDifference) : MergeAction :=
  match d.type with
  | .KeyValueAdded => .AddKeyValue target d.key (d.sourceValue.getD "")
  | .KeyValueRemoved => .RemoveKeyValue target d.key
  | .KeyValueChanged => .ChangeKeyValue target d.key (d.sourceValue.getD "")

/-- The action that `createActionsForPrimitiveDiff` adds for a difference. -/
def primitiveAction (target : Nat) (d : PrimitiveDifference) : MergeAction :=
  match d.type with
  | .PrimitiveAdded => .AddChildNode target d.node
  | .PrimitiveRemoved => .RemoveChildNode target d.fingerprint

/-- The actions that `createActionsForEntity` adds for an entity difference, in
the order in which it adds them. -/
def entityActions (d : EntityDifference) : List MergeAction :=
  match d.type with
  | .Added =>
    match d.sourceNode with
    | some source => [.AddEntity source.node]
    | none => []
  | .Removed =>
    match d.baseNode with
    | some base => [.RemoveEntity base.position]
    | none => []
  | .Modified =>
    match d.baseNode with
    | some base =>
      d.differingKeyValues.map (keyValueAction base.position)
        ++ d.differingChildren.map (primitiveAction base.position)
    | none => []

/-- The entity differences of a comparison result that are about the source
node at a given position. -/
def ComparisonResult.differencesOfSource (result : ComparisonResult) (position : Nat) :
    List EntityDifference :=
  result.differences.filter
    (fun d => decide (d.sourceNode.map NodeRef.position = some position))

/-- Is the difference of the given type and about the given fingerprint. -/
def PrimitiveDifference.isFor (type : PrimitiveDifferenceType) (fingerprint : String)
    (d : PrimitiveDifference) : Bool :=
  decide (d.type = type) && decide (d.fingerprint = fingerprint)

/-- The actions of a list applied to the base tree one after the other, each
once, in list order: the tree after the last action, or the error of the first
action that throws. -/
def applyAll : List MergeAction → LiveTree → Except MergeError LiveTree
  | [], t => .ok t
  | a :: rest, t =>
    match a.apply t with
    | .ok t2 => applyAll rest t2
    | .error err => .error err

end merge

end scene

namespace math

/-- The number of changes of side along a path that starts at `prev` and runs
through the list. -/
def sideChanges {α : Type} (side : α → Bool) : α → List α → Nat
  | _, [] => 0
  | prev, a :: rest => (if side prev = side a then 0 else 1) + sideChanges side a rest

/-- The number of changes of side between neighbours in a list. -/
def pathChanges {α : Type} (side : α → Bool) : List α → Nat
  | [] => 0
  | a :: rest => sideChanges side a rest

/-- The side of a vector with respect to the half-space on which the linear form
with coefficients `l` is negative. -/
def halfSpace (l v : Vector4 ℚ) : Bool :=
  decide (l.x * v.x + l.y * v.y + l.z * v.z + l.w * v.w < 0)

/-- A polygon that no half-space boundary cuts more than twice along its
vertices. -/
def CutAtMostTwice (polygon : List (Vector4 ℚ)) : Prop :=
  ∀ l : Vector4 ℚ, pathChanges (halfSpace l) polygon ≤ 2

/-- A clip plane class whose crossings lie on the edge they cut: where the two
ends of an edge are on different sides, the scale is between 0 and 1. -/
def CrossesOnEdge (C : ClipPlane ℚ) : Prop :=
  ∀ (index : Fin 4) (i next : Vector4 ℚ), C.compare i index ≠ C.compare next index →
    0 ≤ C.scale i (next.sub i) index ∧ C.scale i (next.sub i) index ≤ 1

/-- A clip plane class whose `compare` tells, for every index, the side of a
half-space. -/
def ComparesHalfSpace (C : ClipPlane ℚ) : Prop :=
  ∀ index : Fin 4, ∃ l : Vector4 ℚ, ∀ v : Vector4 ℚ, C.compare v index = halfSpace l v

namespace Vector4ClipPolygon

/-- The vertices that the loop of `apply` writes, without the bound of the
output array. -/
def clipFrom (C : ClipPlane ℚ) (index : Fin 4) : Vector4 ℚ → List (Vector4 ℚ) → List (Vector4 ℚ)
  | _, [] => []
  | i, next :: rest =>
    (if xor (C.compare i index) (C.compare next index) then [crossing C index i next] else [])
      ++ (if C.compare next index then [next] else [])
      ++ clipFrom C index next rest

/-- The polygon with the crossing vertices put in and no vertex left out. -/
def refineFrom (C : ClipPlane ℚ) (index : Fin 4) : Vector4 ℚ → List (Vector4 ℚ) → List (Vector4 ℚ)
  | _, [] => []
  | i, next :: rest =>
    (if xor (C.compare i index) (C.compare next index) then [crossing C index i next] else [])
      ++ [next]
      ++ refineFrom C index next rest

/-- The vertices that `apply` writes, without the bound of the output array. -/
def clip (C : ClipPlane ℚ) (polygon : List (Vector4 ℚ)) (index : Fin 4) : List (Vector4 ℚ) :=
  match polygon.getLast? with
  | none => []
  | some last => clipFrom C index last polygon

end Vector4ClipPolygon

end math

namespace math

namespace Float32

/-- Whether the value is finite (neither an infinity nor NaN). -/
def isFinite : Float32 → Bool
  | finite _ _ _ => true
  | _ => false

/-- The rational number a finite value stands for (0 for the infinities and
NaN, which stand for no number). -/
def toRat : Float32 → ℚ
  | finite s m e => (if s then -1 else 1) * (m : ℚ) * (2 : ℚ) ^ e
  | _ => 0

/-- The mantissa with the sign. -/
def signedMantissa (negative : Bool) (mantissa : Nat) : Int :=
  (if negative then -1 else 1) * (mantissa : Int)

/-- Whether `r` is finite and stands for the number `z / den * 2^scale`, decided
in integers. -/
def isValue (r : Float32) (z : Int) (den : Nat) (scale : Int) : Bool :=
  match r with
  | finite s n q =>
    decide (signedMantissa s n * den * 2 ^ (q - scale).toNat = z * 2 ^ (scale - q).toNat)
  | _ => false

/-- Whether the sum `a + b` of two finite values is computed without rounding:
the result is finite and stands for the sum of the two numbers. -/
def addExact (a b : Float32) : Bool :=
  match a, b with
  | finite s m e, finite t n f =>
    isValue (a + b) (scaledInt s m e (min e f) + scaledInt t n f (min e f)) 1 (min e f)
  | _, _ => false

/-- Whether the product `a * b` of two finite values is computed without
rounding. -/
def mulExact (a b : Float32) : Bool :=
  match a, b with
  | finite s m e, finite t n f =>
    isValue (a * b) (signedMantissa s m * signedMantissa t n) 1 (e + f)
  | _, _ => false

/-- Whether the quotient `a / b` of two finite values, `b` not zero, is computed
without rounding. -/
def divExact (a b : Float32) : Bool :=
  match a, b with
  | finite s m e, finite t n f =>
    decide (n ≠ 0) && isValue (a / b) (signedMantissa s m * (if t then -1 else 1)) n (e - f)
  | _, _ => false

end Float32

/-- An arithmetic expression over the sixteen entries `_m[0]` to `_m[15]` of a
matrix and the literals 0 and 1: the shape of a computation of `Matrix4.cpp`. -/
inductive Formula where
  | entry (i : Fin 16)
  | zero
  | one
  | add (a b : Formula)
  | sub (a b : Formula)
  | mul (a b : Formula)
  | div (a b : Formula)
  | neg (a : Formula)
deriving DecidableEq

instance : Add Formula := ⟨Formula.add⟩
instance : Sub Formula := ⟨Formula.sub⟩
instance : Mul Formula := ⟨Formula.mul⟩
instance : Div Formula := ⟨Formula.div⟩
instance : Neg Formula := ⟨Formula.neg⟩
instance : OfNat Formula 0 := ⟨Formula.zero⟩
instance : OfNat Formula 1 := ⟨Formula.one⟩

namespace Formula

/-- The value of the expression in `float` arithmetic. -/
def eval32 (env : Fin 16 → Float32) : Formula → Float32
  | entry i => env i
  | zero => 0
  | one => 1
  | add a b => a.eval32 env + b.eval32 env
  | sub a b => a.eval32 env - b.eval32 env
  | mul a b => a.eval32 env * b.eval32 env
  | div a b => a.eval32 env / b.eval32 env
  | neg a => -a.eval32 env

/-- The value of the expression in exact arithmetic. -/
def evalRat (env : Fin 16 → ℚ) : Formula → ℚ
  | entry i => env i
  | zero => 0
  | one => 1
  | add a b => a.evalRat env + b.evalRat env
  | sub a b => a.evalRat env - b.evalRat env
  | mul a b => a.evalRat env * b.evalRat env
  | div a b => a.evalRat env / b.evalRat env
  | neg a => -a.evalRat env

/-- Whether the `float` evaluation of the expression is exact: the entries it
reads are finite, and every operation in it has finite operands and returns
the exact result (it does not round, overflow or divide by zero). -/
def exactAt (env : Fin 16 → Float32) : Formula → Bool
  | entry i => (env i).isFinite
  | zero => true
  | one => true
  | add a b => a.exactAt env && b.exactAt env && Float32.addExact (a.eval32 env) (b.eval32 env)
  | sub a b =>
    a.exactAt env && b.exactAt env && Float32.addExact (a.eval32 env) (-b.eval32 env)
  | mul a b => a.exactAt env && b.exactAt env && Float32.mulExact (a.eval32 env) (b.eval32 env)
  | div a b => a.exactAt env && b.exactAt env && Float32.divExact (a.eval32 env) (b.eval32 env)
  | neg a => a.exactAt env

/-- Every divisor in the expression is non-zero in exact arithmetic. -/
def DivisorsNonzero (env : Fin 16 → ℚ) : Formula → Prop
  | entry _ => True
  | zero => True
  | one => True
  | add a b => a.DivisorsNonzero env ∧ b.DivisorsNonzero env
  | sub a b => a.DivisorsNonzero env ∧ b.DivisorsNonzero env
  | mul a b => a.DivisorsNonzero env ∧ b.DivisorsNonzero env
  | div a b => a.DivisorsNonzero env ∧ b.DivisorsNonzero env ∧ b.evalRat env ≠ 0
  | neg a => a.DivisorsNonzero env

end Formula

namespace Matrix4

/-- The entry `_m[i]`. -/
def entryAt {F : Type} (M : Matrix4 F) (i : Fin 16) : F :=
  match i.val with
  | 0 => M.xx
  | 1 => M.xy
  | 2 => M.xz
  | 3 => M.xw
  | 4 => M.yx
  | 5 => M.yy
  | 6 => M.yz
  | 7 => M.yw
  | 8 => M.zx
  | 9 => M.zy
  | 10 => M.zz
  | 11 => M.zw
  | 12 => M.tx
  | 13 => M.ty
  | 14 => M.tz
  | _ => M.tw

/-- The matrix with a function applied to every entry. -/
def map {F G : Type} (f : F → G) (M : Matrix4 F) : Matrix4 G :=
  ⟨f M.xx, f M.xy, f M.xz, f M.xw, f M.yx, f M.yy, f M.yz, f M.yw,
   f M.zx, f M.zy, f M.zz, f M.zw, f M.tx, f M.ty, f M.tz, f M.tw⟩

/-- Whether every entry passes a test. -/
def all {F : Type} (p : F → Bool) (M : Matrix4 F) : Bool :=
  p M.xx && p M.xy && p M.xz && p M.xw && p M.yx && p M.yy && p M.yz && p M.yw
    && p M.zx && p M.zy && p M.zz && p M.zw && p M.tx && p M.ty && p M.tz && p M.tw

/-- The matrix whose entries are the expressions `_m[0]` to `_m[15]`. -/
def symbolic : Matrix4 Formula :=
  ⟨.entry 0, .entry 1, .entry 2, .entry 3, .entry 4, .entry 5, .entry 6, .entry 7,
   .entry 8, .entry 9, .entry 10, .entry 11, .entry 12, .entry 13, .entry 14, .entry 15⟩

/-- The product of a matrix with a column vector: `x` times the x column plus
`y` times the y column plus `z` times the z column plus `w` times the t column.
`Matrix4::transform` is declared in a header that is not part of the sources;
this function stands in for it in examples. -/
def transformByColumns {F : Type} [Add F] [Mul F] (M : Matrix4 F) (v : Vector4 F) :
    Vector4 F :=
  ⟨M.xx * v.x + M.yx * v.y + M.zx * v.z + M.tx * v.w,
   M.xy * v.x + M.yy * v.y + M.zy * v.z + M.ty * v.w,
   M.xz * v.x + M.yz * v.y + M.zz * v.z + M.tz * v.w,
   M.xw * v.x + M.yw * v.y + M.zw * v.z + M.tw * v.w⟩

/-- The rational numbers the entries of a `float` matrix stand for. -/
def toRat (M : Matrix4 Float32) : Matrix4 ℚ :=
  M.map Float32.toRat

/-- Whether the `float` computation of `getInverse` on `M` is exact: no entry of
the result involves an operation that rounds, overflows or divides by zero. -/
def getInverseExact (M : Matrix4 Float32) : Bool :=
  (getInverse symbolic).all (fun t => t.exactAt M.entryAt)

/-- Whether the `float` computation of `getFullInverse` on `M` is exact. -/
def getFullInverseExact (M : Matrix4 Float32) : Bool :=
  (getFullInverse symbolic).all (fun t => t.exactAt M.entryAt)

end Matrix4

end math
/-! ## Example data -/

namespace scene

namespace merge

/-- Four primitives with distinct fingerprints. -/
def P1 : Primitive := ⟨"P1", 1⟩

/-- See `P1`. -/
def P2 : Primitive := ⟨"P2", 2⟩

/-- See `P1`. -/
def P3 : Primitive := ⟨"P3", 3⟩

/-- See `P1`. -/
def P4 : Primitive := ⟨"P4", 4⟩

/-- The base version of the entity "light_1": white, with three primitives. -/
def light1Base : Entity :=
  ⟨[("name", "light_1"), ("_color", "1 1 1")], [P1, P2, P3]⟩

/-- The source version of "light_1": red, the primitives reordered and one
added. -/
def light1Source : Entity :=
  ⟨[("name", "light_1"), ("_color", "1 0 0")], [P3, P2, P1, P4]⟩

/-- An entity "trigger_5" without primitives. -/
def trigger5 : Entity :=
  ⟨[("name", "trigger_5")], []⟩

namespace MergeOperation

/-- The operation with two stored actions of which the first throws on an empty
base: it removes an entity that is not there. -/
def removeThenAdd : MergeOperation :=
  ((create [] []).addAction (.RemoveEntity 0)).addAction
    (.AddEntity ⟨[("name", "trigger_5")], []⟩)

/-- An operation whose second action throws: the first adds "trigger_5", the
second adds it again (a structural conflict), the third would remove it. -/
def addTwice : MergeOperation :=
  (((create [] []).addAction (.AddEntity ⟨[("name", "trigger_5")], []⟩)).addAction
    (.AddEntity ⟨[("name", "trigger_5")], []⟩)).addAction
    (.RemoveEntity 0)

end MergeOperation

end merge

end scene

namespace map

open scene scene.merge

/-- A pending merge whose only action removes an entity that the base has lost
in the meantime: the operation was built against a base holding the entity
"old", the live root no longer holds it. -/
def staleMerge : Map :=
  { root := some []
    parentLinks := [(1, 0)]
    editMode := EditMode.Merge
    mergeOperation := some (MergeOperation.CreateFromComparisonResult
      (GraphComparer.Compare [] [⟨[("name", "old")], []⟩]))
    mergeActionNodes := [⟨1, MergeAction.RemoveEntity 0⟩]
    selectionMode := SelectionMode.eMergeAction
    log := [] }

/-- A map in Merge mode whose pending operation adds the entity "trigger_5" to
an empty root. -/
def pendingMerge : Map :=
  { root := some []
    parentLinks := [(1, 0)]
    editMode := EditMode.Merge
    mergeOperation := some (MergeOperation.CreateFromComparisonResult
      (GraphComparer.Compare [⟨[("name", "trigger_5")], []⟩] []))
    mergeActionNodes := [⟨1, MergeAction.AddEntity ⟨[("name", "trigger_5")], []⟩⟩]
    selectionMode := SelectionMode.eMergeAction
    log := [] }

/-- A map without a root node: nothing is loaded. -/
def noMapLoaded : Map :=
  { root := none
    parentLinks := []
    editMode := EditMode.Normal
    mergeOperation := none
    mergeActionNodes := []
    selectionMode := SelectionMode.ePrimitive
    log := [] }

/-- An environment in which the file dialog answers "other.map", every file
exists, and "other.map" loads as a map with the two entities "trigger_5" and
"light_1". -/
def otherMapOnDisk : MergeEnvironment :=
  { fileSelection := "other.map"
    fileOrDirExists := fun _ => true
    load := fun path =>
      if path = "other.map" then LoadResult.loaded [trigger5, light1Source]
      else LoadResult.notLoaded }

/-- A loaded map with an empty root, in Normal mode. -/
def emptyMap : Map :=
  { root := some []
    parentLinks := []
    editMode := EditMode.Normal
    mergeOperation := none
    mergeActionNodes := []
    selectionMode := SelectionMode.ePrimitive
    log := [] }

/-- An environment in which the file dialog is cancelled and no file exists. -/
def nothingOnDisk : MergeEnvironment :=
  { fileSelection := ""
    fileOrDirExists := fun _ => false
    load := fun _ => LoadResult.notLoaded }

/-- A map in Normal mode that still holds a merge operation and a preview
node. -/
def leftoverMerge : Map :=
  { pendingMerge with editMode := EditMode.Normal, selectionMode := SelectionMode.ePrimitive }

/-- An environment in which the user picks "copy.map" and writing the new
resource throws an `OperationException`. -/
def diskFull : SaveEnvironment :=
  { fileSelection := "copy.map"
    createdResource := 7
    isReadOnly := false
    fileHasBeenModifiedSinceLastSave := false
    overwriteConfirmed := false
    resourceSaveThrows := some "disk full" }

end map

namespace brush

open math

end brush

namespace math

/-- A scaling by 2 along x followed by the translation (3, 4, 5). -/
def scaleAndShift : Matrix4 Float32 :=
  ⟨2, 0, 0, 0, 0, 1, 0, 0, 0, 0, 1, 0, 3, 4, 5, 1⟩

/-- The scaling by 3. -/
def scaleByThree : Matrix4 Float32 :=
  ⟨3, 0, 0, 0, 0, 3, 0, 0, 0, 0, 3, 0, 0, 0, 0, 1⟩

/-- The scaling by `2^50`. -/
def scaleByHuge : Matrix4 Float32 :=
  ⟨1125899906842624, 0, 0, 0, 0, 1125899906842624, 0, 0, 0, 0, 1125899906842624, 0,
   0, 0, 0, 1⟩

/-- A matrix with determinant 2 that is not affine. -/
def shearInW : Matrix4 Float32 :=
  ⟨1, 0, 0, 1, 0, 1, 0, 0, 0, 0, 1, 0, 1, 0, 0, 3⟩

/-- Three vertices in homogeneous coordinates. -/
def slantedTriangle : List (Vector4 Float32) :=
  [⟨4, 3, -6, 1⟩, ⟨-9, 9, -6, 9⟩, ⟨-1, -5, 5, 3⟩]

/-- The matrix whose x, y and z columns are the vertices of `slantedTriangle`
and whose t column is zero. -/
def slantedMatrix : Matrix4 Float32 :=
  ⟨4, 3, -6, 1, -9, 9, -6, 9, -1, -5, 5, 3, 0, 0, 0, 0⟩

end math
/-! ## Lemmas: attribute maps -/

namespace scene

theorem getKeyValue_removeKeyValue_self (key : String) (m : SpawnArgs) :
    getKeyValue key (removeKeyValue key m) = none := by
  induction m with
  | nil => rfl
  | cons kv rest ih =>
    obtain ⟨k, v⟩ := kv
    by_cases h : k = key
    · simp [removeKeyValue, h, ih]
    · simp [removeKeyValue, getKeyValue, h, ih]

/-- The keys listed for an attribute map are exactly the keys that have a
value. -/
theorem mem_keysOf (key : String) (m : SpawnArgs) :
    key ∈ keysOf m ↔ getKeyValue key m ≠ none := by
  induction m with
  | nil => simp [keysOf, getKeyValue]
  | cons kv rest ih =>
    obtain ⟨k, v⟩ := kv
    by_cases h : k = key
    · simp [keysOf, getKeyValue, h]
    · have h2 : key ≠ k := fun e => h e.symm
      simp [keysOf, getKeyValue, h, h2, List.mem_filter, ih]

theorem sameContent_name_eq {e b : Entity} (h : SameContent e b) : e.name = b.name :=
  h.1 "name"

end scene

/-! ## Theorems: comparison results and the actions created from them -/

namespace scene

namespace merge

namespace MergeOperation

theorem createActionsForKeyValueDiff_eq (op : MergeOperation) (d : KeyValueDifference)
    (target : Nat) :
    createActionsForKeyValueDiff op d target =
      { op with actions := op.actions ++ [keyValueAction target d] } := by
  unfold createActionsForKeyValueDiff keyValueAction addAction
  cases d.type <;> rfl

theorem createActionsForPrimitiveDiff_eq (op : MergeOperation) (d : PrimitiveDifference)
    (target : Nat) :
    createActionsForPrimitiveDiff op d target =
      { op with actions := op.actions ++ [primitiveAction target d] } := by
  unfold createActionsForPrimitiveDiff primitiveAction addAction
  cases d.type <;> rfl

theorem foldl_createActionsForKeyValueDiff (ds : List KeyValueDifference) (target : Nat)
    (op : MergeOperation) :
    ds.foldl (fun o d => createActionsForKeyValueDiff o d target) op =
      { op with actions := op.actions ++ ds.map (keyValueAction target) } := by
  induction ds generalizing op with
  | nil => simp
  | cons d rest ih =>
    rw [List.foldl_cons, ih, createActionsForKeyValueDiff_eq]
    simp

theorem foldl_createActionsForPrimitiveDiff (ds : List PrimitiveDifference) (target : Nat)
    (op : MergeOperation) :
    ds.foldl (fun o d => createActionsForPrimitiveDiff o d target) op =
      { op with actions := op.actions ++ ds.map (primitiveAction target) } := by
  induction ds generalizing op with
  | nil => simp
  | cons d rest ih =>
    rw [List.foldl_cons, ih, createActionsForPrimitiveDiff_eq]
    simp

/-- The method `createActionsForEntity` appends the actions of the record. -/
theorem createActionsForEntity_eq (op : MergeOperation) (d : EntityDifference) :
    createActionsForEntity op d = { op with actions := op.actions ++ entityActions d } := by
  unfold createActionsForEntity entityActions
  cases d.type with
  | Added => cases d.sourceNode <;> simp [addAction]
  | Removed => cases d.baseNode <;> simp [addAction]
  | Modified =>
    cases d.baseNode with
    | none => simp
    | some base =>
      simp [foldl_createActionsForKeyValueDiff, foldl_createActionsForPrimitiveDiff]

theorem foldl_createActionsForEntity (ds : List EntityDifference) (op : MergeOperation) :
    ds.foldl createActionsForEntity op =
      { op with actions := op.actions ++ ds.flatMap entityActions } := by
  induction ds generalizing op with
  | nil => simp
  | cons d rest ih =>
    rw [List.foldl_cons, ih, createActionsForEntity_eq]
    simp

/-- The actions of the operation created from a comparison result: the actions
of each entity difference, in the order of the result. -/
theorem CreateFromComparisonResult_actions (result : ComparisonResult) :
    (CreateFromComparisonResult result).actions = result.differences.flatMap entityActions := by
  simp [CreateFromComparisonResult, foldl_createActionsForEntity, create]

end MergeOperation

namespace GraphComparer

/-- Entities with the same value for every key have no key-value difference. -/
theorem compareKeyValues_eq_nil (e b : Entity)
    (h : ∀ k, getKeyValue k e.spawnargs = getKeyValue k b.spawnargs) :
    compareKeyValues e b = [] := by
  unfold compareKeyValues
  rw [List.append_eq_nil, List.filterMap_eq_nil_iff, List.filterMap_eq_nil_iff]
  constructor
  · intro k _
    unfold sourceKeyDifference
    rw [← h k]
    cases getKeyValue k e.spawnargs <;> simp
  · intro k hk
    unfold baseKeyDifference
    have := (mem_keysOf k b.spawnargs).mp hk
    rw [← h k] at this
    cases hv : getKeyValue k e.spawnargs with
    | none => exact absurd hv this
    | some v => rfl

/-- The fingerprints left unmatched are the surplus of each fingerprint over the
bag of the other side. -/
theorem count_unmatchedPrimitives (l : List Primitive) (bag : List String) (f : String) :
    ((unmatchedPrimitives l bag).map Primitive.fingerprint).count f =
      (l.map Primitive.fingerprint).count f - bag.count f := by
  induction l generalizing bag with
  | nil => simp [unmatchedPrimitives]
  | cons p rest ih =>
    unfold unmatchedPrimitives
    by_cases hp : p.fingerprint ∈ bag
    · simp only [hp, if_true, ih, List.map_cons]
      by_cases hf : p.fingerprint = f
      · subst hf
        have hpos : 0 < bag.count p.fingerprint := List.count_pos_iff.mpr hp
        rw [List.count_erase_self, List.count_cons_self]
        omega
      · rw [List.count_erase_of_ne (Ne.symm hf), List.count_cons_of_ne (Ne.symm hf)]
    · simp only [hp, if_false, List.map_cons]
      by_cases hf : p.fingerprint = f
      · subst hf
        rw [List.count_cons_self, List.count_cons_self, ih,
          List.count_eq_zero_of_not_mem hp]
        omega
      · rw [List.count_cons_of_ne (Ne.symm hf), List.count_cons_of_ne (Ne.symm hf), ih]

/-- Nothing is left unmatched exactly when no fingerprint is in surplus. -/
theorem unmatchedPrimitives_eq_nil (l : List Primitive) (bag : List String) :
    unmatchedPrimitives l bag = [] ↔
      ∀ f, (l.map Primitive.fingerprint).count f ≤ bag.count f := by
  constructor
  · intro h f
    have := count_unmatchedPrimitives l bag f
    rw [h] at this
    simp only [List.map_nil, List.count_nil] at this
    omega
  · intro h
    cases hu : unmatchedPrimitives l bag with
    | nil => rfl
    | cons p rest =>
      have := count_unmatchedPrimitives l bag p.fingerprint
      rw [hu, List.map_cons, List.count_cons_self] at this
      have := h p.fingerprint
      omega

/-- The primitive diff is empty exactly when both entities have the same
multiset of fingerprints. -/
theorem comparePrimitives_eq_nil (e b : Entity) :
    comparePrimitives e b = [] ↔ e.fingerprints.Perm b.fingerprints := by
  unfold comparePrimitives
  rw [List.append_eq_nil, List.map_eq_nil_iff, List.map_eq_nil_iff,
    unmatchedPrimitives_eq_nil, unmatchedPrimitives_eq_nil, List.perm_iff_count]
  unfold Entity.fingerprints
  constructor
  · rintro ⟨h1, h2⟩ f
    exact Nat.le_antisymm (h1 f) (h2 f)
  · intro h
    exact ⟨fun f => (h f).le, fun f => (h f).ge⟩

/-- The number of differences of a type about a fingerprint in the primitive
diff. -/
theorem comparePrimitives_count (e b : Entity) (f : String) :
    ((comparePrimitives e b).filter
        (PrimitiveDifference.isFor .PrimitiveAdded f)).length =
        e.fingerprints.count f - b.fingerprints.count f
      ∧ ((comparePrimitives e b).filter
        (PrimitiveDifference.isFor .PrimitiveRemoved f)).length =
        b.fingerprints.count f - e.fingerprints.count f := by
  have key : ∀ (l : List Primitive) (t u : PrimitiveDifferenceType),
      ((l.map (fun p => (⟨p.fingerprint, p, t⟩ : PrimitiveDifference))).filter
        (PrimitiveDifference.isFor u f)).length =
        if t = u then (l.map Primitive.fingerprint).count f else 0 := by
    intro l t u
    induction l with
    | nil => simp
    | cons p rest ih =>
      by_cases htu : t = u
      · simp only [htu, if_true] at ih ⊢
        by_cases hf : p.fingerprint = f
        · simp [List.filter_cons, PrimitiveDifference.isFor, hf, ih]
        · simp [List.filter_cons, PrimitiveDifference.isFor, hf, ih, List.count_cons_of_ne (Ne.symm hf)]
      · simp only [htu, if_false] at ih ⊢
        simp [List.filter_cons, PrimitiveDifference.isFor, htu, ih]
  unfold comparePrimitives
  simp only [List.filter_append, List.length_append, key]
  simp [count_unmatchedPrimitives, Entity.fingerprints]

/-- A pair has no key-value difference exactly when both entities have the same
value for every key. -/
theorem compareKeyValues_eq_nil_iff (e b : Entity) :
    compareKeyValues e b = [] ↔
      ∀ k, getKeyValue k e.spawnargs = getKeyValue k b.spawnargs := by
  constructor
  · intro h k
    unfold compareKeyValues at h
    rw [List.append_eq_nil, List.filterMap_eq_nil_iff, List.filterMap_eq_nil_iff] at h
    obtain ⟨h1, h2⟩ := h
    cases he : getKeyValue k e.spawnargs with
    | none =>
      cases hb : getKeyValue k b.spawnargs with
      | none => rfl
      | some w =>
        have hk : k ∈ keysOf b.spawnargs := (mem_keysOf k b.spawnargs).mpr (by simp [hb])
        have := h2 k hk
        simp [baseKeyDifference, he] at this
    | some v =>
      have hk : k ∈ keysOf e.spawnargs := (mem_keysOf k e.spawnargs).mpr (by simp [he])
      have := h1 k hk
      cases hb : getKeyValue k b.spawnargs with
      | none => simp [sourceKeyDifference, he, hb] at this
      | some w =>
        simp only [sourceKeyDifference, he, hb] at this
        by_cases hvw : v = w
        · rw [hvw]
        · simp [hvw] at this
  · exact compareKeyValues_eq_nil e b

/-- The untouched match of a source entity is a base entity with the same
content, where the source entity has a name. -/
theorem matchesUntouched_iff (e b : Entity) :
    matchesUntouched e b = true ↔ e.name.isSome = true ∧ SameContent e b := by
  unfold matchesUntouched SameContent
  simp only [Bool.and_eq_true, decide_eq_true_eq, compareKeyValues_eq_nil_iff,
    comparePrimitives_eq_nil]
  tauto

/-- One matching step on a list that starts with a source node without partner
for which the pool holds a candidate. -/
theorem matchWith_cons_some (p : Entity → Entity → Bool) (s b : NodeRef)
    (rest : List (NodeRef × Option NodeRef)) (pool : List NodeRef)
    (h : pool.find? (fun b => p s.node b.node) = some b) :
    matchWith p ((s, none) :: rest) pool =
      ⟨(s, some b) :: (matchWith p rest (pool.eraseP (fun b => p s.node b.node))).pairs,
        (matchWith p rest (pool.eraseP (fun b => p s.node b.node))).unmatchedBase⟩ := by
  simp only [matchWith, h]

/-- One matching step on a list that starts with a source node without partner
for which the pool holds no candidate. -/
theorem matchWith_cons_none (p : Entity → Entity → Bool) (s : NodeRef)
    (rest : List (NodeRef × Option NodeRef)) (pool : List NodeRef)
    (h : pool.find? (fun b => p s.node b.node) = none) :
    matchWith p ((s, none) :: rest) pool =
      ⟨(s, none) :: (matchWith p rest pool).pairs, (matchWith p rest pool).unmatchedBase⟩ := by
  simp only [matchWith, h]

/-- One matching step on a list that starts with a matched source node. -/
theorem matchWith_cons_matched (p : Entity → Entity → Bool) (s b : NodeRef)
    (rest : List (NodeRef × Option NodeRef)) (pool : List NodeRef) :
    matchWith p ((s, some b) :: rest) pool =
      ⟨(s, some b) :: (matchWith p rest pool).pairs, (matchWith p rest pool).unmatchedBase⟩ := by
  simp only [matchWith]

/-- A matching step keeps the source nodes and their order. -/
theorem matchWith_pairs_fst (p : Entity → Entity → Bool)
    (l : List (NodeRef × Option NodeRef)) (pool : List NodeRef) :
    (matchWith p l pool).pairs.map Prod.fst = l.map Prod.fst := by
  induction l generalizing pool with
  | nil => rfl
  | cons x rest ih =>
    obtain ⟨s, o⟩ := x
    cases o with
    | some b => simp [matchWith_cons_matched, ih]
    | none =>
      cases hfind : pool.find? (fun b => p s.node b.node) with
      | some b => simp [matchWith_cons_some p s b rest pool hfind, ih]
      | none => simp [matchWith_cons_none p s rest pool hfind, ih]

/-- A matching step leaves in the pool what it has not matched, in order. -/
theorem matchWith_sublist (p : Entity → Entity → Bool)
    (l : List (NodeRef × Option NodeRef)) (pool : List NodeRef) :
    (matchWith p l pool).unmatchedBase.Sublist pool := by
  induction l generalizing pool with
  | nil => exact List.Sublist.refl _
  | cons x rest ih =>
    obtain ⟨s, o⟩ := x
    cases o with
    | some b =>
      rw [matchWith_cons_matched]
      exact ih pool
    | none =>
      cases hfind : pool.find? (fun b => p s.node b.node) with
      | some b =>
        rw [matchWith_cons_some p s b rest pool hfind]
        exact (ih _).trans (List.eraseP_sublist _)
      | none =>
        rw [matchWith_cons_none p s rest pool hfind]
        exact ih pool

/-- Where the partner of a source node after a matching step comes from: the
pair was there before the step, or the source node had no partner and has
taken one from the pool that the lookup accepts for it. -/
theorem matchWith_pair_cases (p : Entity → Entity → Bool)
    (l : List (NodeRef × Option NodeRef)) (pool : List NodeRef) (s : NodeRef)
    (o : Option NodeRef) (h : (s, o) ∈ (matchWith p l pool).pairs) :
    (s, o) ∈ l ∨ ∃ b, o = some b ∧ (s, none) ∈ l ∧ b ∈ pool ∧ p s.node b.node = true := by
  induction l generalizing pool with
  | nil => simp [matchWith] at h
  | cons x rest ih =>
    obtain ⟨s2, o2⟩ := x
    cases o2 with
    | some b2 =>
      rw [matchWith_cons_matched, List.mem_cons] at h
      rcases h with h | h
      · exact Or.inl (by rw [h]; exact List.mem_cons_self _ _)
      · rcases ih pool h with h2 | ⟨b, hb, hl, hp, hpb⟩
        · exact Or.inl (List.mem_cons_of_mem _ h2)
        · exact Or.inr ⟨b, hb, List.mem_cons_of_mem _ hl, hp, hpb⟩
    | none =>
      cases hfind : pool.find? (fun b => p s2.node b.node) with
      | some b2 =>
        rw [matchWith_cons_some p s2 b2 rest pool hfind, List.mem_cons] at h
        rcases h with h | h
        · simp only [Prod.mk.injEq] at h
          obtain ⟨hs, ho⟩ := h
          subst hs
          refine Or.inr ⟨b2, ho, List.mem_cons_self _ _, List.mem_of_find?_eq_some hfind, ?_⟩
          have := List.find?_some hfind
          simpa using this
        · rcases ih _ h with h2 | ⟨b, hb, hl, hp, hpb⟩
          · exact Or.inl (List.mem_cons_of_mem _ h2)
          · exact Or.inr ⟨b, hb, List.mem_cons_of_mem _ hl,
              (List.eraseP_sublist _).subset hp, hpb⟩
      | none =>
        rw [matchWith_cons_none p s2 rest pool hfind, List.mem_cons] at h
        rcases h with h | h
        · exact Or.inl (by rw [h]; exact List.mem_cons_self _ _)
        · rcases ih pool h with h2 | ⟨b, hb, hl, hp, hpb⟩
          · exact Or.inl (List.mem_cons_of_mem _ h2)
          · exact Or.inr ⟨b, hb, List.mem_cons_of_mem _ hl, hp, hpb⟩

/-- The partner of a source node after both matching steps is a node of the base
tree that carries the name of the source node. -/
theorem matchEntities_partner (source base : Tree) (s b : NodeRef)
    (h : (s, some b) ∈ (matchEntities source base).pairs) :
    b ∈ nodeRefs base ∧ s.node.name.isSome = true ∧ b.node.name = s.node.name := by
  unfold matchEntities at h
  simp only at h
  rcases matchWith_pair_cases _ _ _ s (some b) h with h1 | ⟨b2, hb2, _, hpool, hp⟩
  · rcases matchWith_pair_cases _ _ _ s (some b) h1 with h2 | ⟨b3, hb3, _, hpool, hp⟩
    · simp at h2
    · simp only [Option.some.injEq] at hb3
      subst hb3
      have := (matchesUntouched_iff s.node b.node).mp hp
      exact ⟨hpool, this.1, (sameContent_name_eq this.2).symm⟩
  · simp only [Option.some.injEq] at hb2
    subst hb2
    simp only [matchesByName, Bool.and_eq_true, decide_eq_true_eq] at hp
    exact ⟨(matchWith_sublist _ _ _).subset hpool, hp.1, hp.2⟩

/-- Both matching steps keep the source nodes and their order. -/
theorem matchEntities_pairs_fst (source base : Tree) :
    (matchEntities source base).pairs.map Prod.fst = nodeRefs source := by
  unfold matchEntities
  simp only
  rw [matchWith_pairs_fst, matchWith_pairs_fst, List.map_map]
  exact List.map_id _

end GraphComparer

theorem nodeRefsFrom_map_position (first : Nat) (t : Tree) :
    (nodeRefsFrom first t).map NodeRef.position = List.range' first t.length := by
  induction t generalizing first with
  | nil => rfl
  | cons e rest ih => simp [nodeRefsFrom, ih, List.range'_succ]

/-- The references to the entities of a tree have pairwise different
positions. -/
theorem nodeRefs_positions_nodup (t : Tree) : ((nodeRefs t).map NodeRef.position).Nodup := by
  unfold nodeRefs
  rw [nodeRefsFrom_map_position]
  exact List.nodup_range' _ _

theorem mem_nodeRefsFrom (first : Nat) (t : Tree) (r : NodeRef) :
    r ∈ nodeRefsFrom first t ↔ first ≤ r.position ∧ t[r.position - first]? = some r.node := by
  induction t generalizing first with
  | nil => simp [nodeRefsFrom]
  | cons e rest ih =>
    simp only [nodeRefsFrom, List.mem_cons, ih]
    constructor
    · rintro (h | ⟨h1, h2⟩)
      · subst h
        simp
      · refine ⟨by omega, ?_⟩
        have : r.position - first = (r.position - (first + 1)) + 1 := by omega
        rw [this, List.getElem?_cons_succ]
        exact h2
    · rintro ⟨h1, h2⟩
      by_cases hp : r.position = first
      · left
        rw [hp, Nat.sub_self, List.getElem?_cons_zero, Option.some.injEq] at h2
        cases r
        simp only [NodeRef.mk.injEq]
        exact ⟨hp, h2.symm⟩
      · right
        refine ⟨by omega, ?_⟩
        have : r.position - first = (r.position - (first + 1)) + 1 := by omega
        rw [this, List.getElem?_cons_succ] at h2
        exact h2

/-- The references to the entities of a tree: one for every position. -/
theorem mem_nodeRefs (t : Tree) (r : NodeRef) :
    r ∈ nodeRefs t ↔ t[r.position]? = some r.node := by
  unfold nodeRefs
  rw [mem_nodeRefsFrom]
  simp

namespace GraphComparer

/-- The records about a source node, among the records of a list of pairs with
pairwise different source positions, are the records of its pair. -/
theorem filter_flatMap_comparePair (l : List (NodeRef × Option NodeRef))
    (hnodup : (l.map (fun x => x.1.position)).Nodup) (s : NodeRef) (o : Option NodeRef)
    (h : (s, o) ∈ l) :
    (l.flatMap comparePair).filter
        (fun d => decide (d.sourceNode.map NodeRef.position = some s.position))
      = comparePair (s, o) := by
  have hrecords : ∀ (x : NodeRef × Option NodeRef), ∀ d ∈ comparePair x,
      d.sourceNode = some x.1 := by
    intro x d hd
    obtain ⟨s2, o2⟩ := x
    cases o2 with
    | none =>
      simp only [comparePair, List.mem_singleton] at hd
      rw [hd]
    | some b =>
      simp only [comparePair] at hd
      split at hd
      · simp at hd
      · simp only [List.mem_singleton] at hd
        rw [hd]
  induction l with
  | nil => simp at h
  | cons x rest ih =>
    simp only [List.map_cons, List.nodup_cons] at hnodup
    simp only [List.flatMap_cons, List.filter_append]
    rw [List.mem_cons] at h
    rcases h with h | h
    · subst h
      have h1 : (comparePair (s, o)).filter
          (fun d => decide (d.sourceNode.map NodeRef.position = some s.position))
          = comparePair (s, o) := by
        rw [List.filter_eq_self]
        intro d hd
        simp [hrecords _ d hd]
      have h2 : (rest.flatMap comparePair).filter
          (fun d => decide (d.sourceNode.map NodeRef.position = some s.position)) = [] := by
        rw [List.filter_eq_nil_iff]
        intro d hd
        obtain ⟨y, hy, hdy⟩ := List.mem_flatMap.mp hd
        rw [hrecords y d hdy]
        simp only [Option.map_some', Option.some.injEq, decide_eq_true_eq]
        intro hpos
        exact hnodup.1 (List.mem_map.mpr ⟨y, hy, hpos⟩)
      rw [h1, h2, List.append_nil]
    · have h1 : (comparePair x).filter
          (fun d => decide (d.sourceNode.map NodeRef.position = some s.position)) = [] := by
        rw [List.filter_eq_nil_iff]
        intro d hd
        rw [hrecords x d hd]
        simp only [Option.map_some', Option.some.injEq, decide_eq_true_eq]
        intro hpos
        exact hnodup.1 (List.mem_map.mpr ⟨(s, o), h, hpos.symm⟩)
      rw [h1, List.nil_append]
      exact ih hnodup.2 h

/-- The records of a comparison about a source node are the records of its
pair. -/
theorem differencesOfSource_eq (source base : Tree) (s : NodeRef) (o : Option NodeRef)
    (h : (s, o) ∈ (matchEntities source base).pairs) :
    (Compare source base).differencesOfSource s.position = comparePair (s, o) := by
  unfold ComparisonResult.differencesOfSource Compare
  simp only [List.filter_append]
  have hnodup : ((matchEntities source base).pairs.map (fun x => x.1.position)).Nodup := by
    have := nodeRefs_positions_nodup source
    rw [← matchEntities_pairs_fst source base, List.map_map] at this
    exact this
  rw [filter_flatMap_comparePair _ hnodup s o h]
  have : ((matchEntities source base).unmatchedBase.map removedEntity).filter
      (fun d => decide (d.sourceNode.map NodeRef.position = some s.position)) = [] := by
    rw [List.filter_eq_nil_iff]
    intro d hd
    obtain ⟨b, _, rfl⟩ := List.mem_map.mp hd
    simp [removedEntity]
  rw [this, List.append_nil]

/-- Every source node has a pair in the matching. -/
theorem exists_pair_of_source (source base : Tree) (i : Nat) (e : Entity)
    (he : source[i]? = some e) :
    ∃ o, ((⟨i, e⟩ : NodeRef), o) ∈ (matchEntities source base).pairs := by
  have hmem : (⟨i, e⟩ : NodeRef) ∈ nodeRefs source := (mem_nodeRefs source ⟨i, e⟩).mpr he
  rw [← matchEntities_pairs_fst source base] at hmem
  obtain ⟨x, hx, hfst⟩ := List.mem_map.mp hmem
  obtain ⟨s, o⟩ := x
  simp only at hfst
  subst hfst
  exact ⟨o, hx⟩

/-- C7 (added entities): for every entity of the source tree whose name no
entity of the base tree carries, `Compare` emits exactly one EntityDifference
about it, of kind Added and without sub-differences, and the actions that
`CreateFromComparisonResult` creates from the records about it are exactly one
action, an AddEntity that carries the entity; the actions of the operation are
the actions of the records, in the order of the result. -/
theorem Compare_added_entity (source base : Tree) (i : Nat) (e : Entity) (n : String)
    (he : source[i]? = some e) (hn : e.name = some n) (hbase : ∀ b ∈ base, b.name ≠ some n) :
    (Compare source base).differencesOfSource i =
        [⟨.Added, some n, some ⟨i, e⟩, none, [], []⟩]
      ∧ ((Compare source base).differencesOfSource i).flatMap entityActions = [.AddEntity e]
      ∧ (((Compare source base).differencesOfSource i).flatMap entityActions).map
          MergeAction.getType = [ActionType.AddEntity]
      ∧ (MergeOperation.CreateFromComparisonResult (Compare source base)).actions =
          (Compare source base).differences.flatMap entityActions := by
  obtain ⟨o, ho⟩ := exists_pair_of_source source base i e he
  have hnone : o = none := by
    cases o with
    | none => rfl
    | some b =>
      exfalso
      obtain ⟨hb, _, hname⟩ := matchEntities_partner source base ⟨i, e⟩ b ho
      have hbmem : b.node ∈ base :=
        List.getElem?_mem ((mem_nodeRefs base b).mp hb)
      exact hbase b.node hbmem (by rw [hname]; exact hn)
  subst hnone
  have hrec : (Compare source base).differencesOfSource i =
      [⟨.Added, some n, some ⟨i, e⟩, none, [], []⟩] := by
    have := differencesOfSource_eq source base ⟨i, e⟩ none ho
    simp only [comparePair, hn] at this
    exact this
  refine ⟨hrec, ?_, ?_, MergeOperation.CreateFromComparisonResult_actions _⟩
  · rw [hrec]
    simp [entityActions]
  · rw [hrec]
    simp [entityActions, MergeAction.getType]

/-- Witness for C7: "trigger_5" is new in the source, where it is the second
entity. -/
theorem Compare_added_entity_witness :
    (Compare [light1Source, trigger5] [light1Base]).differencesOfSource 1 =
        [⟨.Added, some "trigger_5", some ⟨1, trigger5⟩, none, [], []⟩]
      ∧ ((Compare [light1Source, trigger5] [light1Base]).differencesOfSource 1).flatMap
          entityActions = [.AddEntity trigger5]
      ∧ (((Compare [light1Source, trigger5] [light1Base]).differencesOfSource 1).flatMap
          entityActions).map MergeAction.getType = [ActionType.AddEntity]
      ∧ (MergeOperation.CreateFromComparisonResult
          (Compare [light1Source, trigger5] [light1Base])).actions =
          (Compare [light1Source, trigger5] [light1Base]).differences.flatMap entityActions :=
  Compare_added_entity [light1Source, trigger5] [light1Base] 1 trigger5 "trigger_5"
    (by rfl) (by decide) (by decide)

/-- C8 (multiset primitive diff): for a matched pair and a fingerprint occurring
s times in the source entity and b times in the base entity, `Compare` emits
s - b PrimitiveAdded and b - s PrimitiveRemoved differences about it (truncated
subtraction, the maximum with zero); the pair has no primitive difference
exactly when the fingerprints of one entity are a reordering of those of the
other. -/
theorem Compare_primitive_multiset_diff (source base : Tree) (s b : NodeRef) (f : String)
    (hmatched : (s, some b) ∈ (matchEntities source base).pairs) :
    ((((Compare source base).differencesOfSource s.position).flatMap
          EntityDifference.differingChildren).filter
        (PrimitiveDifference.isFor .PrimitiveAdded f)).length =
        s.node.fingerprints.count f - b.node.fingerprints.count f
      ∧ ((((Compare source base).differencesOfSource s.position).flatMap
          EntityDifference.differingChildren).filter
        (PrimitiveDifference.isFor .PrimitiveRemoved f)).length =
        b.node.fingerprints.count f - s.node.fingerprints.count f
      ∧ (((Compare source base).differencesOfSource s.position).flatMap
          EntityDifference.differingChildren = [] ↔
        s.node.fingerprints.Perm b.node.fingerprints) := by
  have hprims : ((Compare source base).differencesOfSource s.position).flatMap
      EntityDifference.differingChildren = comparePrimitives s.node b.node := by
    rw [differencesOfSource_eq source base s (some b) hmatched]
    simp only [comparePair]
    split
    · next h => simp [h.2]
    · simp
  rw [hprims]
  exact ⟨(comparePrimitives_count s.node b.node f).1, (comparePrimitives_count s.node b.node f).2,
    comparePrimitives_eq_nil s.node b.node⟩

/-- Witness for C8: base [P1,P2,P3] against source [P3,P2,P1,P4] yields exactly
one primitive difference, PrimitiveAdded for P4. -/
theorem Compare_primitive_multiset_diff_witness :
    ((⟨0, light1Source⟩ : NodeRef), some (⟨0, light1Base⟩ : NodeRef))
        ∈ (matchEntities [light1Source] [light1Base]).pairs
      ∧ ((Compare [light1Source] [light1Base]).differencesOfSource 0).flatMap
          EntityDifference.differingChildren = [⟨"P4", P4, .PrimitiveAdded⟩]
      ∧ ((((Compare [light1Source] [light1Base]).differencesOfSource 0).flatMap
          EntityDifference.differingChildren).filter
          (PrimitiveDifference.isFor .PrimitiveAdded "P4")).length = 1
      ∧ ((((Compare [light1Source] [light1Base]).differencesOfSource 0).flatMap
          EntityDifference.differingChildren).filter
          (PrimitiveDifference.isFor .PrimitiveRemoved "P1")).length = 0 :=
  ⟨by decide, by decide,
    (Compare_primitive_multiset_diff [light1Source] [light1Base] ⟨0, light1Source⟩
      ⟨0, light1Base⟩ "P4" (by decide)).1.trans (by decide),
    (Compare_primitive_multiset_diff [light1Source] [light1Base] ⟨0, light1Source⟩
      ⟨0, light1Base⟩ "P1" (by decide)).2.1.trans (by decide)⟩

end GraphComparer

end merge

end scene
/-! ## Theorems: applying the actions of a comparison -/

namespace scene

namespace merge

namespace GraphComparer

end GraphComparer

end merge

end scene
/-! ## Theorems: the merge operation -/

namespace scene

namespace merge

namespace MergeOperation

/-- The actions of an operation after a sequence of `addAction` calls. -/
theorem actions_foldl_addAction (actions : List MergeAction) (op : MergeOperation) :
    (actions.foldl addAction op).actions = op.actions ++ actions := by
  induction actions generalizing op with
  | nil => simp
  | cons a rest ih => simp [List.foldl_cons, ih, addAction]

/-- The visitor that records what it is shown visits the list in order. -/
theorem foldl_record (actions acc : List MergeAction) :
    actions.foldl (fun seen a => seen ++ [a]) acc = acc ++ actions := by
  induction actions generalizing acc with
  | nil => simp
  | cons a rest ih => simp [List.foldl_cons, ih]

/-- The index reported with a failure is the index of one of the actions. -/
theorem applyActionsFrom_failure_index (actions : List MergeAction) (i : Nat)
    (base : LiveTree) (f : Nat × MergeError)
    (h : (applyActionsFrom actions i base).failure = some f) :
    i ≤ f.1 ∧ f.1 < i + actions.length := by
  induction actions generalizing i base with
  | nil => simp [applyActionsFrom] at h
  | cons a rest ih =>
    simp only [applyActionsFrom] at h
    cases hap : a.apply base with
    | error err =>
      simp only [hap, Option.some.injEq] at h
      subst h
      simp
    | ok base2 =>
      simp only [hap] at h
      have := ih (i + 1) base2 h
      simp only [List.length_cons]
      omega

/-- The applied actions of a pass are the remaining actions up to the failing
one (all of them without a failure); a failure index counts on from the index
of the first remaining action. -/
theorem applyActionsFrom_applied (actions : List MergeAction) (i : Nat) (base : LiveTree) :
    (applyActionsFrom actions i base).applied =
        actions.take ((((applyActionsFrom actions i base).failure).map Prod.fst).getD
          (i + actions.length) - i) := by
  induction actions generalizing i base with
  | nil => simp [applyActionsFrom]
  | cons a rest ih =>
    simp only [applyActionsFrom]
    cases hap : a.apply base with
    | error err => simp
    | ok base2 =>
      simp only [List.length_cons]
      rw [ih (i + 1) base2]
      cases hf : (applyActionsFrom rest (i + 1) base2).failure with
      | none =>
        simp only [Option.map_none', Option.getD_none]
        have h1 : i + 1 + rest.length - (i + 1) = rest.length := by omega
        have h2 : i + (rest.length + 1) - i = rest.length + 1 := by omega
        rw [h1, h2, List.take_succ_cons]
      | some f =>
        simp only [Option.map_some', Option.getD_some]
        have hle : i + 1 ≤ f.1 :=
          (applyActionsFrom_failure_index rest (i + 1) base2 f hf).1
        have h2 : f.1 - i = (f.1 - (i + 1)) + 1 := by omega
        rw [h2, List.take_succ_cons]

/-- The base tree that a pass leaves behind is the tree that its applied
actions produce, each applied once, in order; an action reported as failing
throws on that tree. -/
theorem applyActionsFrom_baseRoot (actions : List MergeAction) (i : Nat) (base : LiveTree) :
    ∃ live, applyAll (applyActionsFrom actions i base).applied base = .ok live
      ∧ (applyActionsFrom actions i base).baseRoot = liveEntities live
      ∧ ∀ k err, (applyActionsFrom actions i base).failure = some (k, err) →
          ∃ a, actions[k - i]? = some a ∧ a.apply live = .error err := by
  induction actions generalizing i base with
  | nil => exact ⟨base, rfl, rfl, fun k err h => by simp [applyActionsFrom] at h⟩
  | cons a rest ih =>
    simp only [applyActionsFrom]
    cases hap : a.apply base with
    | error err =>
      refine ⟨base, rfl, rfl, ?_⟩
      intro k err2 h
      simp only [Option.some.injEq, Prod.mk.injEq] at h
      obtain ⟨hk, he⟩ := h
      subst hk
      subst he
      exact ⟨a, by simp, hap⟩
    | ok base2 =>
      obtain ⟨live, h1, h2, h3⟩ := ih (i + 1) base2
      refine ⟨live, ?_, h2, ?_⟩
      · simp only [applyAll, hap]
        exact h1
      · intro k err h
        obtain ⟨b, hb, hthrow⟩ := h3 k err h
        have hle := (applyActionsFrom_failure_index rest (i + 1) base2 (k, err) h).1
        have hk : k - i = (k - (i + 1)) + 1 := by
          simp only at hle
          omega
        exact ⟨b, by rw [hk, List.getElem?_cons_succ]; exact hb, hthrow⟩

/-- A pass over actions of which a first part runs without a failure continues
with the rest on the tree that the first part leaves behind. -/
theorem applyActionsFrom_append (l1 l2 : List MergeAction) (i : Nat) (base live : LiveTree)
    (h : applyAll l1 base = .ok live) :
    applyActionsFrom (l1 ++ l2) i base =
      { baseRoot := (applyActionsFrom l2 (i + l1.length) live).baseRoot
        applied := l1 ++ (applyActionsFrom l2 (i + l1.length) live).applied
        failure := (applyActionsFrom l2 (i + l1.length) live).failure } := by
  induction l1 generalizing i base with
  | nil =>
    simp only [applyAll, Except.ok.injEq] at h
    subst h
    simp
  | cons a rest ih =>
    simp only [applyAll] at h
    cases hap : a.apply base with
    | error err => simp [hap] at h
    | ok base2 =>
      simp only [hap] at h
      rw [List.cons_append, applyActionsFrom]
      simp only [hap, List.length_cons]
      rw [ih (i + 1) base2 h]
      have hi : i + 1 + rest.length = i + (rest.length + 1) := by omega
      rw [hi]
      simp only [List.cons_append]

/-- C4 as stated fails: the second action was added and is visited by
`foreachAction`, but `applyActions()` never applies it, because the first action
throws: the base tree stays empty. -/
theorem applyActions_skips_actions_after_a_throw :
    removeThenAdd.foreachAction (fun seen a => seen ++ [a]) [] =
        [.RemoveEntity 0, .AddEntity ⟨[("name", "trigger_5")], []⟩]
      ∧ (removeThenAdd.applyActions []).applied = []
      ∧ (removeThenAdd.applyActions []).failure = some (0, MergeError.NotFound)
      ∧ (removeThenAdd.applyActions []).baseRoot = [] := by
  decide

/-- C4 (action order, amended): after any sequence of `addAction` calls,
`foreachAction` visits the stored actions in the order they were added, and
`applyActions()` applies the stored actions in that same order, each once, up to
the first action that throws (all of them when none throws, and those before
the failing index otherwise): the base tree after the call is the tree that
`apply()` of these actions, one after the other in that order, makes of the
base tree, and the action at a reported failing index throws on that tree. -/
theorem applyActions_in_insertion_order (sourceRoot baseRoot : Tree)
    (actions : List MergeAction) (base : Tree) :
    (actions.foldl addAction (create sourceRoot baseRoot)).foreachAction
        (fun seen a => seen ++ [a]) [] = actions
      ∧ ((actions.foldl addAction (create sourceRoot baseRoot)).applyActions base).applied =
        actions.take
          (((((actions.foldl addAction (create sourceRoot baseRoot)).applyActions base).failure).map
            Prod.fst).getD actions.length)
      ∧ ∃ live,
        applyAll ((actions.foldl addAction (create sourceRoot baseRoot)).applyActions base).applied
            (toLive base) = .ok live
          ∧ ((actions.foldl addAction (create sourceRoot baseRoot)).applyActions base).baseRoot
            = liveEntities live
          ∧ ∀ k err,
            ((actions.foldl addAction (create sourceRoot baseRoot)).applyActions base).failure
                = some (k, err) →
              ∃ a, actions[k]? = some a ∧ a.apply live = .error err := by
  have hact : (actions.foldl addAction (create sourceRoot baseRoot)).actions = actions := by
    rw [actions_foldl_addAction]
    simp [create]
  refine ⟨?_, ?_, ?_⟩
  · simp only [foreachAction, hact, foldl_record, List.nil_append]
  · simp only [applyActions, hact]
    have := applyActionsFrom_applied actions 0 (toLive base)
    simpa using this
  · simp only [applyActions, hact]
    obtain ⟨live, h1, h2, h3⟩ := applyActionsFrom_baseRoot actions 0 (toLive base)
    exact ⟨live, h1, h2, fun k err h => by simpa using h3 k err h⟩

/-- C5 (partial failure): when `apply()` of the actions before the k-th, one
after the other, makes the tree `live` of the base tree and the k-th action
throws on that tree, `applyActions()` applies exactly the actions before it,
reports the error with the index of the failing action to the caller, and
leaves the base tree as those earlier actions made it; no later action is
applied. -/
theorem applyActions_stops_at_first_throw (op : MergeOperation) (base : Tree)
    (before : List MergeAction) (a : MergeAction) (after : List MergeAction)
    (err : MergeError) (live : LiveTree)
    (hactions : op.actions = before ++ a :: after)
    (hbefore : applyAll before (toLive base) = .ok live)
    (hthrow : a.apply live = .error err) :
    (op.applyActions base).failure = some (before.length, err)
      ∧ (op.applyActions base).applied = before
      ∧ (op.applyActions base).baseRoot = liveEntities live := by
  simp only [applyActions, hactions]
  rw [applyActionsFrom_append before (a :: after) 0 (toLive base) live hbefore]
  simp [applyActionsFrom, hthrow]

/-- Witness for C5 at `addTwice` on an empty base: the first action stays
applied, the conflict of the second is reported with index 1, the third is not
applied. -/
theorem applyActions_stops_at_first_throw_witness :
    applyAll [.AddEntity ⟨[("name", "trigger_5")], []⟩] (toLive [])
        = .ok [some ⟨[("name", "trigger_5")], []⟩]
      ∧ (MergeAction.AddEntity ⟨[("name", "trigger_5")], []⟩).apply
          [some ⟨[("name", "trigger_5")], []⟩] = .error MergeError.StructuralConflict
      ∧ (addTwice.applyActions []).failure = some (1, MergeError.StructuralConflict)
      ∧ (addTwice.applyActions []).applied = [.AddEntity ⟨[("name", "trigger_5")], []⟩]
      ∧ (addTwice.applyActions []).baseRoot = [⟨[("name", "trigger_5")], []⟩] :=
  ⟨by rfl, by rfl,
    applyActions_stops_at_first_throw addTwice []
      [.AddEntity ⟨[("name", "trigger_5")], []⟩]
      (.AddEntity ⟨[("name", "trigger_5")], []⟩)
      [.RemoveEntity 0]
      MergeError.StructuralConflict [some ⟨[("name", "trigger_5")], []⟩]
      (by decide) (by rfl) (by rfl)⟩

end MergeOperation

end merge

end scene
/-! ## Theorems: the merge lifecycle of the map -/

namespace map

open scene scene.merge

/-- The loop of `cleanupMergeOperation` removes the parent link of exactly the
listed nodes and logs one call per node, in list order. -/
theorem foldl_removeMergeActionNode (nodes : List MergeActionNode) (m : Map) :
    nodes.foldl Map.removeMergeActionNode m =
      { m with
        parentLinks := m.parentLinks.filter
          (fun l => decide (l.1 ∉ nodes.map MergeActionNode.id))
        log := m.log ++ nodes.map (fun n => Effect.removeNodeFromParent n.id) } := by
  induction nodes generalizing m with
  | nil => simp
  | cons a rest ih =>
    rw [List.foldl_cons, ih]
    simp only [Map.removeMergeActionNode, removeNodeFromParent, List.filter_filter,
      List.map_cons, List.append_assoc, List.singleton_append]
    congr 1
    apply List.filter_congr
    intro l _
    simp only [List.mem_cons, not_or, ne_eq, decide_not, Bool.and_eq_true,
      Bool.not_eq_true', decide_eq_false_iff_not, Bool.decide_and, Bool.and_comm]

/-- A node whose links were filtered out has no parent. -/
theorem getParent_filter_none (links : List (Nat × Nat)) (ids : List Nat) (n : Nat)
    (h : n ∈ ids) :
    getParent n (links.filter (fun l => decide (l.1 ∉ ids))) = none := by
  induction links with
  | nil => rfl
  | cons l rest ih =>
    obtain ⟨c, p⟩ := l
    by_cases hc : c ∈ ids
    · simpa [List.filter_cons, hc] using ih
    · have hne : c ≠ n := fun e => hc (e ▸ h)
      simp only [decide_not] at ih
      simp [List.filter_cons, hc, getParent, hne, ih]

/-- A node outside the filter keeps its parent link. -/
theorem getParent_filter_other (links : List (Nat × Nat)) (ids : List Nat) (n : Nat)
    (h : n ∉ ids) :
    getParent n (links.filter (fun l => decide (l.1 ∉ ids))) = getParent n links := by
  induction links with
  | nil => rfl
  | cons l rest ih =>
    obtain ⟨c, p⟩ := l
    by_cases hc : c ∈ ids
    · have hne : c ≠ n := fun e => h (e ▸ hc)
      simpa [List.filter_cons, hc, getParent, hne] using ih
    · simp only [decide_not] at ih
      by_cases hcn : c = n
      · subst hcn
        simp [List.filter_cons, hc, getParent]
      · simp [List.filter_cons, hc, getParent, hcn, ih]

/-- What `cleanupMergeOperation` leaves behind, field by field. -/
theorem cleanupMergeOperation_eq (m : Map) :
    m.cleanupMergeOperation =
      { m with
        parentLinks := m.parentLinks.filter
          (fun l => decide (l.1 ∉ m.mergeActionNodes.map MergeActionNode.id))
        log := m.log ++ m.mergeActionNodes.map (fun n => Effect.removeNodeFromParent n.id)
        mergeActionNodes := []
        mergeOperation := none } := by
  simp only [Map.cleanupMergeOperation, foldl_removeMergeActionNode]

/-- C3 (abort): for every state of the map `abortMergeOperation` logs nothing but
one `removeNodeFromParent` call per preview node, so the number of
`applyActions` calls is unchanged; afterwards no preview node has a parent, the
preview-node list is empty, no operation is attached, the entities under the
root are what they were and every other node keeps its parent link. -/
theorem abortMergeOperation_discards_without_applying (m : Map) :
    (m.abortMergeOperation).log =
        m.log ++ m.mergeActionNodes.map (fun n => Effect.removeNodeFromParent n.id)
      ∧ (∀ op, (m.abortMergeOperation).log.count (Effect.applyActions op) =
          m.log.count (Effect.applyActions op))
      ∧ (∀ n ∈ m.mergeActionNodes, getParent n.id (m.abortMergeOperation).parentLinks = none)
      ∧ (m.abortMergeOperation).mergeActionNodes = []
      ∧ (m.abortMergeOperation).mergeOperation = none
      ∧ (m.abortMergeOperation).root = m.root
      ∧ (∀ c, c ∉ m.mergeActionNodes.map MergeActionNode.id →
          getParent c (m.abortMergeOperation).parentLinks = getParent c m.parentLinks) := by
  unfold Map.abortMergeOperation
  rw [cleanupMergeOperation_eq]
  refine ⟨rfl, ?_, ?_, rfl, rfl, rfl, ?_⟩
  · intro op
    simp only [List.count_append, Nat.add_right_eq_self]
    rw [List.count_eq_zero]
    intro hmem
    simp at hmem
  · intro n hn
    exact getParent_filter_none _ _ _ (List.mem_map_of_mem _ hn)
  · intro c hc
    exact getParent_filter_other _ _ _ hc

/-- C2 as stated fails: in Merge mode with an operation attached, when
`applyActions()` throws, `finishMergeOperation` is left by the exception; the
preview node keeps its parent, the preview-node list and the operation stay and
the edit mode is still Merge. -/
theorem finishMergeOperation_throwing_keeps_merge_state :
    staleMerge.editMode = EditMode.Merge
      ∧ staleMerge.mergeOperation.isSome = true
      ∧ (staleMerge.finishMergeOperation).2 = some (0, MergeError.NotFound)
      ∧ (staleMerge.finishMergeOperation).1.log =
          [Effect.undoableCommandStart "mergeMap",
           Effect.applyActions (MergeOperation.CreateFromComparisonResult
             (GraphComparer.Compare [] [⟨[("name", "old")], []⟩])),
           Effect.undoableCommandFinish "mergeMap"]
      ∧ (staleMerge.finishMergeOperation).1.log.count
          (Effect.removeNodeFromParent 1) = 0
      ∧ getParent 1 (staleMerge.finishMergeOperation).1.parentLinks = some 0
      ∧ (staleMerge.finishMergeOperation).1.mergeActionNodes ≠ []
      ∧ (staleMerge.finishMergeOperation).1.mergeOperation.isSome = true
      ∧ (staleMerge.finishMergeOperation).1.editMode = EditMode.Merge := by
  decide

/-- C2 (commit, amended): in Merge mode with an operation attached whose
`applyActions()` returns without throwing, `finishMergeOperation` opens the
undoable command "mergeMap", calls `applyActions()` on the operation once, then
removes each preview node from its parent, empties the preview-node list, drops
the operation, switches to Normal and closes the command; no exception leaves
the call and the root holds what `applyActions()` produced. -/
theorem finishMergeOperation_commits (m : Map) (op : MergeOperation)
    (hmode : m.editMode = EditMode.Merge) (hop : m.mergeOperation = some op)
    (hok : (op.applyActions (m.root.getD op.baseRoot)).failure = none) :
    (m.finishMergeOperation).2 = none
      ∧ (m.finishMergeOperation).1.log =
          m.log ++ [Effect.undoableCommandStart "mergeMap", Effect.applyActions op]
            ++ m.mergeActionNodes.map (fun n => Effect.removeNodeFromParent n.id)
            ++ [Effect.setSelectionMode SelectionMode.ePrimitive, Effect.sceneChangeNotify,
                Effect.undoableCommandFinish "mergeMap"]
      ∧ (∀ n ∈ m.mergeActionNodes,
          getParent n.id (m.finishMergeOperation).1.parentLinks = none)
      ∧ (m.finishMergeOperation).1.mergeActionNodes = []
      ∧ (m.finishMergeOperation).1.mergeOperation = none
      ∧ (m.finishMergeOperation).1.editMode = EditMode.Normal
      ∧ (m.finishMergeOperation).1.root =
          m.root.map (fun _ => (op.applyActions (m.root.getD op.baseRoot)).baseRoot) := by
  have hfin : m.finishMergeOperation =
      (let outcome := op.applyActions (m.root.getD op.baseRoot)
       let m1 : Map :=
        { m with
          root := m.root.map (fun _ => outcome.baseRoot)
          log := m.log ++ [Effect.undoableCommandStart "mergeMap", Effect.applyActions op] }
       let m2 := (m1.cleanupMergeOperation).setEditMode EditMode.Normal
       ({ m2 with log := m2.log ++ [Effect.undoableCommandFinish "mergeMap"] }, none)) := by
    simp only [Map.finishMergeOperation, Map.getEditMode, hmode, hop, hok, ne_eq,
      not_true_eq_false, if_false]
  rw [hfin]
  simp only [cleanupMergeOperation_eq, Map.setEditMode]
  refine ⟨?_, ?_, ?_, ?_, ?_, ?_, ?_⟩
  · trivial
  · simp
  · intro n hn
    exact getParent_filter_none _ _ _ (List.mem_map_of_mem _ hn)
  all_goals trivial

/-- Witness for C2 at `pendingMerge`: the hypotheses hold there and the commit
ends in Normal mode with the entity added to the root. -/
theorem finishMergeOperation_commits_witness :
    pendingMerge.editMode = EditMode.Merge
      ∧ (pendingMerge.finishMergeOperation).2 = none
      ∧ (pendingMerge.finishMergeOperation).1.mergeActionNodes = []
      ∧ (pendingMerge.finishMergeOperation).1.editMode = EditMode.Normal
      ∧ (pendingMerge.finishMergeOperation).1.root = some [⟨[("name", "trigger_5")], []⟩] :=
  have h := finishMergeOperation_commits pendingMerge
    (MergeOperation.CreateFromComparisonResult
      (GraphComparer.Compare [⟨[("name", "trigger_5")], []⟩] []))
    (by decide) (by decide) (by decide)
  ⟨by decide, h.1, h.2.2.2.1, h.2.2.2.2.2.1, by decide⟩

end map

/-! ## Theorems: brush fingerprints -/

namespace brush

open math

/-- C9: a brush node with zero faces has the empty string as its fingerprint,
whatever its detail flag, the hash and the precision; the function is total, so
the call does not fail. -/
theorem getFingerprint_of_no_faces (H : Hash) (SignificantDigits : Nat) (b : BrushNode)
    (h : b.getNumFaces = 0) :
    b.getFingerprint H SignificantDigits = "" := by
  simp [BrushNode.getFingerprint, h]

/-- Witness for C9: a detail brush without faces. -/
theorem getFingerprint_of_no_faces_witness :
    (BrushNode.mk 134217728 []).getNumFaces = 0
      ∧ (BrushNode.mk 134217728 []).getFingerprint transcriptHash 6 = "" :=
  ⟨rfl, getFingerprint_of_no_faces transcriptHash 6 (BrushNode.mk 134217728 []) rfl⟩

/-- A face agrees with itself. -/
theorem sameRoundedFace_refl (H : Hash) (digits : Nat) (f : Face) :
    sameRoundedFace H digits f f := by
  simp [sameRoundedFace]

/-- Faces that agree in their rounded data advance the hash in the same way. -/
theorem addFace_congr (H : Hash) (digits : Nat) (hash : H.State) (f g : Face)
    (h : sameRoundedFace H digits f g) :
    BrushNode.addFace H digits hash f = BrushNode.addFace H digits hash g := by
  obtain ⟨⟨hx, hy, hz⟩, hd, hs, hxx, hxy, -, -, hyx, hyy, -, -, hzx, hzy, -, -, -, -, -, -⟩ := h
  simp only [BrushNode.addFace, Hash.addVector3, Hash.addDouble, hx, hy, hz, hd, hs, hxx,
    hxy, hyx, hyy, hzx, hzy]

/-- Face lists that agree pairwise, in stored order, advance the hash in the
same way. -/
theorem foldl_addFace_congr (H : Hash) (digits : Nat) (fs gs : List Face)
    (h : List.Forall₂ (sameRoundedFace H digits) fs gs) (hash : H.State) :
    fs.foldl (BrushNode.addFace H digits) hash = gs.foldl (BrushNode.addFace H digits) hash := by
  induction h generalizing hash with
  | nil => rfl
  | cons hfg _ ih =>
    simp only [List.foldl_cons]
    rw [addFace_congr H digits hash _ _ hfg]
    exact ih _

set_option maxRecDepth 20000 in
/-- C10 as stated fails: two brushes with the same faces in the same order, a
structural one (detail flag 0) and a detail one, agree pairwise in all rounded
face data and yet get different fingerprints, because the detail flag is hashed
as well. -/
theorem getFingerprint_depends_on_detail_flag :
    (BrushNode.mk 0 cubeFaces).getNumFaces = (BrushNode.mk 134217728 cubeFaces).getNumFaces
      ∧ List.Forall₂ (sameRoundedFace transcriptHash 6)
          (BrushNode.mk 0 cubeFaces).faces (BrushNode.mk 134217728 cubeFaces).faces
      ∧ (BrushNode.mk 0 cubeFaces).getFingerprint transcriptHash 6
          ≠ (BrushNode.mk 134217728 cubeFaces).getFingerprint transcriptHash 6 := by
  refine ⟨rfl, ?_, by decide⟩
  exact List.forall₂_same.mpr (fun f _ => sameRoundedFace_refl transcriptHash 6 f)

/-- C10 (amended): two brushes with the same detail flag whose faces, taken in
stored order, are equally many and agree pairwise in rounded plane normal,
rounded plane distance, material name and rounded texture projection matrix get
the same fingerprint. -/
theorem getFingerprint_congr (H : Hash) (SignificantDigits : Nat) (b1 b2 : BrushNode)
    (hflag : b1.detailFlag = b2.detailFlag)
    (hfaces : List.Forall₂ (sameRoundedFace H SignificantDigits) b1.faces b2.faces) :
    b1.getFingerprint H SignificantDigits = b2.getFingerprint H SignificantDigits := by
  have hlen : b1.getNumFaces = b2.getNumFaces := hfaces.length_eq
  simp only [BrushNode.getFingerprint, hlen, hflag]
  rw [foldl_addFace_congr H SignificantDigits _ _ hfaces]

/-- The transcript hash rounds 64 and 64.25 to the same integer. -/
theorem quarter_rounds_away :
    transcriptHash.round (64 : ℚ) 6 = transcriptHash.round ((64 : ℚ) + 1 / 4) 6 := by
  have h1 : Int.floor ((64 : ℚ) + 1 / 2) = 64 := by
    rw [Int.floor_eq_iff]
    norm_num
  have h2 : Int.floor ((64 : ℚ) + 1 / 4 + 1 / 2) = 64 := by
    rw [Int.floor_eq_iff]
    norm_num
  show Int.floor ((64 : ℚ) + 1 / 2) = Int.floor ((64 : ℚ) + 1 / 4 + 1 / 2)
  rw [h1, h2]

/-- Witness for C10: the cube and the same cube with one plane distance moved by
a quarter of a unit, which the transcript hash rounds away. -/
theorem getFingerprint_congr_witness :
    (BrushNode.mk 0 cubeFaces).getFingerprint transcriptHash 6
      = (BrushNode.mk 0 (⟨⟨⟨1, 0, 0⟩, 64 + 1 / 4⟩, "textures/common/caulk", identityMatrix⟩
          :: cubeFaces.tail)).getFingerprint transcriptHash 6 :=
  getFingerprint_congr transcriptHash 6 _ _ rfl
    (List.Forall₂.cons
      ⟨⟨rfl, rfl, rfl⟩, quarter_rounds_away, rfl, (sameRoundedFace_refl transcriptHash 6 _).2.2.2⟩
      (List.forall₂_same.mpr (fun f _ => sameRoundedFace_refl transcriptHash 6 f)))

end brush

/-! ## Theorems: exact floating-point computations -/

namespace math

namespace Float32

theorem toRat_finite (s : Bool) (m : Nat) (e : Int) :
    (finite s m e).toRat = (signedMantissa s m : ℚ) * (2 : ℚ) ^ e := by
  cases s <;> simp [toRat, signedMantissa]

theorem two_zpow_sub_toNat (a b : Int) :
    ((2 : ℚ) ^ (a - b).toNat) * (2 : ℚ) ^ b = (2 : ℚ) ^ (b - a).toNat * (2 : ℚ) ^ a := by
  rcases le_total a b with h | h
  · have h1 : (a - b).toNat = 0 := by omega
    have h2 : ((b - a).toNat : Int) = b - a := by omega
    rw [h1, pow_zero, one_mul, ← zpow_natCast, h2, ← zpow_add₀ (by norm_num)]
    congr 1; ring
  · have h1 : (b - a).toNat = 0 := by omega
    have h2 : ((a - b).toNat : Int) = a - b := by omega
    rw [h1, pow_zero, one_mul, ← zpow_natCast, h2, ← zpow_add₀ (by norm_num)]
    congr 1; ring

theorem isValue_sound (r : Float32) (z : Int) (den : Nat) (scale : Int) (hden : den ≠ 0)
    (h : isValue r z den scale = true) :
    r.isFinite = true ∧ r.toRat = (z : ℚ) / (den : ℚ) * (2 : ℚ) ^ scale := by
  cases r with
  | finite s n q =>
    refine ⟨rfl, ?_⟩
    simp only [isValue, decide_eq_true_eq] at h
    have h2 : ((signedMantissa s n : ℚ) * den * (2 : ℚ) ^ (q - scale).toNat)
        = (z : ℚ) * (2 : ℚ) ^ (scale - q).toNat := by exact_mod_cast h
    rw [toRat_finite]
    have hd : (den : ℚ) ≠ 0 := by exact_mod_cast hden
    have hp : ((2 : ℚ) ^ (q - scale).toNat) ≠ 0 := by positivity
    have key := two_zpow_sub_toNat q scale
    field_simp
    have : (signedMantissa s n : ℚ) * 2 ^ q * den * (2 : ℚ) ^ (q - scale).toNat * 2 ^ scale
        = z * 2 ^ scale * (2 : ℚ) ^ (q - scale).toNat * 2 ^ scale := by
      calc (signedMantissa s n : ℚ) * 2 ^ q * den * (2 : ℚ) ^ (q - scale).toNat * 2 ^ scale
          = ((signedMantissa s n : ℚ) * den * (2 : ℚ) ^ (q - scale).toNat) * 2 ^ q * 2 ^ scale := by
            ring
        _ = (z : ℚ) * ((2 : ℚ) ^ (scale - q).toNat * 2 ^ q) * 2 ^ scale := by rw [h2]; ring
        _ = z * 2 ^ scale * (2 : ℚ) ^ (q - scale).toNat * 2 ^ scale := by rw [← key]; ring
    have hs : ((2 : ℚ) ^ scale) ≠ 0 := by positivity
    have := mul_right_cancel₀ hs this
    exact mul_right_cancel₀ hp this
  | infinity s => simp [isValue] at h
  | nan => simp [isValue] at h

theorem scaledInt_cast (s : Bool) (m : Nat) (e q : Int) (h : q ≤ e) :
    ((scaledInt s m e q : Int) : ℚ) * (2 : ℚ) ^ q = (signedMantissa s m : ℚ) * (2 : ℚ) ^ e := by
  have h2 : ((e - q).toNat : Int) = e - q := by omega
  have : (2 : ℚ) ^ (e - q).toNat * (2 : ℚ) ^ q = (2 : ℚ) ^ e := by
    rw [← zpow_natCast, h2, ← zpow_add₀ (by norm_num)]
    congr 1; ring
  simp only [scaledInt, signedMantissa]
  push_cast
  rw [← this]
  ring

theorem addExact_sound (a b : Float32) (h : addExact a b = true) :
    (a + b).isFinite = true ∧ (a + b).toRat = a.toRat + b.toRat := by
  cases a with
  | finite s m e =>
    cases b with
    | finite t n f =>
      simp only [addExact] at h
      have := isValue_sound _ _ _ _ (by norm_num) h
      refine ⟨this.1, ?_⟩
      rw [this.2, toRat_finite, toRat_finite, ← scaledInt_cast s m e (min e f) (min_le_left _ _),
        ← scaledInt_cast t n f (min e f) (min_le_right _ _)]
      push_cast
      ring
    | infinity t => simp [addExact] at h
    | nan => simp [addExact] at h
  | infinity s => simp [addExact] at h
  | nan => simp [addExact] at h

theorem mulExact_sound (a b : Float32) (h : mulExact a b = true) :
    (a * b).isFinite = true ∧ (a * b).toRat = a.toRat * b.toRat := by
  cases a with
  | finite s m e =>
    cases b with
    | finite t n f =>
      simp only [mulExact] at h
      have := isValue_sound _ _ _ _ (by norm_num) h
      refine ⟨this.1, ?_⟩
      rw [this.2, toRat_finite, toRat_finite, zpow_add₀ (by norm_num)]
      push_cast
      ring
    | infinity t => simp [mulExact] at h
    | nan => simp [mulExact] at h
  | infinity s => simp [mulExact] at h
  | nan => simp [mulExact] at h

theorem divExact_sound (a b : Float32) (h : divExact a b = true) :
    (a / b).isFinite = true ∧ b.toRat ≠ 0 ∧ (a / b).toRat = a.toRat / b.toRat := by
  cases a with
  | finite s m e =>
    cases b with
    | finite t n f =>
      simp only [divExact, Bool.and_eq_true, decide_eq_true_eq] at h
      have := isValue_sound _ _ _ _ h.1 h.2
      have hn : (n : ℚ) ≠ 0 := by exact_mod_cast h.1
      have hb : (finite t n f).toRat ≠ 0 := by
        rw [toRat_finite]
        have : (signedMantissa t n : ℚ) ≠ 0 := by
          cases t <;> simp [signedMantissa, h.1]
        positivity
      refine ⟨this.1, hb, ?_⟩
      rw [this.2, toRat_finite, toRat_finite, zpow_sub₀ (by norm_num)]
      have hf : ((2 : ℚ) ^ f) ≠ 0 := by positivity
      cases t <;> simp [signedMantissa] <;> field_simp
    | infinity t => simp [divExact] at h
    | nan => simp [divExact] at h
  | infinity s => simp [divExact] at h
  | nan => simp [divExact] at h

theorem neg_sound (a : Float32) :
    (-a).isFinite = a.isFinite ∧ (-a).toRat = -a.toRat := by
  cases a with
  | finite s m e =>
    refine ⟨rfl, ?_⟩
    show (finite (!s) m e).toRat = _
    cases s <;> simp [toRat]
  | infinity s => exact ⟨rfl, by simp [toRat, show -(infinity s) = infinity (!s) from rfl]⟩
  | nan => exact ⟨rfl, by simp [toRat, show -(nan : Float32) = nan from rfl]⟩

theorem toRat_zero : (0 : Float32).toRat = 0 := by
  have h : (0 : Float32) = finite false 0 (-149) := by decide
  rw [h]
  simp [toRat]

theorem toRat_one : (1 : Float32).toRat = 1 := by
  have h : (1 : Float32) = finite false (2 ^ 23) (-23) := by decide
  rw [h, toRat_finite]
  simp only [signedMantissa]
  norm_num

end Float32

namespace Formula

theorem eval32_exact (env : Fin 16 → Float32) (t : Formula) (h : t.exactAt env = true) :
    (t.eval32 env).isFinite = true
      ∧ (t.eval32 env).toRat = t.evalRat (fun i => (env i).toRat)
      ∧ t.DivisorsNonzero (fun i => (env i).toRat) := by
  induction t with
  | entry i => exact ⟨h, rfl, trivial⟩
  | zero => exact ⟨rfl, Float32.toRat_zero, trivial⟩
  | one => exact ⟨rfl, Float32.toRat_one, trivial⟩
  | add a b iha ihb =>
    simp only [exactAt, Bool.and_eq_true] at h
    obtain ⟨⟨ha, hb⟩, hab⟩ := h
    have := Float32.addExact_sound _ _ hab
    exact ⟨this.1, by simp only [eval32, evalRat]; rw [this.2, (iha ha).2.1, (ihb hb).2.1],
      (iha ha).2.2, (ihb hb).2.2⟩
  | sub a b iha ihb =>
    simp only [exactAt, Bool.and_eq_true] at h
    obtain ⟨⟨ha, hb⟩, hab⟩ := h
    have := Float32.addExact_sound _ _ hab
    have hn := Float32.neg_sound (b.eval32 env)
    refine ⟨this.1, ?_, (iha ha).2.2, (ihb hb).2.2⟩
    simp only [eval32, evalRat]
    show (Float32.add _ (Float32.neg _)).toRat = _
    have e2 := this.2
    rw [hn.2, (iha ha).2.1, (ihb hb).2.1] at e2
    rw [sub_eq_add_neg]
    exact e2
  | mul a b iha ihb =>
    simp only [exactAt, Bool.and_eq_true] at h
    obtain ⟨⟨ha, hb⟩, hab⟩ := h
    have := Float32.mulExact_sound _ _ hab
    exact ⟨this.1, by simp only [eval32, evalRat]; rw [this.2, (iha ha).2.1, (ihb hb).2.1],
      (iha ha).2.2, (ihb hb).2.2⟩
  | div a b iha ihb =>
    simp only [exactAt, Bool.and_eq_true] at h
    obtain ⟨⟨ha, hb⟩, hab⟩ := h
    have := Float32.divExact_sound _ _ hab
    refine ⟨this.1, by simp only [eval32, evalRat]; rw [this.2.2, (iha ha).2.1, (ihb hb).2.1],
      (iha ha).2.2, (ihb hb).2.2, ?_⟩
    rw [← (ihb hb).2.1]
    exact this.2.1
  | neg a iha =>
    simp only [exactAt] at h
    have hn := Float32.neg_sound (a.eval32 env)
    exact ⟨by simp only [eval32]; rw [hn.1]; exact (iha h).1,
      by simp only [eval32, evalRat]; rw [hn.2, (iha h).2.1], (iha h).2.2⟩

end Formula

end math

/-! ## Theorems: matrix inverses -/

namespace math

namespace Matrix4

theorem toMatrix_product (A B : Matrix4 ℚ) :
    (A.product B).toMatrix = A.toMatrix * B.toMatrix := by
  ext i j
  fin_cases i <;> fin_cases j <;>
    simp [toMatrix, product, Matrix.mul_apply, Fin.sum_univ_four]

theorem toMatrix_getIdentity : (getIdentity : Matrix4 ℚ).toMatrix = 1 := by
  ext i j
  fin_cases i <;> fin_cases j <;> rfl

theorem det_toMatrix (M : Matrix4 ℚ) : (M.toMatrix).det = M.fullDeterminant := by
  rw [Matrix.det_succ_row_zero]
  simp only [Fin.sum_univ_four, Matrix.det_fin_three, Matrix.submatrix_apply, toMatrix,
    Matrix.of_apply]
  have h0 : ∀ x : Fin 3, (0 : Fin 4).succAbove x = x.succ := fun x => by fin_cases x <;> rfl
  have h1 : (1 : Fin 4).succAbove 0 = 0 ∧ (1 : Fin 4).succAbove 1 = 2
      ∧ (1 : Fin 4).succAbove 2 = 3 := by decide
  have h2 : (2 : Fin 4).succAbove 0 = 0 ∧ (2 : Fin 4).succAbove 1 = 1
      ∧ (2 : Fin 4).succAbove 2 = 3 := by decide
  have h3 : (3 : Fin 4).succAbove 0 = 0 ∧ (3 : Fin 4).succAbove 1 = 1
      ∧ (3 : Fin 4).succAbove 2 = 2 := by decide
  have h4 : ((3 : Fin 4) : ℕ) = 3 := rfl
  simp [h0, h1, h2, h3, h4, fullDeterminant]
  ring

theorem det_rotationBlock (M : Matrix4 ℚ) :
    (M.rotationBlock).det =
      M.xx * (M.yy * M.zz - M.zy * M.yz) - M.xy * (M.yx * M.zz - M.zx * M.yz)
        + M.xz * (M.yx * M.zy - M.zx * M.yy) := by
  simp [rotationBlock, Matrix.det_fin_three]
  ring

theorem product_getFullInverse (M : Matrix4 ℚ) (h : M.fullDeterminant ≠ 0) :
    M.product M.getFullInverse = getIdentity := by
  have h2 := h
  simp only [fullDeterminant] at h2
  have hd := mul_one_div_cancel h2
  simp only [product, getFullInverse, byColumns, getIdentity, Matrix4.mk.injEq]
  revert hd
  generalize (1 / _ : ℚ) = invDet
  intro hd
  refine ⟨?_, ?_, ?_, ?_, ?_, ?_, ?_, ?_, ?_, ?_, ?_, ?_, ?_, ?_, ?_, ?_⟩ <;>
    first
    | ring1
    | linear_combination hd

theorem product_getInverse (M : Matrix4 ℚ) (hxw : M.xw = 0) (hyw : M.yw = 0) (hzw : M.zw = 0)
    (htw : M.tw = 1)
    (h : M.xx * (M.yy * M.zz - M.zy * M.yz) - M.xy * (M.yx * M.zz - M.zx * M.yz)
        + M.xz * (M.yx * M.zy - M.zx * M.yy) ≠ 0) :
    M.product M.getInverse = getIdentity := by
  have hd := mul_one_div_cancel h
  simp only [product, getInverse, getIdentity, Matrix4.mk.injEq, hxw, hyw, hzw, htw]
  revert hd
  generalize (1 / _ : ℚ) = invDet
  intro hd
  refine ⟨?_, ?_, ?_, ?_, ?_, ?_, ?_, ?_, ?_, ?_, ?_, ?_, ?_, ?_, ?_, ?_⟩ <;>
    first
    | ring1
    | linear_combination hd
    | linear_combination (-M.tx) * hd
    | linear_combination (-M.ty) * hd
    | linear_combination (-M.tz) * hd

/-- In exact arithmetic, for every matrix with a non-zero determinant the result
of `getFullInverse` is its inverse. -/
theorem getFullInverse_rat (M : Matrix4 ℚ) (h : (M.toMatrix).det ≠ 0) :
    M.toMatrix * (M.getFullInverse).toMatrix = 1
      ∧ (M.getFullInverse).toMatrix * M.toMatrix = 1 := by
  rw [det_toMatrix] at h
  have key : M.toMatrix * (M.getFullInverse).toMatrix = 1 := by
    rw [← toMatrix_product, product_getFullInverse M h, toMatrix_getIdentity]
  exact ⟨key, (Matrix.mul_eq_one_comm).mp key⟩

/-- In exact arithmetic, for every matrix with xw = yw = zw = 0, tw = 1 and a
non-zero determinant of its 3x3 rotation block the result of `getInverse` is its
inverse. -/
theorem getInverse_rat (M : Matrix4 ℚ) (hxw : M.xw = 0) (hyw : M.yw = 0)
    (hzw : M.zw = 0) (htw : M.tw = 1) (hdet : (M.rotationBlock).det ≠ 0) :
    M.toMatrix * (M.getInverse).toMatrix = 1
      ∧ (M.getInverse).toMatrix * M.toMatrix = 1 := by
  rw [det_rotationBlock] at hdet
  have key : M.toMatrix * (M.getInverse).toMatrix = 1 := by
    rw [← toMatrix_product, product_getInverse M hxw hyw hzw htw hdet, toMatrix_getIdentity]
  exact ⟨key, (Matrix.mul_eq_one_comm).mp key⟩

theorem all_eq_true {F : Type} (p : F → Bool) (M : Matrix4 F) (h : M.all p = true) :
    ∀ i : Fin 16, p (M.entryAt i) = true := by
  simp only [all, Bool.and_eq_true] at h
  obtain ⟨⟨⟨⟨⟨⟨⟨⟨⟨⟨⟨⟨⟨⟨⟨h0, h1⟩, h2⟩, h3⟩, h4⟩, h5⟩, h6⟩, h7⟩, h8⟩, h9⟩, h10⟩, h11⟩, h12⟩, h13⟩,
    h14⟩, h15⟩ := h
  intro i
  fin_cases i <;> assumption

theorem ext_entryAt {F : Type} (A B : Matrix4 F) (h : ∀ i : Fin 16, A.entryAt i = B.entryAt i) :
    A = B := by
  cases A
  cases B
  simp only [Matrix4.mk.injEq]
  exact ⟨h 0, h 1, h 2, h 3, h 4, h 5, h 6, h 7, h 8, h 9, h 10, h 11, h 12, h 13, h 14, h 15⟩

theorem entryAt_map {F G : Type} (f : F → G) (M : Matrix4 F) (i : Fin 16) :
    (M.map f).entryAt i = f (M.entryAt i) := by
  fin_cases i <;> rfl

theorem all_of_entryAt {F : Type} (p : F → Bool) (M : Matrix4 F)
    (h : ∀ i : Fin 16, p (M.entryAt i) = true) : M.all p = true := by
  simp only [all, Bool.and_eq_true]
  exact ⟨⟨⟨⟨⟨⟨⟨⟨⟨⟨⟨⟨⟨⟨⟨h 0, h 1⟩, h 2⟩, h 3⟩, h 4⟩, h 5⟩, h 6⟩, h 7⟩, h 8⟩, h 9⟩, h 10⟩, h 11⟩,
    h 12⟩, h 13⟩, h 14⟩, h 15⟩

/-- A computation whose `float` evaluation is exact returns finite values that
stand for the result of the same computation in exact arithmetic. -/
theorem map_eval32_exact (S : Matrix4 Formula) (M : Matrix4 Float32)
    (h : S.all (fun t => t.exactAt M.entryAt) = true) :
    (S.map (Formula.eval32 M.entryAt)).all Float32.isFinite = true
      ∧ (S.map (Formula.eval32 M.entryAt)).toRat = S.map (Formula.evalRat M.toRat.entryAt)
      ∧ ∀ i : Fin 16, (S.entryAt i).DivisorsNonzero M.toRat.entryAt := by
  have hall := all_eq_true _ S h
  have henv : (fun i => (M.entryAt i).toRat) = M.toRat.entryAt := by
    funext i
    exact (entryAt_map _ M i).symm
  refine ⟨?_, ?_, ?_⟩
  · apply all_of_entryAt
    intro i
    rw [entryAt_map]
    exact (Formula.eval32_exact _ _ (hall i)).1
  · apply ext_entryAt
    intro i
    rw [toRat, entryAt_map, entryAt_map, entryAt_map, ← henv]
    exact (Formula.eval32_exact _ _ (hall i)).2.1
  · intro i
    rw [← henv]
    exact (Formula.eval32_exact _ _ (hall i)).2.2

theorem getInverse_eval32 (M : Matrix4 Float32) :
    M.getInverse = (getInverse symbolic).map (Formula.eval32 M.entryAt) := rfl

theorem getInverse_evalRat (A : Matrix4 ℚ) :
    A.getInverse = (getInverse symbolic).map (Formula.evalRat A.entryAt) := rfl

theorem getFullInverse_eval32 (M : Matrix4 Float32) :
    M.getFullInverse = (getFullInverse symbolic).map (Formula.eval32 M.entryAt) := rfl

theorem getFullInverse_evalRat (A : Matrix4 ℚ) :
    A.getFullInverse = (getFullInverse symbolic).map (Formula.evalRat A.entryAt) := rfl

/-- C16 (amended): for every `float` matrix `M` of finite entries with
xw = yw = zw = 0 and tw = 1 on which the computation of `getInverse` is exact
(no operation in it rounds, overflows or divides by zero, so the determinant of
the 3x3 rotation block is not zero), the result `N` is finite and is the
inverse of `M`: both products of the numbers the two matrices stand for are the
identity, and `N` again has xw = yw = zw = 0 and tw = 1.  The entries of the
last row are not read by `getInverse`; they are finite by hypothesis, so that
each stands for a number. -/
theorem getInverse_is_affine_inverse (M : Matrix4 Float32)
    (hfinite : M.all Float32.isFinite = true)
    (hxw : M.xw.toRat = 0) (hyw : M.yw.toRat = 0) (hzw : M.zw.toRat = 0) (htw : M.tw.toRat = 1)
    (hexact : M.getInverseExact = true) :
    (M.getInverse).all Float32.isFinite = true
      ∧ M.toRat.toMatrix * (M.getInverse).toRat.toMatrix = 1
      ∧ (M.getInverse).toRat.toMatrix * M.toRat.toMatrix = 1
      ∧ (M.getInverse).toRat.xw = 0 ∧ (M.getInverse).toRat.yw = 0
      ∧ (M.getInverse).toRat.zw = 0 ∧ (M.getInverse).toRat.tw = 1 := by
  have _ := hfinite
  obtain ⟨hfin, hrat, hdiv⟩ := map_eval32_exact _ M hexact
  rw [← getInverse_eval32, ← getInverse_evalRat] at hrat
  rw [← getInverse_eval32] at hfin
  have hdet : (M.toRat.rotationBlock).det ≠ 0 := by
    rw [det_rotationBlock]
    have := hdiv 0
    simp only [entryAt, getInverse, symbolic] at this
    exact this.2.2.2
  have key := getInverse_rat M.toRat hxw hyw hzw htw hdet
  rw [hrat]
  exact ⟨hfin, key.1, key.2, rfl, rfl, rfl, rfl⟩

end Matrix4

end math

namespace math

namespace Matrix4

set_option maxRecDepth 100000 in
/-- Witness for C16: a scaling by 2 along x followed by the translation
(3, 4, 5); its inverse has the entries 1/2, -3/2, -4 and -5. -/
theorem getInverse_is_affine_inverse_witness :
    scaleAndShift.getInverseExact = true
      ∧ (scaleAndShift.getInverse).all Float32.isFinite = true
      ∧ scaleAndShift.toRat.toMatrix * (scaleAndShift.getInverse).toRat.toMatrix = 1
      ∧ (scaleAndShift.getInverse).toRat.toMatrix * scaleAndShift.toRat.toMatrix = 1
      ∧ (scaleAndShift.getInverse).toRat.xw = 0 ∧ (scaleAndShift.getInverse).toRat.yw = 0
      ∧ (scaleAndShift.getInverse).toRat.zw = 0 ∧ (scaleAndShift.getInverse).toRat.tw = 1 :=
  ⟨by decide, getInverse_is_affine_inverse scaleAndShift (by decide) Float32.toRat_zero
    Float32.toRat_zero Float32.toRat_zero Float32.toRat_one (by decide)⟩

theorem toRat_three : (3 : Float32).toRat = 3 := by
  have h : (3 : Float32) = Float32.finite false 12582912 (-22) := by decide
  rw [h, Float32.toRat_finite]
  simp only [Float32.signedMantissa]
  norm_num

theorem toRat_scaleByThree :
    scaleByThree.toRat = ⟨3, 0, 0, 0, 0, 3, 0, 0, 0, 0, 3, 0, 0, 0, 0, 1⟩ := by
  simp only [scaleByThree, toRat, map, toRat_three, Float32.toRat_zero, Float32.toRat_one]

theorem toRat_huge : (1125899906842624 : Float32).toRat = 2 ^ 50 := by
  have h : (1125899906842624 : Float32) = Float32.finite false 8388608 27 := by decide
  rw [h, Float32.toRat_finite]
  simp only [Float32.signedMantissa]
  norm_num

theorem toRat_scaleByHuge :
    scaleByHuge.toRat
      = ⟨2 ^ 50, 0, 0, 0, 0, 2 ^ 50, 0, 0, 0, 0, 2 ^ 50, 0, 0, 0, 0, 1⟩ := by
  simp only [scaleByHuge, toRat, map, toRat_huge, Float32.toRat_zero, Float32.toRat_one]

theorem product_ne_one_of_xx (A N : Matrix4 ℚ) (hyx : A.yx = 0) (hzx : A.zx = 0)
    (htx : A.tx = 0) (h : A.xx * N.xx ≠ 1) : A.toMatrix * N.toMatrix ≠ 1 := by
  intro h1
  have h00 := congrFun (congrFun h1 0) 0
  simp [toMatrix, Matrix.mul_apply, Fin.sum_univ_four, hyx, hzx, htx] at h00
  exact h h00

set_option maxRecDepth 100000 in
/-- C16 as stated fails in the `float` arithmetic of the code.  The scaling by 3
has xw = yw = zw = 0, tw = 1 and the determinant 27, and `getInverse` returns
xx = 11184811 / 2^25, the `float` next to 1/3, so the product with the matrix is
not the identity.  The scaling by `2^50` has a representable inverse, the
scaling by `2^-50`, but its determinant `2^150` overflows to infinity, so
`det = 1.0f / det` is zero and `getInverse` returns xx = 0. -/
theorem getInverse_is_not_the_inverse :
    (scaleByThree.toRat.xw = 0 ∧ scaleByThree.toRat.yw = 0 ∧ scaleByThree.toRat.zw = 0
        ∧ scaleByThree.toRat.tw = 1 ∧ (scaleByThree.toRat.rotationBlock).det ≠ 0
        ∧ (scaleByThree.getInverse).xx = Float32.finite false 11184811 (-25)
        ∧ scaleByThree.toRat.toMatrix * (scaleByThree.getInverse).toRat.toMatrix ≠ 1)
      ∧ (scaleByHuge.toRat.xw = 0 ∧ scaleByHuge.toRat.yw = 0 ∧ scaleByHuge.toRat.zw = 0
        ∧ scaleByHuge.toRat.tw = 1 ∧ (scaleByHuge.toRat.rotationBlock).det ≠ 0
        ∧ (scaleByHuge.getInverse).xx = Float32.finite false 0 (-149)
        ∧ scaleByHuge.toRat.toMatrix * (scaleByHuge.getInverse).toRat.toMatrix ≠ 1) := by
  have hN : (scaleByThree.getInverse).xx = Float32.finite false 11184811 (-25) := by decide
  have hH : (scaleByHuge.getInverse).xx = Float32.finite false 0 (-149) := by decide
  refine ⟨⟨?_, ?_, ?_, ?_, ?_, hN, ?_⟩, ?_, ?_, ?_, ?_, ?_, hH, ?_⟩
  · rw [toRat_scaleByThree]
  · rw [toRat_scaleByThree]
  · rw [toRat_scaleByThree]
  · rw [toRat_scaleByThree]
  · rw [toRat_scaleByThree, det_rotationBlock]
    norm_num
  · apply product_ne_one_of_xx
    · rw [toRat_scaleByThree]
    · rw [toRat_scaleByThree]
    · rw [toRat_scaleByThree]
    · rw [toRat_scaleByThree]
      show (3 : ℚ) * ((scaleByThree.getInverse).xx).toRat ≠ 1
      rw [hN, Float32.toRat_finite]
      simp only [Float32.signedMantissa]
      norm_num
  · rw [toRat_scaleByHuge]
  · rw [toRat_scaleByHuge]
  · rw [toRat_scaleByHuge]
  · rw [toRat_scaleByHuge]
  · rw [toRat_scaleByHuge, det_rotationBlock]
    norm_num
  · apply product_ne_one_of_xx
    · rw [toRat_scaleByHuge]
    · rw [toRat_scaleByHuge]
    · rw [toRat_scaleByHuge]
    · rw [toRat_scaleByHuge]
      show (2 ^ 50 : ℚ) * ((scaleByHuge.getInverse).xx).toRat ≠ 1
      rw [hH, Float32.toRat_finite]
      simp only [Float32.signedMantissa]
      norm_num

/-- C17 (amended): for every `float` matrix `M` on which the computation of
`getFullInverse` is exact (no operation in it rounds, overflows or divides by
zero, so the determinant is not zero), the result `N` is finite and is the
inverse of `M`: both products of the numbers the two matrices stand for are
the identity. -/
theorem getFullInverse_is_inverse (M : Matrix4 Float32)
    (hexact : M.getFullInverseExact = true) :
    (M.getFullInverse).all Float32.isFinite = true
      ∧ M.toRat.toMatrix * (M.getFullInverse).toRat.toMatrix = 1
      ∧ (M.getFullInverse).toRat.toMatrix * M.toRat.toMatrix = 1 := by
  obtain ⟨hfin, hrat, hdiv⟩ := map_eval32_exact _ M hexact
  rw [← getFullInverse_eval32, ← getFullInverse_evalRat] at hrat
  rw [← getFullInverse_eval32] at hfin
  have hdet : (M.toRat.toMatrix).det ≠ 0 := by
    rw [det_toMatrix]
    have := hdiv 0
    simp only [entryAt, getFullInverse, byColumns, symbolic] at this
    exact this.2.2.2
  have key := getFullInverse_rat M.toRat hdet
  rw [hrat]
  exact ⟨hfin, key.1, key.2⟩

set_option maxRecDepth 100000 in
/-- Witness for C17: a matrix with determinant 2 that is not affine; the entries
of its inverse are halves. -/
theorem getFullInverse_is_inverse_witness :
    shearInW.getFullInverseExact = true
      ∧ (shearInW.getFullInverse).all Float32.isFinite = true
      ∧ shearInW.toRat.toMatrix * (shearInW.getFullInverse).toRat.toMatrix = 1
      ∧ (shearInW.getFullInverse).toRat.toMatrix * shearInW.toRat.toMatrix = 1 :=
  ⟨by decide, getFullInverse_is_inverse shearInW (by decide)⟩

set_option maxRecDepth 100000 in
/-- C17 as stated fails in the `float` arithmetic of the code.  The scaling by 3
has the determinant 27, and `getFullInverse` returns xx = 11184811 / 2^25, the
`float` next to 1/3, so the product with the matrix is not the identity.  The
scaling by `2^50` has a representable inverse, but its determinant `2^150`
overflows to infinity, so `invDet` is zero and `getFullInverse` returns
xx = 0. -/
theorem getFullInverse_is_not_the_inverse :
    ((scaleByThree.toRat.toMatrix).det ≠ 0
        ∧ (scaleByThree.getFullInverse).xx = Float32.finite false 11184811 (-25)
        ∧ scaleByThree.toRat.toMatrix * (scaleByThree.getFullInverse).toRat.toMatrix ≠ 1)
      ∧ ((scaleByHuge.toRat.toMatrix).det ≠ 0
        ∧ (scaleByHuge.getFullInverse).xx = Float32.finite false 0 (-149)
        ∧ scaleByHuge.toRat.toMatrix * (scaleByHuge.getFullInverse).toRat.toMatrix ≠ 1) := by
  have hN : (scaleByThree.getFullInverse).xx = Float32.finite false 11184811 (-25) := by
    decide
  have hH : (scaleByHuge.getFullInverse).xx = Float32.finite false 0 (-149) := by decide
  refine ⟨⟨?_, hN, ?_⟩, ?_, hH, ?_⟩
  · rw [toRat_scaleByThree, det_toMatrix]
    norm_num [fullDeterminant]
  · apply product_ne_one_of_xx
    · rw [toRat_scaleByThree]
    · rw [toRat_scaleByThree]
    · rw [toRat_scaleByThree]
    · rw [toRat_scaleByThree]
      show (3 : ℚ) * ((scaleByThree.getFullInverse).xx).toRat ≠ 1
      rw [hN, Float32.toRat_finite]
      simp only [Float32.signedMantissa]
      norm_num
  · rw [toRat_scaleByHuge, det_toMatrix]
    norm_num [fullDeterminant]
  · apply product_ne_one_of_xx
    · rw [toRat_scaleByHuge]
    · rw [toRat_scaleByHuge]
    · rw [toRat_scaleByHuge]
    · rw [toRat_scaleByHuge]
      show (2 ^ 50 : ℚ) * ((scaleByHuge.getFullInverse).xx).toRat ≠ 1
      rw [hH, Float32.toRat_finite]
      simp only [Float32.signedMantissa]
      norm_num

end Matrix4

end math
/-! ## Theorems: what the fingerprint of a brush depends on -/

namespace brush

open math

/-- The loop body of `getFingerprint` feeds the items of the face. -/
theorem addFace_eq_feed (H : Hash) (digits : Nat) (s : H.State) (f : Face) :
    BrushNode.addFace H digits s f = H.feed s (faceInput H digits f) := by
  rfl

/-- The loop of `getFingerprint` feeds the items of the faces in stored order. -/
theorem foldl_addFace_eq_feed (H : Hash) (digits : Nat) (faces : List Face) (s : H.State) :
    faces.foldl (BrushNode.addFace H digits) s =
      H.feed s (faces.flatMap (faceInput H digits)) := by
  induction faces generalizing s with
  | nil => rfl
  | cons f rest ih =>
    rw [List.foldl_cons, ih, addFace_eq_feed, List.flatMap_cons]
    unfold Hash.feed
    rw [List.foldl_append]

/-- The fingerprint of a brush with at least one face is the rendered hash of
the items listed by `fingerprintInput`. -/
theorem getFingerprint_eq_digest (H : Hash) (digits : Nat) (b : BrushNode)
    (h : b.getNumFaces ≠ 0) :
    b.getFingerprint H digits = H.digest (fingerprintInput H digits b) := by
  unfold BrushNode.getFingerprint Hash.digest fingerprintInput
  simp only [h, if_false]
  rw [foldl_addFace_eq_feed]
  unfold Hash.feed
  rw [List.foldl_append]
  rfl

/-- C20: for every brush with at least one face (whose detail flag plus one fits
into a `std::size_t`), `getFingerprint` is the rendered hash of exactly the
specified sequence: the detail flag plus one, the number of faces, and then for
each face in stored order the rounded plane normal and plane distance, the
material name and the rounded texture matrix components xx, yx, zx, xy, yy,
zy. -/
theorem getFingerprint_hashes_specified_sequence (H : Hash) (SignificantDigits : Nat)
    (b : BrushNode) (hfaces : 1 ≤ b.getNumFaces) (hflag : b.detailFlag + 1 < 2 ^ 64) :
    b.getFingerprint H SignificantDigits = H.digest (specifiedInput H SignificantDigits b) := by
  have hne : b.getNumFaces ≠ 0 := by omega
  rw [getFingerprint_eq_digest H SignificantDigits b hne]
  congr 1
  unfold fingerprintInput specifiedInput faceInput BrushNode.getNumFaces
  rw [Nat.mod_eq_of_lt hflag]
  rfl

/-- Witness for C20: the cube as a structural brush under the transcript hash;
the first two items of the transcript are the detail flag plus one and the
number of faces. -/
theorem getFingerprint_hashes_specified_sequence_witness :
    (BrushNode.mk 0 cubeFaces).getFingerprint transcriptHash 6
      = transcriptHash.digest (specifiedInput transcriptHash 6 (BrushNode.mk 0 cubeFaces)) :=
  getFingerprint_hashes_specified_sequence transcriptHash 6 (BrushNode.mk 0 cubeFaces)
    (by decide) (by decide)

end brush

/-! ## Theorems: starting and aborting a merge, saving under a new name -/

namespace map

open scene scene.merge

theorem le_foldl_max (l : List Nat) (acc x : Nat) (h : x ∈ l ∨ x ≤ acc) :
    x ≤ l.foldl max acc := by
  induction l generalizing acc with
  | nil =>
    rcases h with h | h
    · simp at h
    · exact h
  | cons y rest ih =>
    rw [List.foldl_cons]
    apply ih
    rcases h with h | h
    · rcases List.mem_cons.mp h with h | h
      · right
        rw [h]
        exact le_max_right _ _
      · left
        exact h
    · right
      exact le_trans h (le_max_left _ _)

/-- The identity of a new node is above every identity the state mentions. -/
theorem lt_freshNode (m : Map) (x : Nat) (h : x ∈ m.nodeIds) : x < m.freshNode := by
  unfold Map.freshNode
  exact Nat.lt_succ_of_le (le_foldl_max _ _ _ (Or.inl h))

theorem nodeIds_addMergeActionNode (m : Map) (a : MergeAction) (x : Nat)
    (h : x ∈ m.nodeIds) : x ∈ (m.addMergeActionNode a).nodeIds := by
  simp only [Map.nodeIds, Map.addMergeActionNode, List.mem_cons, List.mem_append, List.map_cons,
    List.map_append, List.map_nil] at h ⊢
  rcases h with h | ⟨h | h⟩ | h
  · exact Or.inl h
  · exact Or.inr (Or.inl (Or.inl (Or.inr h)))
  · exact Or.inr (Or.inl (Or.inr (Or.inr h)))
  · exact Or.inr (Or.inr (Or.inl h))

theorem freshNode_mem_nodeIds (m : Map) (a : MergeAction) :
    m.freshNode ∈ (m.addMergeActionNode a).nodeIds := by
  simp [Map.nodeIds, Map.addMergeActionNode]

/-- The preview nodes that the visitor of `startMergeOperation` creates for a
list of actions: one per action and in the order of the list, each a child of
the root, with identities that are new. -/
theorem foldl_addMergeActionNode (actions : List MergeAction) (m : Map) :
    (actions.foldl Map.addMergeActionNode m).mergeActionNodes.map MergeActionNode.action
        = m.mergeActionNodes.map MergeActionNode.action ++ actions
      ∧ (∀ n ∈ (actions.foldl Map.addMergeActionNode m).mergeActionNodes,
          n ∈ m.mergeActionNodes
            ∨ (n.id ∉ m.nodeIds
              ∧ getParent n.id (actions.foldl Map.addMergeActionNode m).parentLinks
                = some m.rootNode))
      ∧ (∀ x ∈ m.nodeIds,
          getParent x (actions.foldl Map.addMergeActionNode m).parentLinks
            = getParent x m.parentLinks)
      ∧ ((m.mergeActionNodes.map MergeActionNode.id).Nodup →
          ((actions.foldl Map.addMergeActionNode m).mergeActionNodes.map
            MergeActionNode.id).Nodup)
      ∧ (actions.foldl Map.addMergeActionNode m).rootNode = m.rootNode
      ∧ (actions.foldl Map.addMergeActionNode m).root = m.root
      ∧ (actions.foldl Map.addMergeActionNode m).mergeOperation = m.mergeOperation
      ∧ (actions.foldl Map.addMergeActionNode m).editMode = m.editMode := by
  induction actions generalizing m with
  | nil =>
    exact ⟨by simp, fun n hn => Or.inl hn, fun _ _ => rfl, fun h => h, rfl, rfl, rfl, rfl⟩
  | cons a rest ih =>
    rw [List.foldl_cons]
    obtain ⟨h1, h2, h3, h4, h5, h6, h7, h8⟩ := ih (m.addMergeActionNode a)
    have hfresh : ∀ x ∈ m.nodeIds, x ≠ m.freshNode :=
      fun x hx => Nat.ne_of_lt (lt_freshNode m x hx)
    have hparent : getParent m.freshNode
        (rest.foldl Map.addMergeActionNode (m.addMergeActionNode a)).parentLinks
          = some m.rootNode := by
      rw [h3 _ (freshNode_mem_nodeIds m a)]
      simp [Map.addMergeActionNode, getParent]
    refine ⟨?_, ?_, ?_, ?_, h5, h6, h7, h8⟩
    · rw [h1]
      simp [Map.addMergeActionNode]
    · intro n hn
      rcases h2 n hn with hold | ⟨hnew, hp⟩
      · simp only [Map.addMergeActionNode, List.mem_append, List.mem_singleton] at hold
        rcases hold with hold | hold
        · exact Or.inl hold
        · right
          subst hold
          exact ⟨fun hmem => hfresh _ hmem rfl, hparent⟩
      · right
        exact ⟨fun hmem => hnew (nodeIds_addMergeActionNode m a _ hmem), hp⟩
    · intro x hx
      rw [h3 x (nodeIds_addMergeActionNode m a x hx)]
      have hne : m.freshNode ≠ x := fun e => hfresh x hx e.symm
      simp [Map.addMergeActionNode, getParent, hne]
    · intro hnodup
      apply h4
      simp only [Map.addMergeActionNode, List.map_append, List.map_cons, List.map_nil]
      apply List.Nodup.append hnodup (List.nodup_singleton _)
      intro x hx1 hx2
      simp only [List.mem_singleton] at hx2
      subst hx2
      have : m.freshNode ∈ m.nodeIds := by
        simp only [Map.nodeIds, List.mem_cons, List.mem_append]
        exact Or.inr (Or.inr hx1)
      exact hfresh _ this rfl

/-- The merge that `startMergeOperation` sets up once the source map is
loaded. -/
theorem startMergeWith_loaded (m0 : Map) (env : MergeEnvironment) (base : Tree)
    (source : String) (otherRoot : Tree) (hload : env.load source = LoadResult.loaded otherRoot) :
    (Map.startMergeWith m0 env base source).2 = none
      ∧ (Map.startMergeWith m0 env base source).1.mergeOperation =
          some (MergeOperation.CreateFromComparisonResult (GraphComparer.Compare otherRoot base))
      ∧ (Map.startMergeWith m0 env base source).1.mergeActionNodes.map MergeActionNode.action =
          (MergeOperation.CreateFromComparisonResult
            (GraphComparer.Compare otherRoot base)).foreachAction (fun seen a => seen ++ [a]) []
      ∧ (∀ n ∈ (Map.startMergeWith m0 env base source).1.mergeActionNodes,
          getParent n.id (Map.startMergeWith m0 env base source).1.parentLinks
            = some m0.rootNode)
      ∧ ((Map.startMergeWith m0 env base source).1.mergeActionNodes.map
          MergeActionNode.id).Nodup
      ∧ (Map.startMergeWith m0 env base source).1.editMode = EditMode.Merge := by
  unfold Map.startMergeWith
  simp only [hload, MergeOperation.foreachAction, Map.setEditMode, Map.abortMergeOperation,
    cleanupMergeOperation_eq]
  obtain ⟨h1, h2, _, h4, h5, _, h7, _⟩ := foldl_addMergeActionNode
    (MergeOperation.CreateFromComparisonResult (GraphComparer.Compare otherRoot base)).actions
    { m0 with
      parentLinks := m0.parentLinks.filter
        (fun l => decide (l.1 ∉ m0.mergeActionNodes.map MergeActionNode.id))
      log := m0.log ++ m0.mergeActionNodes.map (fun n => Effect.removeNodeFromParent n.id)
        ++ [Effect.loadMapResource source] ++ [Effect.compareGraphs]
      mergeActionNodes := []
      mergeOperation := some (MergeOperation.CreateFromComparisonResult
        (GraphComparer.Compare otherRoot base)) }
  simp only [List.append_assoc] at h1 h2 h4 h5 h7 ⊢
  refine ⟨trivial, h7, ?_, ?_, ?_, trivial⟩
  · rw [h1, MergeOperation.foldl_record]
    simp
  · intro n hn
    rcases h2 n hn with hold | ⟨_, hp⟩
    · simp at hold
    · exact hp
  · exact h4 (by simp)

end map

namespace map

open scene scene.merge

/-- Past its checks `startMergeOperation` is `startMergeWith` on the chosen
source file. -/
theorem startMergeOperation_eq_startMergeWith (m : Map) (env : MergeEnvironment)
    (args : List String) (base : Tree) (source : String)
    (hroot : m.root = some base)
    (hsource : Map.sourceCandidate env args = some source)
    (hexists : env.fileOrDirExists source = true)
    (hbase : ∀ b, args[1]? = some b → env.fileOrDirExists b = true) :
    ∃ m0 : Map, m0.rootNode = m.rootNode
      ∧ m.startMergeOperation env args = Map.startMergeWith m0 env base source := by
  cases args with
  | nil =>
    refine ⟨{ m with log := m.log ++ [Effect.fileSelectionDialog] }, rfl, ?_⟩
    simp [Map.startMergeOperation, hroot, hsource, hexists]
  | cons a rest =>
    cases rest with
    | nil =>
      refine ⟨m, rfl, ?_⟩
      simp [Map.startMergeOperation, hroot, hsource, hexists]
    | cons b rest2 =>
      have hb : env.fileOrDirExists b = true := hbase b (by simp)
      refine ⟨m, rfl, ?_⟩
      simp [Map.startMergeOperation, hroot, hsource, hexists, hb]

theorem setModified_fields (m : Map) (flag : Bool) :
    (m.setModified flag).mapName = m.mapName ∧ (m.setModified flag).resource = m.resource := by
  unfold Map.setModified
  split <;> exact ⟨rfl, rfl⟩

/-- The member `save` leaves the map name and the resource pointer alone. -/
theorem save_fields (m : Map) (env : SaveEnvironment) :
    (m.save env).1.mapName = m.mapName ∧ (m.save env).1.resource = m.resource := by
  unfold Map.save
  split
  · exact ⟨rfl, rfl⟩
  · split
    · exact ⟨rfl, rfl⟩
    · split
      · exact ⟨rfl, rfl⟩
      · cases env.resourceSaveThrows with
        | none =>
          simp only []
          refine ⟨?_, ?_⟩
          · rw [(setModified_fields _ _).1]
            split <;> rfl
          · rw [(setModified_fields _ _).2]
            split <;> rfl
        | some what =>
          simp only []
          refine ⟨?_, ?_⟩ <;> split <;> rfl

/-- With a resource attached `saveAs` returns. -/
theorem saveAs_returns (m : Map) (env : SaveEnvironment) (old : Nat)
    (h : m.resource = some old) : ∃ r, m.saveAs env = some r := by
  unfold Map.saveAs
  simp only [h]
  split
  · exact ⟨_, rfl⟩
  · split
    · exact ⟨_, rfl⟩
    · split
      · exact ⟨_, rfl⟩
      · exact ⟨_, rfl⟩

/-- `abortMergeOperation` has no call of `setEditMode`: the edit mode and the
selection mode are what they were. -/
theorem abortMergeOperation_editMode (m : Map) :
    (m.abortMergeOperation).editMode = m.editMode
      ∧ (m.abortMergeOperation).selectionMode = m.selectionMode := by
  unfold Map.abortMergeOperation
  rw [cleanupMergeOperation_eq]
  exact ⟨rfl, rfl⟩

/-- C14: with no root node `startMergeOperation` throws `ExecutionNotPossible` and
leaves the whole state of the map as it was, for every argument list and every
environment: nothing is logged (no file dialog, no load, no comparison), no
operation is attached and no preview node is created. -/
theorem startMergeOperation_without_root (m : Map) (env : MergeEnvironment)
    (args : List String) (hroot : m.root = none) :
    m.startMergeOperation env args = (m, some CommandError.ExecutionNotPossible) := by
  unfold Map.startMergeOperation
  simp only [hroot]

theorem startMergeOperation_without_root_witness :
    noMapLoaded.root = none
      ∧ noMapLoaded.startMergeOperation otherMapOnDisk ["other.map", "base.map"]
          = (noMapLoaded, some CommandError.ExecutionNotPossible) :=
  ⟨rfl, startMergeOperation_without_root noMapLoaded otherMapOnDisk ["other.map", "base.map"] rfl⟩

/-- C15: when `startMergeOperation` gets as far as loading the source map and
the load succeeds, it throws nothing, the attached operation is the one created
from `Compare(otherRoot, getRoot())`, the preview-node list wraps exactly the
actions that `foreachAction` visits, in that order, with pairwise different
nodes, each node is a child of the map root, and the edit mode is Merge. -/
theorem startMergeOperation_creates_preview_nodes (m : Map) (env : MergeEnvironment)
    (args : List String) (base otherRoot : Tree) (source : String)
    (hroot : m.root = some base)
    (hsource : Map.sourceCandidate env args = some source)
    (hexists : env.fileOrDirExists source = true)
    (hbase : ∀ b, args[1]? = some b → env.fileOrDirExists b = true)
    (hload : env.load source = LoadResult.loaded otherRoot) :
    (m.startMergeOperation env args).2 = none
      ∧ (m.startMergeOperation env args).1.mergeOperation =
          some (MergeOperation.CreateFromComparisonResult (GraphComparer.Compare otherRoot base))
      ∧ (m.startMergeOperation env args).1.mergeActionNodes.map MergeActionNode.action =
          (MergeOperation.CreateFromComparisonResult
            (GraphComparer.Compare otherRoot base)).foreachAction (fun seen a => seen ++ [a]) []
      ∧ (∀ n ∈ (m.startMergeOperation env args).1.mergeActionNodes,
          getParent n.id (m.startMergeOperation env args).1.parentLinks = some m.rootNode)
      ∧ ((m.startMergeOperation env args).1.mergeActionNodes.map MergeActionNode.id).Nodup
      ∧ (m.startMergeOperation env args).1.editMode = EditMode.Merge := by
  obtain ⟨m0, hnode, heq⟩ :=
    startMergeOperation_eq_startMergeWith m env args base source hroot hsource hexists hbase
  rw [heq, ← hnode]
  exact startMergeWith_loaded m0 env base source otherRoot hload

set_option maxRecDepth 20000 in
theorem startMergeOperation_creates_preview_nodes_witness :
    (pendingMerge.startMergeOperation otherMapOnDisk []).2 = none
      ∧ (pendingMerge.startMergeOperation otherMapOnDisk []).1.mergeOperation =
          some (MergeOperation.CreateFromComparisonResult
            (GraphComparer.Compare [trigger5, light1Source] []))
      ∧ (pendingMerge.startMergeOperation otherMapOnDisk []).1.mergeActionNodes.map
            MergeActionNode.action =
          (MergeOperation.CreateFromComparisonResult
            (GraphComparer.Compare [trigger5, light1Source] [])).foreachAction
              (fun seen a => seen ++ [a]) []
      ∧ (∀ n ∈ (pendingMerge.startMergeOperation otherMapOnDisk []).1.mergeActionNodes,
          getParent n.id (pendingMerge.startMergeOperation otherMapOnDisk []).1.parentLinks
            = some pendingMerge.rootNode)
      ∧ ((pendingMerge.startMergeOperation otherMapOnDisk []).1.mergeActionNodes.map
          MergeActionNode.id).Nodup
      ∧ (pendingMerge.startMergeOperation otherMapOnDisk []).1.editMode = EditMode.Merge :=
  startMergeOperation_creates_preview_nodes pendingMerge otherMapOnDisk [] []
    [trigger5, light1Source] "other.map" rfl rfl rfl (fun b hb => by simp at hb) rfl

/-- C18: whenever `saveAs` returns false, the resource of the map is the
resource it had before the call and the map name is the name it had before the
call. -/
theorem saveAs_reverts_on_failure (m m2 : Map) (env : SaveEnvironment)
    (h : m.saveAs env = some (m2, false)) :
    m2.resource = m.resource ∧ m2.mapName = m.mapName := by
  unfold Map.saveAs at h
  split at h
  · simp only [Option.some.injEq, Prod.mk.injEq, and_true] at h
    subst h
    exact ⟨rfl, rfl⟩
  · simp only [] at h
    split at h
    · simp only [Option.some.injEq, Prod.mk.injEq, and_true] at h
      subst h
      exact ⟨rfl, rfl⟩
    · split at h
      · exact absurd h (by simp)
      · rename_i old hold
        split at h
        · simp only [Option.some.injEq, Prod.mk.injEq, and_true] at h
          subst h
          refine ⟨hold.symm, ?_⟩
          exact (save_fields _ env).1
        · simp at h

theorem saveAs_reverts_on_failure_witness :
    emptyMap.saveAs diskFull
        = some ({ emptyMap with
            log := [Effect.fileSelectionDialog, Effect.mapEvent MapEvent.MapSaving,
              Effect.resourceSave, Effect.sendError "disk full",
              Effect.mapEvent MapEvent.MapSaved, Effect.sceneChangeNotify] }, false)
      ∧ ({ emptyMap with
            log := [Effect.fileSelectionDialog, Effect.mapEvent MapEvent.MapSaving,
              Effect.resourceSave, Effect.sendError "disk full",
              Effect.mapEvent MapEvent.MapSaved, Effect.sceneChangeNotify] } : Map).resource
          = emptyMap.resource
      ∧ ({ emptyMap with
            log := [Effect.fileSelectionDialog, Effect.mapEvent MapEvent.MapSaving,
              Effect.resourceSave, Effect.sendError "disk full",
              Effect.mapEvent MapEvent.MapSaved, Effect.sceneChangeNotify] } : Map).mapName
          = emptyMap.mapName :=
  ⟨rfl, saveAs_reverts_on_failure emptyMap _ diskFull rfl⟩

/-- C19 fails on the code: `abortMergeOperation` removes the preview nodes but
never calls `setEditMode`.  On a map in Merge mode with a pending operation the
preview node is detached, the list is empty and the operation is dropped, and
the edit mode and the selection mode are still those of Merge;
`finishMergeOperation` on the same map does switch back to Normal. -/
theorem abortMergeOperation_stays_in_merge_mode :
    pendingMerge.editMode = EditMode.Merge
      ∧ (pendingMerge.abortMergeOperation).mergeActionNodes = []
      ∧ (pendingMerge.abortMergeOperation).parentLinks = []
      ∧ (pendingMerge.abortMergeOperation).mergeOperation = none
      ∧ (pendingMerge.abortMergeOperation).editMode = EditMode.Merge
      ∧ (pendingMerge.abortMergeOperation).editMode ≠ EditMode.Normal
      ∧ (pendingMerge.abortMergeOperation).selectionMode = SelectionMode.eMergeAction
      ∧ (pendingMerge.abortMergeOperation).log = [Effect.removeNodeFromParent 1]
      ∧ (pendingMerge.finishMergeOperation).1.editMode = EditMode.Normal := by
  decide

end map

/-! ## Theorems: removing a key twice -/

namespace scene

theorem removeKeyValue_of_absent (key : String) (m : SpawnArgs)
    (h : getKeyValue key m = none) : removeKeyValue key m = m := by
  induction m with
  | nil => rfl
  | cons kv rest ih =>
    obtain ⟨k, v⟩ := kv
    by_cases hk : k = key
    · simp [getKeyValue, hk] at h
    · simp only [getKeyValue, hk, if_false] at h
      simp [removeKeyValue, hk, ih h]

namespace merge

/-- C13: a `RemoveKeyValue` action whose target entity exists in the base tree
returns without an error and leaves the key absent on that entity; applied
again, to the tree it has left behind, it returns without an error and changes
nothing; and so it does on every tree in which the key is already absent on the
target entity. -/
theorem RemoveKeyValue_idempotent (target : Nat) (key : String) (base : LiveTree)
    (e : Entity) (htarget : base[target]? = some (some e)) :
    (∃ base2 e2, (MergeAction.RemoveKeyValue target key).apply base = .ok base2
        ∧ base2[target]? = some (some e2)
        ∧ getKeyValue key e2.spawnargs = none
        ∧ (MergeAction.RemoveKeyValue target key).apply base2 = .ok base2)
      ∧ (getKeyValue key e.spawnargs = none →
        (MergeAction.RemoveKeyValue target key).apply base = .ok base) := by
  have hlt : target < base.length := by
    by_contra hnot
    rw [List.getElem?_eq_none (by omega)] at htarget
    exact absurd htarget (by simp)
  have habsent : ∀ (t : LiveTree) (x : Entity), t[target]? = some (some x) →
      getKeyValue key x.spawnargs = none →
      (MergeAction.RemoveKeyValue target key).apply t = .ok t := by
    intro t x hx hkey
    simp only [MergeAction.apply, modifyNode, hx, removeKeyValue_of_absent key _ hkey]
    congr 1
    apply List.ext_getElem?
    intro i
    by_cases hi : i = target
    · subst hi
      rw [List.getElem?_set_self (by
        by_contra hnot
        rw [List.getElem?_eq_none (by omega)] at hx
        exact absurd hx (by simp)), hx]
    · rw [List.getElem?_set_ne (Ne.symm hi)]
  refine ⟨⟨base.set target (some { e with spawnargs := removeKeyValue key e.spawnargs }),
    { e with spawnargs := removeKeyValue key e.spawnargs }, ?_, ?_, ?_, ?_⟩, habsent base e htarget⟩
  · simp only [MergeAction.apply, modifyNode, htarget]
  · rw [List.getElem?_set_self hlt]
  · exact getKeyValue_removeKeyValue_self key e.spawnargs
  · exact habsent _ _ (List.getElem?_set_self hlt) (getKeyValue_removeKeyValue_self key e.spawnargs)

/-- Witness for C13: removing "_color" from "light_1", the second entity of a
base tree; and removing "name", after which the node is still the target of the
action. -/
theorem RemoveKeyValue_idempotent_witness :
    (MergeAction.RemoveKeyValue 1 "_color").apply (toLive [trigger5, light1Base])
        = .ok [some trigger5, some ⟨[("name", "light_1")], [P1, P2, P3]⟩]
      ∧ (MergeAction.RemoveKeyValue 1 "_color").apply
          [some trigger5, some ⟨[("name", "light_1")], [P1, P2, P3]⟩]
        = .ok [some trigger5, some ⟨[("name", "light_1")], [P1, P2, P3]⟩]
      ∧ (MergeAction.RemoveKeyValue 0 "name").apply (toLive [trigger5])
        = .ok [some ⟨[], []⟩]
      ∧ (MergeAction.RemoveKeyValue 0 "name").apply [some ⟨[], []⟩] = .ok [some ⟨[], []⟩]
      ∧ ∃ base2 e2, (MergeAction.RemoveKeyValue 1 "_color").apply
            (toLive [trigger5, light1Base]) = .ok base2
          ∧ base2[1]? = some (some e2)
          ∧ getKeyValue "_color" e2.spawnargs = none
          ∧ (MergeAction.RemoveKeyValue 1 "_color").apply base2 = .ok base2 :=
  ⟨by rfl, by rfl, by rfl, by rfl,
    (RemoveKeyValue_idempotent 1 "_color" (toLive [trigger5, light1Base]) light1Base
      (by rfl)).1⟩

end merge

end scene
/-! ## Theorems: merge calls that end early -/

namespace map

open scene scene.merge

/-- C21: outside an active merge (the edit mode is not Merge, or it is Merge and
no operation is attached) `finishMergeOperation` returns without an exception
after one log message: no `applyActions` call, no undoable command, and the
preview-node list, the attached operation, the edit mode, the selection mode,
the root and the parent links are what they were. -/
theorem finishMergeOperation_outside_merge (m : Map)
    (h : m.editMode ≠ EditMode.Merge ∨ m.mergeOperation = none) :
    (m.finishMergeOperation).2 = none
      ∧ ((m.finishMergeOperation).1.log = m.log ++ [Effect.warning]
          ∨ (m.finishMergeOperation).1.log = m.log ++ [Effect.error])
      ∧ (m.finishMergeOperation).1.mergeActionNodes = m.mergeActionNodes
      ∧ (m.finishMergeOperation).1.mergeOperation = m.mergeOperation
      ∧ (m.finishMergeOperation).1.editMode = m.editMode
      ∧ (m.finishMergeOperation).1.selectionMode = m.selectionMode
      ∧ (m.finishMergeOperation).1.root = m.root
      ∧ (m.finishMergeOperation).1.parentLinks = m.parentLinks := by
  unfold Map.finishMergeOperation Map.getEditMode
  by_cases hmode : m.editMode = EditMode.Merge
  · have hop : m.mergeOperation = none := h.resolve_left (fun hne => hne hmode)
    simp [hmode, hop]
  · simp [hmode]

theorem finishMergeOperation_outside_merge_witness :
    (leftoverMerge.finishMergeOperation).2 = none
      ∧ ((leftoverMerge.finishMergeOperation).1.log = leftoverMerge.log ++ [Effect.warning]
          ∨ (leftoverMerge.finishMergeOperation).1.log = leftoverMerge.log ++ [Effect.error])
      ∧ (leftoverMerge.finishMergeOperation).1.mergeActionNodes = leftoverMerge.mergeActionNodes
      ∧ (leftoverMerge.finishMergeOperation).1.mergeOperation = leftoverMerge.mergeOperation
      ∧ (leftoverMerge.finishMergeOperation).1.editMode = leftoverMerge.editMode
      ∧ (leftoverMerge.finishMergeOperation).1.selectionMode = leftoverMerge.selectionMode
      ∧ (leftoverMerge.finishMergeOperation).1.root = leftoverMerge.root
      ∧ (leftoverMerge.finishMergeOperation).1.parentLinks = leftoverMerge.parentLinks :=
  finishMergeOperation_outside_merge leftoverMerge (Or.inl (by decide))

/-- C22: when the file dialog is cancelled, or the source file does not exist,
or a base file is given and does not exist, `startMergeOperation` ends before
`abortMergeOperation`: the attached operation, the preview nodes, their parent
links, the edit mode, the selection mode and the root are what they were, and
nothing is logged but the file dialog. -/
theorem startMergeOperation_validates_first (m : Map) (env : MergeEnvironment)
    (args : List String)
    (h : Map.sourceCandidate env args = none
      ∨ (∃ s, Map.sourceCandidate env args = some s ∧ env.fileOrDirExists s = false)
      ∨ (∃ b, args[1]? = some b ∧ env.fileOrDirExists b = false)) :
    (m.startMergeOperation env args).1.mergeOperation = m.mergeOperation
      ∧ (m.startMergeOperation env args).1.mergeActionNodes = m.mergeActionNodes
      ∧ (m.startMergeOperation env args).1.parentLinks = m.parentLinks
      ∧ (m.startMergeOperation env args).1.editMode = m.editMode
      ∧ (m.startMergeOperation env args).1.selectionMode = m.selectionMode
      ∧ (m.startMergeOperation env args).1.root = m.root
      ∧ ((m.startMergeOperation env args).1.log = m.log
          ∨ (m.startMergeOperation env args).1.log = m.log ++ [Effect.fileSelectionDialog])
      ∧ (m.root ≠ none →
          ((m.startMergeOperation env args).2 = none ↔ Map.sourceCandidate env args = none)) := by
  cases hroot : m.root with
  | none =>
    simp [Map.startMergeOperation, hroot]
  | some base =>
    cases args with
    | nil =>
      by_cases hsel : env.fileSelection = ""
      · simp [Map.startMergeOperation, Map.sourceCandidate, hroot, hsel]
      · rcases h with h | ⟨s, hs, hex⟩ | ⟨b, hb, _⟩
        · simp [Map.sourceCandidate, hsel] at h
        · simp only [Map.sourceCandidate, hsel, if_false, Option.some.injEq] at hs
          subst hs
          simp [Map.startMergeOperation, Map.sourceCandidate, hroot, hsel, hex]
        · simp at hb
    | cons a rest =>
      by_cases hexa : env.fileOrDirExists a = false
      · simp [Map.startMergeOperation, Map.sourceCandidate, hroot, hexa]
      · rcases h with h | ⟨s, hs, hex⟩ | ⟨b, hb, hexb⟩
        · simp [Map.sourceCandidate] at h
        · simp only [Map.sourceCandidate, Option.some.injEq] at hs
          subst hs
          exact absurd hex hexa
        · cases rest with
          | nil => simp at hb
          | cons b2 rest2 =>
            simp only [List.getElem?_cons_succ, List.getElem?_cons_zero, Option.some.injEq] at hb
            subst hb
            simp [Map.startMergeOperation, Map.sourceCandidate, hroot, hexa, hexb]

theorem startMergeOperation_validates_first_witness :
    (pendingMerge.startMergeOperation nothingOnDisk ["missing.map"]).1.mergeOperation
        = pendingMerge.mergeOperation
      ∧ (pendingMerge.startMergeOperation nothingOnDisk ["missing.map"]).1.mergeActionNodes
        = pendingMerge.mergeActionNodes
      ∧ (pendingMerge.startMergeOperation nothingOnDisk ["missing.map"]).1.parentLinks
        = pendingMerge.parentLinks
      ∧ (pendingMerge.startMergeOperation nothingOnDisk ["missing.map"]).1.editMode
        = pendingMerge.editMode
      ∧ (pendingMerge.startMergeOperation nothingOnDisk ["missing.map"]).1.selectionMode
        = pendingMerge.selectionMode
      ∧ (pendingMerge.startMergeOperation nothingOnDisk ["missing.map"]).1.root
        = pendingMerge.root
      ∧ ((pendingMerge.startMergeOperation nothingOnDisk ["missing.map"]).1.log
          = pendingMerge.log
        ∨ (pendingMerge.startMergeOperation nothingOnDisk ["missing.map"]).1.log
          = pendingMerge.log ++ [Effect.fileSelectionDialog])
      ∧ (pendingMerge.root ≠ none →
          ((pendingMerge.startMergeOperation nothingOnDisk ["missing.map"]).2 = none
            ↔ Map.sourceCandidate nothingOnDisk ["missing.map"] = none)) :=
  startMergeOperation_validates_first pendingMerge nothingOnDisk ["missing.map"]
    (Or.inr (Or.inl ⟨"missing.map", rfl, rfl⟩))

/-- C23: `startMergeOperation` compares the root loaded from its first argument
with the root of the loaded map as base, and the second argument counts only
through the check that the file exists: two calls from the same state whose
second arguments both name existing files give the same state and the same
outcome as each other and as the call with the first argument alone, whatever
arguments follow. -/
theorem startMergeOperation_ignores_base_argument (m : Map) (env : MergeEnvironment)
    (source base1 base2 : String) (rest1 rest2 : List String)
    (h1 : env.fileOrDirExists base1 = true) (h2 : env.fileOrDirExists base2 = true) :
    m.startMergeOperation env (source :: base1 :: rest1)
        = m.startMergeOperation env (source :: base2 :: rest2)
      ∧ m.startMergeOperation env (source :: base1 :: rest1)
        = m.startMergeOperation env [source]
      ∧ (∀ (base otherRoot : Tree), m.root = some base →
          env.fileOrDirExists source = true →
          env.load source = LoadResult.loaded otherRoot →
          (m.startMergeOperation env (source :: base1 :: rest1)).1.mergeOperation
            = some (MergeOperation.CreateFromComparisonResult
                (GraphComparer.Compare otherRoot base))) := by
  have key : ∀ (b : String) (rest : List String), env.fileOrDirExists b = true →
      m.startMergeOperation env (source :: b :: rest) = m.startMergeOperation env [source] := by
    intro b rest hb
    simp only [Map.startMergeOperation, Map.sourceCandidate, hb]
    cases m.root with
    | none => rfl
    | some base => simp
  refine ⟨(key base1 rest1 h1).trans (key base2 rest2 h2).symm, key base1 rest1 h1, ?_⟩
  intro base otherRoot hroot hex hload
  rw [key base1 rest1 h1]
  obtain ⟨m0, _, heq⟩ := startMergeOperation_eq_startMergeWith m env [source] base source
    hroot rfl hex (fun b hb => by simp at hb)
  rw [heq]
  exact (startMergeWith_loaded m0 env base source otherRoot hload).2.1

theorem startMergeOperation_ignores_base_argument_witness :
    pendingMerge.startMergeOperation otherMapOnDisk ["other.map", "a.map"]
        = pendingMerge.startMergeOperation otherMapOnDisk ["other.map", "b.map", "c.map"]
      ∧ pendingMerge.startMergeOperation otherMapOnDisk ["other.map", "a.map"]
        = pendingMerge.startMergeOperation otherMapOnDisk ["other.map"]
      ∧ (∀ (base otherRoot : Tree), pendingMerge.root = some base →
          otherMapOnDisk.fileOrDirExists "other.map" = true →
          otherMapOnDisk.load "other.map" = LoadResult.loaded otherRoot →
          (pendingMerge.startMergeOperation otherMapOnDisk ["other.map", "a.map"]).1.mergeOperation
            = some (MergeOperation.CreateFromComparisonResult
                (GraphComparer.Compare otherRoot base))) :=
  startMergeOperation_ignores_base_argument pendingMerge otherMapOnDisk "other.map" "a.map"
    "b.map" [] ["c.map"] rfl rfl

end map

/-! ## Theorems: clipping a triangle -/

namespace math

theorem sideChanges_change_start {α : Type} (side : α → Bool) (p a : α) (l : List α) :
    sideChanges side p l ≤ (if side p = side a then 0 else 1) + sideChanges side a l := by
  cases l with
  | nil => simp [sideChanges]
  | cons b rest =>
    simp only [sideChanges]
    generalize sideChanges side b rest = n
    generalize side p = x
    generalize side a = y
    generalize side b = z
    cases x <;> cases y <;> cases z <;> simp <;> omega

/-- Leaving vertices out of a path does not add changes of side. -/
theorem sideChanges_sublist {α : Type} (side : α → Bool) {l1 l2 : List α}
    (h : List.Sublist l1 l2) (p : α) : sideChanges side p l1 ≤ sideChanges side p l2 := by
  induction h generalizing p with
  | slnil => exact le_refl _
  | @cons k1 k2 a _ ih =>
    calc sideChanges side p k1
        ≤ (if side p = side a then 0 else 1) + sideChanges side a k1 :=
          sideChanges_change_start side p a k1
      _ ≤ (if side p = side a then 0 else 1) + sideChanges side a k2 :=
          Nat.add_le_add_left (ih a) _
  | cons₂ a _ ih =>
    simp only [sideChanges]
    exact Nat.add_le_add_left (ih a) _

theorem pathChanges_le_sideChanges {α : Type} (side : α → Bool) (p : α) (l : List α) :
    pathChanges side l ≤ sideChanges side p l := by
  cases l with
  | nil => simp [pathChanges, sideChanges]
  | cons a rest =>
    simp only [pathChanges, sideChanges]
    omega

/-- The parity of the number of changes of side tells whether the two ends of
the path are on the same side. -/
theorem sideChanges_parity {α : Type} (side : α → Bool) (p : α) (l : List α) :
    sideChanges side p l % 2 =
      if side p = side ((p :: l).getLast (List.cons_ne_nil p l)) then 0 else 1 := by
  induction l generalizing p with
  | nil => simp [sideChanges]
  | cons a rest ih =>
    have hlast : (p :: a :: rest).getLast (List.cons_ne_nil p (a :: rest))
        = (a :: rest).getLast (List.cons_ne_nil a rest) := by
      simp [List.getLast_cons]
    simp only [sideChanges, hlast]
    have hrec := ih a
    generalize side ((a :: rest).getLast (List.cons_ne_nil a rest)) = z at hrec ⊢
    generalize sideChanges side a rest = n at hrec ⊢
    generalize side p = x
    generalize side a = y at hrec
    cases x <;> cases y <;> cases z <;> simp at hrec ⊢ <;> omega

/-- Around a closed polygon with at most two changes of side along its
vertices there are at most two changes of side. -/
theorem sideChanges_closed_le_two {α : Type} (side : α → Bool) (l : List α) (last : α)
    (hlast : l.getLast? = some last) (h : pathChanges side l ≤ 2) :
    sideChanges side last l ≤ 2 := by
  cases l with
  | nil => simp at hlast
  | cons a rest =>
    have hl : (a :: rest).getLast (List.cons_ne_nil a rest) = last := by
      rw [List.getLast?_eq_getLast _ (List.cons_ne_nil a rest)] at hlast
      exact Option.some.inj hlast
    have hpar := sideChanges_parity side a rest
    rw [hl] at hpar
    simp only [pathChanges] at h
    simp only [sideChanges]
    by_cases hs : side last = side a
    · simp [hs]
      exact h
    · have hs2 : ¬ side a = side last := fun e => hs e.symm
      simp only [hs, hs2, if_false] at hpar ⊢
      omega

theorem sideChanges_eq_zero {α : Type} (side : α → Bool) (p : α) (l : List α)
    (hp : side p = true) (hl : ∀ v ∈ l, side v = true) : sideChanges side p l = 0 := by
  induction l generalizing p with
  | nil => rfl
  | cons a rest ih =>
    have ha : side a = true := hl a (List.mem_cons_self _ _)
    simp only [sideChanges, hp, ha, if_true, zero_add]
    exact ih a ha (fun v hv => hl v (List.mem_cons_of_mem _ hv))

/-- The scale of a crossing lies between 0 and 1. -/
theorem scale_mem_unit_of_neg (a b : ℚ) (h : decide (a < 0) ≠ decide (b < 0)) :
    0 ≤ a / (a - b) ∧ a / (a - b) ≤ 1 := by
  by_cases ha : a < 0
  · have hb : ¬ b < 0 := by
      intro hb
      simp [ha, hb] at h
    have hden : a - b < 0 := by linarith [not_lt.mp hb]
    refine ⟨div_nonneg_of_nonpos (le_of_lt ha) (le_of_lt hden), ?_⟩
    rw [div_le_one_of_neg hden]
    linarith [not_lt.mp hb]
  · have hb : b < 0 := by
      by_contra hb
      simp [ha, hb] at h
    have hden : 0 < a - b := by linarith [not_lt.mp ha]
    refine ⟨div_nonneg (not_lt.mp ha) (le_of_lt hden), ?_⟩
    rw [div_le_one hden]
    linarith

theorem scale_mem_unit_of_pos (a b : ℚ) (h : decide (a > 0) ≠ decide (b > 0)) :
    0 ≤ a / (a - b) ∧ a / (a - b) ≤ 1 := by
  have := scale_mem_unit_of_neg (-a) (-b) (by simpa using h)
  have e : -a / (-a - -b) = a / (a - b) := by
    rw [show -a - -b = -(a - b) by ring, neg_div_neg_eq]
  rwa [e] at this

end math

namespace math

theorem Vector4.get_sub (a b : Vector4 ℚ) (k : Fin 4) :
    (a.sub b).get k = a.get k - b.get k := by
  fin_cases k <;> rfl

theorem Vector4ClipLT_crossesOnEdge : CrossesOnEdge Vector4ClipLT := by
  intro index i next h
  simp only [Vector4ClipLT, Vector4.get_sub] at h ⊢
  have e : next.get 3 - i.get 3 - (next.get index - i.get index)
      = (i.get index - i.get 3) - (next.get index - next.get 3) := by ring
  rw [e]
  apply scale_mem_unit_of_neg
  intro hd
  apply h
  have h1 : (i.get index < i.get 3) ↔ (i.get index - i.get 3 < 0) := by
    constructor <;> intro h <;> linarith
  have h2 : (next.get index < next.get 3) ↔ (next.get index - next.get 3 < 0) := by
    constructor <;> intro h <;> linarith
  simp only [h1, h2]
  exact hd

theorem Vector4ClipGT_crossesOnEdge : CrossesOnEdge Vector4ClipGT := by
  intro index i next h
  simp only [Vector4ClipGT, Vector4.get_sub] at h ⊢
  have e : -(next.get 3 - i.get 3) - (next.get index - i.get index)
      = (i.get index + i.get 3) - (next.get index + next.get 3) := by ring
  rw [e]
  apply scale_mem_unit_of_pos
  intro hd
  apply h
  have h1 : (i.get index > -i.get 3) ↔ (i.get index + i.get 3 > 0) := by
    constructor <;> intro h <;> linarith
  have h2 : (next.get index > -next.get 3) ↔ (next.get index + next.get 3 > 0) := by
    constructor <;> intro h <;> linarith
  simp only [h1, h2]
  exact hd

/-- The side that `Vector4ClipLT::compare` tells is that of the half-space
`v[index] - v[3] < 0`. -/
theorem Vector4ClipLT_comparesHalfSpace : ComparesHalfSpace Vector4ClipLT := by
  intro index
  fin_cases index
  · refine ⟨⟨1, 0, 0, -1⟩, fun v => ?_⟩
    simp only [Vector4ClipLT, halfSpace, Vector4.get]
    congr 1
    apply propext
    constructor <;> intro h <;> linarith
  · refine ⟨⟨0, 1, 0, -1⟩, fun v => ?_⟩
    simp only [Vector4ClipLT, halfSpace, Vector4.get]
    congr 1
    apply propext
    constructor <;> intro h <;> linarith
  · refine ⟨⟨0, 0, 1, -1⟩, fun v => ?_⟩
    simp only [Vector4ClipLT, halfSpace, Vector4.get]
    congr 1
    apply propext
    constructor <;> intro h <;> linarith
  · refine ⟨⟨0, 0, 0, 0⟩, fun v => ?_⟩
    simp only [Vector4ClipLT, halfSpace, Vector4.get]
    congr 1
    apply propext
    constructor <;> intro h <;> linarith

/-- The side that `Vector4ClipGT::compare` tells is that of the half-space
`-v[index] - v[3] < 0`. -/
theorem Vector4ClipGT_comparesHalfSpace : ComparesHalfSpace Vector4ClipGT := by
  intro index
  fin_cases index
  · refine ⟨⟨-1, 0, 0, -1⟩, fun v => ?_⟩
    simp only [Vector4ClipGT, halfSpace, Vector4.get]
    congr 1
    apply propext
    constructor <;> intro h <;> linarith
  · refine ⟨⟨0, -1, 0, -1⟩, fun v => ?_⟩
    simp only [Vector4ClipGT, halfSpace, Vector4.get]
    congr 1
    apply propext
    constructor <;> intro h <;> linarith
  · refine ⟨⟨0, 0, -1, -1⟩, fun v => ?_⟩
    simp only [Vector4ClipGT, halfSpace, Vector4.get]
    congr 1
    apply propext
    constructor <;> intro h <;> linarith
  · refine ⟨⟨0, 0, 0, -2⟩, fun v => ?_⟩
    simp only [Vector4ClipGT, halfSpace, Vector4.get]
    congr 1
    apply propext
    constructor <;> intro h <;> linarith

namespace Vector4ClipPolygon

theorem convex_combination_neg (s a b : ℚ) (h0 : 0 ≤ s) (h1 : s ≤ 1) (ha : a < 0) (hb : b < 0) :
    (1 - s) * a + s * b < 0 := by
  rcases lt_or_eq_of_le h0 with hpos | hzero
  · have t1 : (1 - s) * a ≤ 0 := mul_nonpos_of_nonneg_of_nonpos (by linarith) (le_of_lt ha)
    have t2 : s * b < 0 := mul_neg_of_pos_of_neg hpos hb
    linarith
  · rw [← hzero]
    linarith

theorem convex_combination_nonneg (s a b : ℚ) (h0 : 0 ≤ s) (h1 : s ≤ 1) (ha : 0 ≤ a)
    (hb : 0 ≤ b) : 0 ≤ (1 - s) * a + s * b := by
  have t1 : 0 ≤ (1 - s) * a := mul_nonneg (by linarith) ha
  have t2 : 0 ≤ s * b := mul_nonneg h0 hb
  linarith

/-- The side of a point on an edge whose two ends are on the same side. -/
theorem halfSpace_on_edge (l i next : Vector4 ℚ) (s : ℚ) (h0 : 0 ≤ s) (h1 : s ≤ 1)
    (hside : halfSpace l i = halfSpace l next) :
    halfSpace l ⟨i.x + s * (next.x - i.x), i.y + s * (next.y - i.y),
        i.z + s * (next.z - i.z), i.w + s * (next.w - i.w)⟩ = halfSpace l i := by
  unfold halfSpace at hside ⊢
  have e : l.x * (i.x + s * (next.x - i.x)) + l.y * (i.y + s * (next.y - i.y))
        + l.z * (i.z + s * (next.z - i.z)) + l.w * (i.w + s * (next.w - i.w))
      = (1 - s) * (l.x * i.x + l.y * i.y + l.z * i.z + l.w * i.w)
        + s * (l.x * next.x + l.y * next.y + l.z * next.z + l.w * next.w) := by ring
  simp only [e]
  generalize l.x * i.x + l.y * i.y + l.z * i.z + l.w * i.w = a at hside ⊢
  generalize l.x * next.x + l.y * next.y + l.z * next.z + l.w * next.w = b at hside ⊢
  by_cases ha : a < 0
  · have hb : b < 0 := by
      by_contra hb
      simp [ha, hb] at hside
    simp [ha, convex_combination_neg s a b h0 h1 ha hb]
  · have hb : ¬ b < 0 := by
      intro hb
      simp [ha, hb] at hside
    have hc := convex_combination_nonneg s a b h0 h1 (not_lt.mp ha) (not_lt.mp hb)
    simp [ha, not_lt.mpr hc]

/-- A crossing is on the side of a half-space on which both ends of its edge
are. -/
theorem halfSpace_crossing (C : ClipPlane ℚ) (hC : CrossesOnEdge C) (index : Fin 4)
    (i next l : Vector4 ℚ) (hcross : C.compare i index ≠ C.compare next index)
    (hside : halfSpace l i = halfSpace l next) :
    halfSpace l (crossing C index i next) = halfSpace l i := by
  obtain ⟨h0, h1⟩ := hC index i next hcross
  exact halfSpace_on_edge l i next _ h0 h1 hside

/-- Putting in the crossings does not change the number of changes of side with
respect to any half-space. -/
theorem sideChanges_refineFrom (C : ClipPlane ℚ) (hC : CrossesOnEdge C) (index : Fin 4)
    (l : Vector4 ℚ) (polygon : List (Vector4 ℚ)) (i : Vector4 ℚ) :
    sideChanges (halfSpace l) i (refineFrom C index i polygon)
      = sideChanges (halfSpace l) i polygon := by
  induction polygon generalizing i with
  | nil => rfl
  | cons next rest ih =>
    simp only [refineFrom]
    by_cases hx : xor (C.compare i index) (C.compare next index) = true
    · have hcross : C.compare i index ≠ C.compare next index := by
        intro e
        rw [e] at hx
        simp at hx
      simp only [hx, if_true, List.singleton_append, List.cons_append, sideChanges, ih next,
        List.nil_append]
      by_cases hside : halfSpace l i = halfSpace l next
      · rw [halfSpace_crossing C hC index i next l hcross hside]
        simp [hside]
      · generalize halfSpace l (crossing C index i next) = x
        generalize sideChanges (halfSpace l) next rest = n
        revert hside
        generalize halfSpace l i = y
        generalize halfSpace l next = z
        intro hside
        cases x <;> cases y <;> cases z <;> simp at hside ⊢
    · have hx2 : xor (C.compare i index) (C.compare next index) = false := by
        simpa using hx
      simp only [hx2, Bool.false_eq_true, if_false, List.nil_append, List.singleton_append,
        sideChanges, ih next]

/-- What `apply` writes is the refined polygon with the vertices on the far
side left out. -/
theorem clipFrom_sublist_refineFrom (C : ClipPlane ℚ) (index : Fin 4) (polygon : List (Vector4 ℚ))
    (i : Vector4 ℚ) :
    List.Sublist (clipFrom C index i polygon) (refineFrom C index i polygon) := by
  induction polygon generalizing i with
  | nil => exact List.Sublist.slnil
  | cons next rest ih =>
    simp only [clipFrom, refineFrom]
    apply List.Sublist.append
    · apply List.Sublist.append (List.Sublist.refl _)
      split
      · exact List.Sublist.refl _
      · exact List.nil_sublist _
    · exact ih next

/-- The number of vertices written: one per change of side and one per vertex
on the near side. -/
theorem length_clipFrom (C : ClipPlane ℚ) (index : Fin 4) (polygon : List (Vector4 ℚ))
    (i : Vector4 ℚ) :
    (clipFrom C index i polygon).length
      = sideChanges (fun v => C.compare v index) i polygon
        + polygon.countP (fun v => C.compare v index) := by
  induction polygon generalizing i with
  | nil => rfl
  | cons next rest ih =>
    simp only [clipFrom, List.length_append, ih next, sideChanges, List.countP_cons]
    generalize sideChanges (fun v => C.compare v index) next rest = n
    generalize List.countP (fun v => C.compare v index) rest = k
    rcases Bool.eq_false_or_eq_true (C.compare i index) with hx | hx <;>
      rcases Bool.eq_false_or_eq_true (C.compare next index) with hy | hy <;>
      simp [hx, hy] <;> omega

end Vector4ClipPolygon

end math

namespace math

theorem sideChanges_le_length {α : Type} (side : α → Bool) (p : α) (l : List α) :
    sideChanges side p l ≤ l.length := by
  induction l generalizing p with
  | nil => exact le_refl _
  | cons a rest ih =>
    simp only [sideChanges, List.length_cons]
    have := ih a
    split <;> omega

/-- Three vertices have two neighbourhoods, so no more than two changes of
side. -/
theorem cutAtMostTwice_of_length_le_three (polygon : List (Vector4 ℚ)) (h : polygon.length ≤ 3) :
    CutAtMostTwice polygon := by
  intro l
  cases polygon with
  | nil => simp [pathChanges]
  | cons a rest =>
    simp only [pathChanges]
    have := sideChanges_le_length (halfSpace l) a rest
    simp only [List.length_cons] at h
    omega

namespace Vector4ClipPolygon

/-- A pass keeps the property that no half-space boundary cuts the polygon more
than twice. -/
theorem cutAtMostTwice_clip (C : ClipPlane ℚ) (hC : CrossesOnEdge C) (polygon : List (Vector4 ℚ))
    (index : Fin 4) (h : CutAtMostTwice polygon) : CutAtMostTwice (clip C polygon index) := by
  intro l
  unfold clip
  cases hlast : polygon.getLast? with
  | none => simp [pathChanges]
  | some last =>
    simp only []
    calc pathChanges (halfSpace l) (clipFrom C index last polygon)
        ≤ sideChanges (halfSpace l) last (clipFrom C index last polygon) :=
          pathChanges_le_sideChanges _ _ _
      _ ≤ sideChanges (halfSpace l) last (refineFrom C index last polygon) :=
          sideChanges_sublist _ (clipFrom_sublist_refineFrom C index polygon last) last
      _ = sideChanges (halfSpace l) last polygon :=
          sideChanges_refineFrom C hC index l polygon last
      _ ≤ 2 := sideChanges_closed_le_two _ polygon last hlast (h l)

/-- A pass over a polygon that no half-space boundary cuts more than twice
writes at most one vertex more than it reads. -/
theorem length_clip_le (C : ClipPlane ℚ) (hH : ComparesHalfSpace C) (polygon : List (Vector4 ℚ))
    (index : Fin 4) (h : CutAtMostTwice polygon) :
    (clip C polygon index).length ≤ polygon.length + 1 := by
  unfold clip
  cases hlast : polygon.getLast? with
  | none => simp
  | some last =>
    simp only []
    rw [length_clipFrom]
    obtain ⟨l, hl⟩ := hH index
    have hfun : (fun v => C.compare v index) = halfSpace l := funext hl
    rw [hfun]
    have hcut := sideChanges_closed_le_two (halfSpace l) polygon last hlast (h l)
    have hcount := List.countP_le_length (halfSpace l) (l := polygon)
    by_cases hall : ∀ v ∈ polygon, halfSpace l v = true
    · have hmem : last ∈ polygon := List.mem_of_getLast?_eq_some hlast
      rw [sideChanges_eq_zero (halfSpace l) last polygon (hall last hmem) hall]
      omega
    · have hne : List.countP (halfSpace l) polygon ≠ polygon.length := by
        intro e
        exact hall (List.countP_eq_length.mp e)
      omega

/-- The loop of `apply` writes what `clipFrom` lists, as long as the output
array has room for it. -/
theorem applyLoop_eq (C : ClipPlane ℚ) (capacity : Nat) (index : Fin 4) (polygon : List (Vector4 ℚ))
    (i : Vector4 ℚ) (written : List (Vector4 ℚ)) (hw : written.length ≤ capacity) :
    applyLoop C capacity index polygon i (C.compare i index) written
      = if written.length + (clipFrom C index i polygon).length ≤ capacity then
          some (written ++ clipFrom C index i polygon)
        else none := by
  induction polygon generalizing i written with
  | nil => simp [applyLoop, clipFrom, hw]
  | cons next rest ih =>
    simp only [applyLoop, clipFrom, store]
    rcases Bool.eq_false_or_eq_true (xor (C.compare i index) (C.compare next index))
      with hx | hx <;>
    rcases Bool.eq_false_or_eq_true (C.compare next index) with hy | hy
    · by_cases h1 : written.length < capacity
      · by_cases h2 : (written ++ [crossing C index i next]).length < capacity
        · have h3 : (written ++ [crossing C index i next] ++ [next]).length ≤ capacity := by
            simp only [List.length_append, List.length_singleton] at h2 ⊢
            omega
          have e := ih next _ h3
          rw [hy] at e
          simp only [hx]
          simp only [hy, h1, h2, if_true, e]
          simp only [List.length_append, List.length_singleton, List.append_assoc]
          congr 1
          apply propext
          constructor <;> intro h <;> omega
        · simp only [hx]
          simp only [hy, h1, h2, if_true, if_false]
          simp only [List.length_append, List.length_singleton] at h2 ⊢
          rw [if_neg]
          omega
      · simp only [hx]
        simp only [hy, h1, if_true, if_false]
        simp only [List.length_append, List.length_singleton]
        rw [if_neg]
        omega
    · by_cases h1 : written.length < capacity
      · have h3 : (written ++ [crossing C index i next]).length ≤ capacity := by
          simp only [List.length_append, List.length_singleton]
          omega
        have e := ih next _ h3
        rw [hy] at e
        simp only [hx]
        simp only [hy, h1, if_true, Bool.false_eq_true, if_false, e]
        simp only [List.length_append, List.length_singleton, List.append_assoc,
          List.length_nil, List.nil_append]
        congr 1
        apply propext
        constructor <;> intro h <;> omega
      · simp only [hx]
        simp only [hy, h1, if_true, if_false, Bool.false_eq_true]
        simp only [List.length_append, List.length_singleton]
        rw [if_neg]
        omega
    · by_cases h1 : written.length < capacity
      · have h3 : (written ++ [next]).length ≤ capacity := by
          simp only [List.length_append, List.length_singleton]
          omega
        have e := ih next _ h3
        rw [hy] at e
        simp only [hx]
        simp only [hy, h1, if_true, Bool.false_eq_true, if_false, e]
        simp only [List.length_append, List.length_singleton, List.append_assoc,
          List.length_nil, List.nil_append]
        congr 1
        apply propext
        constructor <;> intro h <;> omega
      · simp only [hx]
        simp only [hy, h1, if_true, if_false, Bool.false_eq_true]
        simp only [List.length_append, List.length_singleton]
        rw [if_neg]
        omega
    · have e := ih next _ hw
      rw [hy] at e
      simp only [hx]
      simp only [hy, Bool.false_eq_true, if_false, e, List.nil_append]

/-- The function `apply` writes what `clip` lists, as long as the output array
has room for it. -/
theorem apply_eq (C : ClipPlane ℚ) (capacity : Nat) (polygon : List (Vector4 ℚ)) (index : Fin 4) :
    apply C capacity polygon index
      = if (clip C polygon index).length ≤ capacity then some (clip C polygon index)
        else none := by
  unfold apply clip
  cases polygon.getLast? with
  | none => simp
  | some last =>
    simp only []
    rw [applyLoop_eq C capacity index polygon last [] (Nat.zero_le _)]
    simp

/-- One pass of `homogenous_clip_triangle` over a polygon that no half-space
boundary cuts more than twice: it stays within the output array, writes at most
one vertex more than it reads, and its output has the same property. -/
theorem apply_of_cutAtMostTwice (C : ClipPlane ℚ) (hC : CrossesOnEdge C)
    (hH : ComparesHalfSpace C) (capacity : Nat) (polygon : List (Vector4 ℚ)) (index : Fin 4)
    (h : CutAtMostTwice polygon) (hroom : polygon.length + 1 ≤ capacity) :
    ∃ out, apply C capacity polygon index = some out
      ∧ out.length ≤ polygon.length + 1 ∧ CutAtMostTwice out := by
  have hlen := length_clip_le C hH polygon index h
  refine ⟨clip C polygon index, ?_, hlen, cutAtMostTwice_clip C hC polygon index h⟩
  rw [apply_eq, if_pos (le_trans hlen hroom)]

end Vector4ClipPolygon

end math

namespace math

/-- The six passes of `homogenous_clip_triangle` on any content of `clipped`:
each stays within its output array of 9 elements, and pass `k` writes at most
`3 + k` vertices. -/
theorem homogenous_clip_triangle_passes (clipped : List (Vector4 ℚ)) :
    ∃ buffer1 clipped2 buffer3 clipped4 buffer5 clipped6 : List (Vector4 ℚ),
      Vector4ClipPolygon.apply Vector4ClipLT 9 (clipped.take 3) 0 = some buffer1
        ∧ buffer1.length ≤ 4
      ∧ Vector4ClipPolygon.apply Vector4ClipGT 9 buffer1 0 = some clipped2
        ∧ clipped2.length ≤ 5
      ∧ Vector4ClipPolygon.apply Vector4ClipLT 9 clipped2 1 = some buffer3
        ∧ buffer3.length ≤ 6
      ∧ Vector4ClipPolygon.apply Vector4ClipGT 9 buffer3 1 = some clipped4
        ∧ clipped4.length ≤ 7
      ∧ Vector4ClipPolygon.apply Vector4ClipLT 9 clipped4 2 = some buffer5
        ∧ buffer5.length ≤ 8
      ∧ Vector4ClipPolygon.apply Vector4ClipGT 9 buffer5 2 = some clipped6
        ∧ clipped6.length ≤ 9
      ∧ homogenous_clip_triangle clipped = some clipped6 := by
  have h0len : (clipped.take 3).length ≤ 3 := by
    rw [List.length_take]
    exact Nat.min_le_left _ _
  have h0 := cutAtMostTwice_of_length_le_three _ h0len
  obtain ⟨b1, e1, l1, c1⟩ := Vector4ClipPolygon.apply_of_cutAtMostTwice Vector4ClipLT
    Vector4ClipLT_crossesOnEdge Vector4ClipLT_comparesHalfSpace 9 _ 0 h0 (by omega)
  obtain ⟨b2, e2, l2, c2⟩ := Vector4ClipPolygon.apply_of_cutAtMostTwice Vector4ClipGT
    Vector4ClipGT_crossesOnEdge Vector4ClipGT_comparesHalfSpace 9 b1 0 c1 (by omega)
  obtain ⟨b3, e3, l3, c3⟩ := Vector4ClipPolygon.apply_of_cutAtMostTwice Vector4ClipLT
    Vector4ClipLT_crossesOnEdge Vector4ClipLT_comparesHalfSpace 9 b2 1 c2 (by omega)
  obtain ⟨b4, e4, l4, c4⟩ := Vector4ClipPolygon.apply_of_cutAtMostTwice Vector4ClipGT
    Vector4ClipGT_crossesOnEdge Vector4ClipGT_comparesHalfSpace 9 b3 1 c3 (by omega)
  obtain ⟨b5, e5, l5, c5⟩ := Vector4ClipPolygon.apply_of_cutAtMostTwice Vector4ClipLT
    Vector4ClipLT_crossesOnEdge Vector4ClipLT_comparesHalfSpace 9 b4 2 c4 (by omega)
  obtain ⟨b6, e6, l6, _⟩ := Vector4ClipPolygon.apply_of_cutAtMostTwice Vector4ClipGT
    Vector4ClipGT_crossesOnEdge Vector4ClipGT_comparesHalfSpace 9 b5 2 c5 (by omega)
  refine ⟨b1, b2, b3, b4, b5, b6, e1, by omega, e2, by omega, e3, by omega, e4, by omega,
    e5, by omega, e6, by omega, ?_⟩
  simp only [homogenous_clip_triangle, e1, e2, e3, e4, e5, e6, Option.bind_eq_bind,
    Option.some_bind]

/-- In exact arithmetic (the code over `ℚ`), for every matrix and every three
points, whatever `transform` does to a point, each of the six passes of
`homogenous_clip_triangle` stays within its output array of 9 elements and
writes at most 9 vertices (pass `k` at most `3 + k`), and `clipTriangle`
returns with a count of at most 9. -/
theorem clipTriangle_exact_count_le_nine (transform : Matrix4 ℚ → Vector4 ℚ → Vector4 ℚ)
    (M : Matrix4 ℚ) (p0 p1 p2 : Vector3 ℚ) :
    ∃ buffer1 clipped2 buffer3 clipped4 buffer5 clipped6 : List (Vector4 ℚ),
      Vector4ClipPolygon.apply Vector4ClipLT 9
          [ transform M ⟨p0.x, p0.y, p0.z, 1⟩, transform M ⟨p1.x, p1.y, p1.z, 1⟩,
            transform M ⟨p2.x, p2.y, p2.z, 1⟩ ] 0 = some buffer1
        ∧ buffer1.length ≤ 4
      ∧ Vector4ClipPolygon.apply Vector4ClipGT 9 buffer1 0 = some clipped2
        ∧ clipped2.length ≤ 5
      ∧ Vector4ClipPolygon.apply Vector4ClipLT 9 clipped2 1 = some buffer3
        ∧ buffer3.length ≤ 6
      ∧ Vector4ClipPolygon.apply Vector4ClipGT 9 buffer3 1 = some clipped4
        ∧ clipped4.length ≤ 7
      ∧ Vector4ClipPolygon.apply Vector4ClipLT 9 clipped4 2 = some buffer5
        ∧ buffer5.length ≤ 8
      ∧ Vector4ClipPolygon.apply Vector4ClipGT 9 buffer5 2 = some clipped6
        ∧ clipped6.length ≤ 9
      ∧ M.clipTriangle transform p0 p1 p2 = some clipped6 :=
  homogenous_clip_triangle_passes
    [ transform M ⟨p0.x, p0.y, p0.z, 1⟩, transform M ⟨p1.x, p1.y, p1.z, 1⟩,
      transform M ⟨p2.x, p2.y, p2.z, 1⟩ ]

set_option maxRecDepth 1000000 in
/-- C25 fails in the `float` arithmetic of the code: for the matrix
`slantedMatrix` and the three unit points, which `transform` takes to the
vertices `slantedTriangle` (small integers, so the input is exact), the first
five passes of `homogenous_clip_triangle` write 4, 5, 7, 8 and 9 vertices, and
the sixth pass, whose input fills all 9 elements of `buffer`, writes a tenth
vertex beyond the 9 elements of `clipped`: with room for 10 vertices it returns
10, and within 9 elements the pass, `homogenous_clip_triangle` and
`clipTriangle` have no result. -/
theorem clipTriangle_writes_tenth_vertex :
    ∃ buffer1 clipped2 buffer3 clipped4 buffer5 : List (Vector4 Float32),
      Vector4ClipPolygon.apply Vector4ClipLT 9 slantedTriangle 0 = some buffer1
        ∧ buffer1.length = 4
      ∧ Vector4ClipPolygon.apply Vector4ClipGT 9 buffer1 0 = some clipped2
        ∧ clipped2.length = 5
      ∧ Vector4ClipPolygon.apply Vector4ClipLT 9 clipped2 1 = some buffer3
        ∧ buffer3.length = 7
      ∧ Vector4ClipPolygon.apply Vector4ClipGT 9 buffer3 1 = some clipped4
        ∧ clipped4.length = 8
      ∧ Vector4ClipPolygon.apply Vector4ClipLT 9 clipped4 2 = some buffer5
        ∧ buffer5.length = 9
      ∧ Vector4ClipPolygon.apply Vector4ClipGT 9 buffer5 2 = none
      ∧ (Vector4ClipPolygon.apply Vector4ClipGT 10 buffer5 2).map List.length = some 10
      ∧ homogenous_clip_triangle slantedTriangle = none
      ∧ [ slantedMatrix.transformByColumns ⟨1, 0, 0, 1⟩,
          slantedMatrix.transformByColumns ⟨0, 1, 0, 1⟩,
          slantedMatrix.transformByColumns ⟨0, 0, 1, 1⟩ ] = slantedTriangle
      ∧ slantedMatrix.clipTriangle Matrix4.transformByColumns ⟨1, 0, 0⟩ ⟨0, 1, 0⟩ ⟨0, 0, 1⟩
          = none := by
  refine ⟨(Vector4ClipPolygon.apply Vector4ClipLT 9 slantedTriangle 0).getD [],
    ((Vector4ClipPolygon.apply Vector4ClipLT 9 slantedTriangle 0).bind fun buffer1 =>
      Vector4ClipPolygon.apply Vector4ClipGT 9 buffer1 0).getD [],
    ((Vector4ClipPolygon.apply Vector4ClipLT 9 slantedTriangle 0).bind fun buffer1 =>
      (Vector4ClipPolygon.apply Vector4ClipGT 9 buffer1 0).bind fun clipped2 =>
      Vector4ClipPolygon.apply Vector4ClipLT 9 clipped2 1).getD [],
    ((Vector4ClipPolygon.apply Vector4ClipLT 9 slantedTriangle 0).bind fun buffer1 =>
      (Vector4ClipPolygon.apply Vector4ClipGT 9 buffer1 0).bind fun clipped2 =>
      (Vector4ClipPolygon.apply Vector4ClipLT 9 clipped2 1).bind fun buffer3 =>
      Vector4ClipPolygon.apply Vector4ClipGT 9 buffer3 1).getD [],
    ((Vector4ClipPolygon.apply Vector4ClipLT 9 slantedTriangle 0).bind fun buffer1 =>
      (Vector4ClipPolygon.apply Vector4ClipGT 9 buffer1 0).bind fun clipped2 =>
      (Vector4ClipPolygon.apply Vector4ClipLT 9 clipped2 1).bind fun buffer3 =>
      (Vector4ClipPolygon.apply Vector4ClipGT 9 buffer3 1).bind fun clipped4 =>
      Vector4ClipPolygon.apply Vector4ClipLT 9 clipped4 2).getD [], ?_⟩
  decide

end math
/-! ## Theorems: transposition -/

namespace math

namespace Matrix4

/-- C24: for every matrix the in-place `transpose()` leaves what `getTransposed()`
returns, which is the matrix whose entry in row i, column j is the entry of the
original in row j, column i; transposing twice, in either way, gives the
original back. -/
theorem transpose_eq_getTransposed {F : Type} (M : Matrix4 F) :
    M.transpose = M.getTransposed
      ∧ (M.getTransposed).toMatrix = Matrix.transpose M.toMatrix
      ∧ (∀ i j : Fin 4, (M.transpose).toMatrix i j = M.toMatrix j i)
      ∧ (M.transpose).transpose = M
      ∧ (M.getTransposed).getTransposed = M := by
  have h1 : M.transpose = M.getTransposed := rfl
  have h2 : (M.getTransposed).toMatrix = Matrix.transpose M.toMatrix := by
    ext i j
    fin_cases i <;> fin_cases j <;> rfl
  refine ⟨h1, h2, ?_, rfl, rfl⟩
  intro i j
  rw [h1, h2]
  rfl

end Matrix4

end math

